import Mathlib

/-!
# Porter framework: value model, path accessor and diff planner

A shallow embedding of `internal/value` (types.go, helpers.go) and
`internal/plan` (types.go, queue.go, plan.go, tree.go) of the Go sources,
followed by theorems about the embedded functions.

Conventions of the embedding.

* A Go `string` is a Lean `String`; the byte scans of the source look only for
  the ASCII delimiters `[`, `]` and `.`, so on text they are scans over
  characters.
* A Go `map[String]Value` is a list of key/value entries whose keys are
  pairwise distinct (`Value.WF`).  Go leaves the iteration order of a map
  unspecified; the order of the list stands for the order of one run, and
  every statement that depends on it is made up to permutation.
* `Value` is `interface{}`: `Value.null` is the nil interface, `Value.other`
  stands for a dynamic type that is none of Boolean, Integer, Float, String,
  Array, Object.
* A run-time panic of the Go code (index out of range, nil dereference) is an
  explicit outcome of the embedded function.
-/

set_option autoImplicit false

namespace Porter

/-! ## strconv (Go standard library, modelled from its documentation) -/

/-- The decimal digit character of `d < 10`. -/
def digitChar (d : Nat) : Char := Char.ofNat (48 + d)

/-- The decimal digits of `n`, most significant first; `fuel` bounds the
number of digits. -/
def natDigits : Nat → Nat → List Char
  | 0, _ => []
  | fuel + 1, n =>
    if n < 10 then [digitChar n] else natDigits fuel (n / 10) ++ [digitChar (n % 10)]

/-- `strconv.Itoa`: decimal text of an integer, with a leading `-` when it is
negative. -/
def Itoa (i : Int) : String :=
  if i < 0 then ⟨'-' :: natDigits (i.natAbs + 1) i.natAbs⟩
  else ⟨natDigits (i.natAbs + 1) i.natAbs⟩

/-- The value of a decimal digit character, if it is one. -/
def digitVal (c : Char) : Option Nat :=
  if 48 ≤ c.toNat ∧ c.toNat ≤ 57 then some (c.toNat - 48) else none

/-- Reads a run of decimal digits onto the accumulator `acc`; any other
character is a syntax error. -/
def parseDigits : List Char → Nat → Option Nat
  | [], acc => some acc
  | c :: cs, acc =>
    match digitVal c with
    | some d => parseDigits cs (acc * 10 + d)
    | none => none

/-- `strconv.ParseInt(s, 10, 64)`: an optional sign followed by at least one
decimal digit, the value within the range of `int64`; `none` is a returned
error (syntax or range). -/
def ParseInt (s : List Char) : Option Int :=
  match s with
  | [] => none
  | '+' :: cs =>
    if cs = [] then none
    else (parseDigits cs 0).bind fun n => if n < 2 ^ 63 then some (Int.ofNat n) else none
  | '-' :: cs =>
    if cs = [] then none
    else (parseDigits cs 0).bind fun n => if n ≤ 2 ^ 63 then some (-(Int.ofNat n)) else none
  | cs => (parseDigits cs 0).bind fun n => if n < 2 ^ 63 then some (Int.ofNat n) else none

/-! ## internal/value/types.go -/

/-- `Value interface{}` with its dynamic types.  `float` carries the IEEE-754
binary64 bit pattern of the number, read modulo `2 ^ 64`. -/
inductive Value where
  | null
  | boolean (b : Bool)
  | integer (i : Int)
  | float (bits : Nat)
  | string (s : String)
  | array (xs : List Value)
  | object (kvs : List (String × Value))
  | other (tag : Nat)

namespace Value

instance : Inhabited Value := ⟨Value.null⟩

/-- The test `v == nil`. -/
def isNil : Value → Bool
  | null => true
  | _ => false

/-- The type assertion `_, ok := v.(Boolean)`. -/
def isBoolean : Value → Bool
  | boolean _ => true
  | _ => false

/-- The type assertion `_, ok := v.(Float)`. -/
def isFloat : Value → Bool
  | float _ => true
  | _ => false

/-- The type assertion `_, ok := v.(Integer)`. -/
def isInteger : Value → Bool
  | integer _ => true
  | _ => false

/-- The type assertion `_, ok := v.(String)`. -/
def isString : Value → Bool
  | string _ => true
  | _ => false

end Value

/-- The map index expression `m[k]` with the comma-ok form: `none` when the
key is not in the map. -/
def mapLookup (m : List (String × Value)) (k : String) : Option Value :=
  match m with
  | [] => none
  | (k', v) :: rest => if k' = k then some v else mapLookup rest k

/-- The map index expression `m[k]`: the nil interface when the key is not in
the map. -/
def mapIndex (m : List (String × Value)) (k : String) : Value :=
  (mapLookup m k).getD Value.null

/-- The keys of a map. -/
def mapKeys (m : List (String × Value)) : List String := m.map Prod.fst

mutual
/-- A list of entries represents a Go value: the keys of every Object are
pairwise distinct, and every Array is shorter than `2 ^ 63` (lengths are
`int`). -/
def Value.WF : Value → Prop
  | .array xs => xs.length < 2 ^ 63 ∧ Value.WFList xs
  | .object kvs => (mapKeys kvs).Nodup ∧ Value.WFEntries kvs
  | _ => True
/-- Every element of the list is well formed. -/
def Value.WFList : List Value → Prop
  | [] => True
  | x :: xs => Value.WF x ∧ Value.WFList xs
/-- Every value of the entry list is well formed. -/
def Value.WFEntries : List (String × Value) → Prop
  | [] => True
  | (_, v) :: rest => Value.WF v ∧ Value.WFEntries rest
end

/-! ## internal/value/helpers.go: IsEqual -/

/-- A binary64 bit pattern is a NaN: exponent field all ones, fraction not
zero. -/
def f64IsNaN (bits : Nat) : Bool :=
  (bits % 2 ^ 64 / 2 ^ 52) % 2 ^ 11 == 2047 && bits % 2 ^ 52 != 0

/-- A binary64 bit pattern is `+0` or `-0`. -/
def f64IsZero (bits : Nat) : Bool := bits % 2 ^ 63 == 0

/-- The Go comparison `==` of two `float64`: a NaN equals nothing, the two
zeros are equal, every other number equals only itself. -/
def f64Eq (a b : Nat) : Bool :=
  !f64IsNaN a && !f64IsNaN b && (a % 2 ^ 64 == b % 2 ^ 64 || (f64IsZero a && f64IsZero b))

mutual
/-- `IsEqual(v1, v2)`. -/
def IsEqual (v1 v2 : Value) : Bool :=
  if v1.isNil && v2.isNil then true
  else if v1.isNil || v2.isNil then false
  else
    match v1 with
    | .boolean b1 =>
      match v2 with
      | .boolean b2 => b1 == b2
      | _ => false
    | .float f1 =>
      match v2 with
      | .float f2 => f64Eq f1 f2
      | _ => false
    | .integer i1 =>
      match v2 with
      | .integer i2 => i1 == i2
      | _ => false
    | .string s1 =>
      match v2 with
      | .string s2 => s1 == s2
      | _ => false
    | .array v1Arr =>
      match v2 with
      | .array v2Arr =>
        if v1Arr.length != v2Arr.length then false
        else IsEqualElems v1Arr v2Arr
      | _ => false
    | .object v1Obj =>
      match v2 with
      | .object v2Obj =>
        if v1Obj.length != v2Obj.length then false
        else IsEqualEntries v1Obj v2Obj
      | _ => false
    | _ => false
/-- The loop `for i := range v1Arr` of `IsEqual`, on the elements from the
current index on.  It runs after the lengths were found equal, so the second
list never ends first. -/
def IsEqualElems (v1Arr v2Arr : List Value) : Bool :=
  match v1Arr, v2Arr with
  | [], _ => true
  | x :: xs, y :: ys => if !IsEqual x y then false else IsEqualElems xs ys
  | _ :: _, [] => false
/-- The loop `for k, v := range v1Obj` of `IsEqual`, on the entries not yet
visited. -/
def IsEqualEntries (entries : List (String × Value)) (v2Obj : List (String × Value)) : Bool :=
  match entries with
  | [] => true
  | (k, v) :: rest =>
    match mapLookup v2Obj k with
    | none => false
    | some w => if !IsEqual v w then false else IsEqualEntries rest v2Obj
end

/-! ## internal/value/helpers.go: Get -/

/-- The errors that `Get` returns.  The message "Cannot end in period (.)" of
the source is behind a test that cannot fail and is never returned. -/
inductive GetError where
  /-- The error of `strconv.ParseInt`. -/
  | numError
  /-- "Not an object, cannot index using brackets []". -/
  | notIndexable
  /-- "Path cannot end in period (.)". -/
  | pathEndsInPeriod
  /-- "Not an object: cannot index (cannot use [] or .)". -/
  | notObject
  /-- "Not an object: cannot index on a field". -/
  | notObjectField
  deriving DecidableEq

/-- What a call of `Get` does: return a value with a nil error, return an
error, or panic on an index out of range. -/
inductive GetOutcome where
  | ok (v : Value)
  | err (e : GetError)
  | panic

/-- `Get(v, path)` on the characters of `path`.  Every recursive call is on a
proper suffix of the path; `fuel` counts the calls, and `none` means the fuel
ran out. -/
def GetFuel : Nat → Value → List Char → Option GetOutcome
  | 0, _, _ => none
  | fuel + 1, v, path =>
    match path with
    | [] => some (GetOutcome.ok v)
    | curr :: rest =>
      if curr = '[' then
        -- `for curr != ']' { offs++; curr = rune(path[offs]) }`
        match rest.span (fun c => c != ']') with
        | (_, []) => some GetOutcome.panic
        | (seg, _ :: after) =>
          match v with
          | .array vArr =>
            match ParseInt seg with
            | none => some (GetOutcome.err GetError.numError)
            | some i =>
              if 0 ≤ i ∧ i < vArr.length then
                if after = [] then some (GetOutcome.ok (vArr.getD i.toNat Value.null))
                else GetFuel fuel (vArr.getD i.toNat Value.null) after
              else some GetOutcome.panic
          | .object vObj =>
            if after = [] then some (GetOutcome.ok (mapIndex vObj ⟨seg⟩))
            else GetFuel fuel (mapIndex vObj ⟨seg⟩) after
          | _ => some (GetOutcome.err GetError.notIndexable)
      else if curr = '.' then
        if rest.length + 1 > 1 then GetFuel fuel v rest
        else some (GetOutcome.err GetError.pathEndsInPeriod)
      else
        -- `for i := 0; i < len(path); i++` up to the first `.` or `[`
        match path.span (fun c => c != '.' && c != '[') with
        | (seg, []) =>
          match v with
          | .object vObj => some (GetOutcome.ok (mapIndex vObj ⟨seg⟩))
          | _ => some (GetOutcome.err GetError.notObjectField)
        | (seg, c :: after) =>
          match v with
          | .object vObj =>
            if c = '.' then GetFuel fuel (mapIndex vObj ⟨seg⟩) after
            else GetFuel fuel (mapIndex vObj ⟨seg⟩) (c :: after)
          | _ => some (GetOutcome.err GetError.notObject)

/-- `Get(v, path)`. -/
def Get (v : Value) (path : String) : Option GetOutcome :=
  GetFuel (path.length + 1) v path.data

/-! ## internal/plan/types.go -/

/-- `OpType`, in the order of the `iota` enumeration: CREATE = 0, READ = 1,
UPDATE = 2, DELETE = 3. -/
inductive OpType where
  | CREATE
  | READ
  | UPDATE
  | DELETE
  deriving DecidableEq

/-- `Operation`. -/
structure Operation where
  Op : OpType
  Path : String
  Old : Value
  New : Value

/-! ## internal/plan/queue.go -/

/-- `node`; a `*node` is the index of the node in the store of its queue,
`none` is the nil pointer. -/
structure node where
  value : Operation
  prev : Option Nat
  next : Option Nat

/-- `OpQueue`, together with the store `nodes` of the nodes allocated for
it. -/
structure OpQueue where
  nodes : List node
  front : Option Nat
  rear : Option Nat
  length : Nat

/-- `NewOpQueue()`. -/
def NewOpQueue : OpQueue := ⟨[], none, none, 0⟩

namespace OpQueue

/-- `q.IsEmpty()`. -/
def IsEmpty (q : OpQueue) : Bool := q.length == 0

/-- `q.Len()`. -/
def Len (q : OpQueue) : Nat := q.length

/-- `q.Enqueue(op)`; `none` is the panic of a nil dereference. -/
def Enqueue (q : OpQueue) (op : Operation) : Option OpQueue :=
  if q.IsEmpty then
    some ⟨q.nodes ++ [⟨op, none, none⟩], some q.nodes.length, some q.nodes.length, q.length + 1⟩
  else
    match q.rear with
    | none => none
    | some next =>
      match q.nodes[next]? with
      | none => none
      | some nd =>
        some ⟨(q.nodes.set next { nd with prev := some q.nodes.length }) ++ [⟨op, none, some next⟩],
          q.front, some q.nodes.length, q.length + 1⟩

/-- `q.Dequeue()`: the returned operation (`none` for nil) and the queue
afterwards; the outer `none` is the panic of a nil dereference. -/
def Dequeue (q : OpQueue) : Option (Option Operation × OpQueue) :=
  if q.IsEmpty then some (none, q)
  else if q.length = 1 then
    match q.rear with
    | none => none
    | some p =>
      match q.nodes[p]? with
      | none => none
      | some nd => some (some nd.value, ⟨q.nodes, none, none, q.length - 1⟩)
  else
    match q.front with
    | none => none
    | some p =>
      match q.nodes[p]? with
      | none => none
      | some nd =>
        match nd.prev with
        | none => none
        | some p' =>
          match q.nodes[p']? with
          | none => none
          | some nd' =>
            some (some nd.value,
              ⟨q.nodes.set p' { nd' with next := none }, some p', q.rear, q.length - 1⟩)

/-- `q.Peek()`; the outer `none` is the panic of a nil dereference. -/
def Peek (q : OpQueue) : Option (Option Operation) :=
  if q.IsEmpty then some none
  else
    match q.front with
    | none => none
    | some p =>
      match q.nodes[p]? with
      | none => none
      | some nd => some (some nd.value)

/-- The loop `for !q.IsEmpty() { op := q.Dequeue(); ... }` that the callers and
tests use to read a queue: the operations dequeued, in order; `n` bounds the
number of rounds. -/
def drain : Nat → OpQueue → Option (List Operation)
  | 0, _ => some []
  | n + 1, q =>
    if q.IsEmpty then some []
    else
      match q.Dequeue with
      | some (some op, q') => (drain n q').map fun ops => op :: ops
      | _ => none

/-- The operations of a queue in the order in which `Dequeue` hands them
out. -/
def contents (q : OpQueue) : Option (List Operation) := q.drain q.length

end OpQueue

/-! ## internal/plan/plan.go -/

/-- `contains(paths, path)`. -/
def contains (paths : List String) (path : String) : Bool :=
  match paths with
  | [] => false
  | _path :: rest => if _path = path then true else contains rest path

/-- `enqueuePrimitiveOp(ok, old, new, q, prefix)`. -/
def enqueuePrimitiveOp (ok : Bool) (old new : Value) (q : OpQueue) (pfx : String) :
    Option OpQueue :=
  if !ok || !IsEqual old new then q.Enqueue ⟨OpType.UPDATE, pfx, old, new⟩
  else q.Enqueue ⟨OpType.READ, pfx, old, new⟩

/-- The path of a child: `prefix + "[" + seg + "]"`. -/
def childPath (pfx seg : String) : String := pfx ++ "[" ++ seg ++ "]"

/-- The loop `for i := newLen; i < oldLen; i++` of the Array case: one DELETE
for each surplus element of the old array, `i` being the index of the first
element of `surplus`. -/
def enqueueDeletes (surplus : List Value) (i : Nat) (q : OpQueue) (pfx : String) :
    Option OpQueue :=
  match surplus with
  | [] => some q
  | x :: xs =>
    (q.Enqueue ⟨OpType.DELETE, childPath pfx (Itoa i), x, Value.null⟩).bind fun q =>
      enqueueDeletes xs (i + 1) q pfx

/-- The loop `for i := oldLen; i < newLen; i++` of the Array case: one CREATE
for each surplus element of the new array. -/
def enqueueCreates (surplus : List Value) (i : Nat) (q : OpQueue) (pfx : String) :
    Option OpQueue :=
  match surplus with
  | [] => some q
  | x :: xs =>
    (q.Enqueue ⟨OpType.CREATE, childPath pfx (Itoa i), Value.null, x⟩).bind fun q =>
      enqueueCreates xs (i + 1) q pfx

/-- The loop `for k := range oldKeys` of the Object case. -/
def enqueueKeyDeletes (oldKeys : List String) (oldObj : List (String × Value)) (q : OpQueue)
    (pfx : String) : Option OpQueue :=
  match oldKeys with
  | [] => some q
  | k :: ks =>
    (q.Enqueue ⟨OpType.DELETE, childPath pfx k, mapIndex oldObj k, Value.null⟩).bind fun q =>
      enqueueKeyDeletes ks oldObj q pfx

/-- The loop `for k := range newKeys` of the Object case. -/
def enqueueKeyCreates (newKeys : List String) (newObj : List (String × Value)) (q : OpQueue)
    (pfx : String) : Option OpQueue :=
  match newKeys with
  | [] => some q
  | k :: ks =>
    (q.Enqueue ⟨OpType.CREATE, childPath pfx k, Value.null, mapIndex newObj k⟩).bind fun q =>
      enqueueKeyCreates ks newObj q pfx

mutual
/-- `genOperationRecursive(old, new, q, prefix, paths...)`: the queue after
the walk, `none` if an `Enqueue` panicked. -/
def genOperationRecursive (old new : Value) (q : OpQueue) (pfx : String)
    (paths : List String) : Option OpQueue :=
  if old.isNil && new.isNil then some q
  else if old.isNil && !new.isNil then q.Enqueue ⟨OpType.CREATE, pfx, old, new⟩
  else if !old.isNil && new.isNil then q.Enqueue ⟨OpType.DELETE, pfx, old, new⟩
  else if contains paths pfx then
    if !IsEqual old new then q.Enqueue ⟨OpType.UPDATE, pfx, old, new⟩
    else q.Enqueue ⟨OpType.READ, pfx, old, new⟩
  else
    match old with
    | .boolean _ => enqueuePrimitiveOp new.isBoolean old new q pfx
    | .float _ => enqueuePrimitiveOp new.isFloat old new q pfx
    | .integer _ => enqueuePrimitiveOp new.isInteger old new q pfx
    | .string _ => enqueuePrimitiveOp new.isString old new q pfx
    | .array oldArr =>
      match new with
      | .array newArr =>
        (genSharedIndices oldArr newArr 0 q pfx paths).bind fun q =>
          if oldArr.length > newArr.length then
            enqueueDeletes (oldArr.drop newArr.length) newArr.length q pfx
          else if oldArr.length < newArr.length then
            enqueueCreates (newArr.drop oldArr.length) oldArr.length q pfx
          else some q
      | _ => enqueuePrimitiveOp false old new q pfx
    | .object oldObj =>
      match new with
      | .object newObj =>
        (genSharedKeys oldObj newObj (mapKeys newObj) [] q pfx paths).bind fun st =>
          (enqueueKeyDeletes st.2.1 oldObj st.2.2 pfx).bind fun q =>
            enqueueKeyCreates st.1 newObj q pfx
      | _ => enqueuePrimitiveOp false old new q pfx
    | _ => some q
/-- The loop over the shared indices of the Array case, `i` being the index of
the first elements of the two lists (the elements from index `i` on).  The
source counts with a float64 up to `math.Min` of the two lengths, which is
exact for lengths below `2 ^ 53`, as every slice in memory has. -/
def genSharedIndices (oldArr newArr : List Value) (i : Nat) (q : OpQueue) (pfx : String)
    (paths : List String) : Option OpQueue :=
  match oldArr, newArr with
  | o :: os, n :: ns =>
    (genOperationRecursive o n q (childPath pfx (Itoa (i : Int))) paths).bind fun q =>
      genSharedIndices os ns (i + 1) q pfx paths
  | _, _ => some q
/-- The loop `for k := range oldObj` of the Object case on the entries not yet
visited, with the key sets `newKeys` and `oldKeys` as they stand; the result
is the two key sets and the queue after the loop.  The keys of a map are
distinct, so `oldObj[k]` is the value of the entry at hand and `oldKeys[k] = 0`
adds a new key. -/
def genSharedKeys (entries : List (String × Value)) (newObj : List (String × Value))
    (newKeys oldKeys : List String) (q : OpQueue) (pfx : String) (paths : List String) :
    Option (List String × List String × OpQueue) :=
  match entries with
  | [] => some (newKeys, oldKeys, q)
  | (k, v) :: rest =>
    if k ∈ newKeys then
      (genOperationRecursive v (mapIndex newObj k) q (childPath pfx k) paths).bind fun q =>
        genSharedKeys rest newObj (newKeys.filter fun x => x != k) oldKeys q pfx paths
    else genSharedKeys rest newObj newKeys (oldKeys ++ [k]) q pfx paths
end

/-- `CreateOpQueue(old, new, paths...)`. -/
def CreateOpQueue (old new : Value) (paths : List String) : Option OpQueue :=
  genOperationRecursive old new NewOpQueue "" paths

/-- The operations that the walk at prefix `pfx` puts on a new queue, read by
dequeuing them. -/
def emitted (old new : Value) (pfx : String) (paths : List String) : Option (List Operation) :=
  (genOperationRecursive old new NewOpQueue pfx paths).bind OpQueue.contents

/-- The operations of the plan, read by dequeuing them. -/
def planOps (old new : Value) (paths : List String) : Option (List Operation) :=
  (CreateOpQueue old new paths).bind OpQueue.contents

/-! ## The walk as a list of operations

The functions below repeat `genOperationRecursive` and its loops with a list
in place of the queue.  `genOperationRecursive_spec` shows that the queue the
code builds holds exactly this list after what it held before. -/

/-- The operation that `enqueuePrimitiveOp` enqueues. -/
def primitiveOp (ok : Bool) (old new : Value) (pfx : String) : Operation :=
  if !ok || !IsEqual old new then ⟨OpType.UPDATE, pfx, old, new⟩
  else ⟨OpType.READ, pfx, old, new⟩

/-- The operations of `enqueueDeletes`. -/
def deleteOps (surplus : List Value) (i : Nat) (pfx : String) : List Operation :=
  match surplus with
  | [] => []
  | x :: xs =>
    ⟨OpType.DELETE, childPath pfx (Itoa (i : Int)), x, Value.null⟩ :: deleteOps xs (i + 1) pfx

/-- The operations of `enqueueCreates`. -/
def createOps (surplus : List Value) (i : Nat) (pfx : String) : List Operation :=
  match surplus with
  | [] => []
  | x :: xs =>
    ⟨OpType.CREATE, childPath pfx (Itoa (i : Int)), Value.null, x⟩ :: createOps xs (i + 1) pfx

/-- The operations of `enqueueKeyDeletes`. -/
def keyDeleteOps (oldKeys : List String) (oldObj : List (String × Value)) (pfx : String) :
    List Operation :=
  oldKeys.map fun k => ⟨OpType.DELETE, childPath pfx k, mapIndex oldObj k, Value.null⟩

/-- The operations of `enqueueKeyCreates`. -/
def keyCreateOps (newKeys : List String) (newObj : List (String × Value)) (pfx : String) :
    List Operation :=
  newKeys.map fun k => ⟨OpType.CREATE, childPath pfx k, Value.null, mapIndex newObj k⟩

/-- The key set `newKeys` after the loop `for k := range oldObj`. -/
def restNewKeys (entries : List (String × Value)) (newKeys : List String) : List String :=
  match entries with
  | [] => newKeys
  | (k, _) :: rest =>
    if k ∈ newKeys then restNewKeys rest (newKeys.filter fun x => x != k)
    else restNewKeys rest newKeys

/-- The key set `oldKeys` after the loop `for k := range oldObj`. -/
def restOldKeys (entries : List (String × Value)) (newKeys oldKeys : List String) :
    List String :=
  match entries with
  | [] => oldKeys
  | (k, _) :: rest =>
    if k ∈ newKeys then restOldKeys rest (newKeys.filter fun x => x != k) oldKeys
    else restOldKeys rest newKeys (oldKeys ++ [k])

mutual
/-- The operations that `genOperationRecursive` enqueues, in order. -/
def walk (old new : Value) (pfx : String) (paths : List String) : List Operation :=
  if old.isNil && new.isNil then []
  else if old.isNil && !new.isNil then [⟨OpType.CREATE, pfx, old, new⟩]
  else if !old.isNil && new.isNil then [⟨OpType.DELETE, pfx, old, new⟩]
  else if contains paths pfx then
    if !IsEqual old new then [⟨OpType.UPDATE, pfx, old, new⟩]
    else [⟨OpType.READ, pfx, old, new⟩]
  else
    match old with
    | .boolean _ => [primitiveOp new.isBoolean old new pfx]
    | .float _ => [primitiveOp new.isFloat old new pfx]
    | .integer _ => [primitiveOp new.isInteger old new pfx]
    | .string _ => [primitiveOp new.isString old new pfx]
    | .array oldArr =>
      match new with
      | .array newArr =>
        walkIndices oldArr newArr 0 pfx paths ++
          (if oldArr.length > newArr.length then
            deleteOps (oldArr.drop newArr.length) newArr.length pfx
          else if oldArr.length < newArr.length then
            createOps (newArr.drop oldArr.length) oldArr.length pfx
          else [])
      | _ => [primitiveOp false old new pfx]
    | .object oldObj =>
      match new with
      | .object newObj =>
        walkKeys oldObj newObj (mapKeys newObj) pfx paths ++
          (keyDeleteOps (restOldKeys oldObj (mapKeys newObj) []) oldObj pfx ++
            keyCreateOps (restNewKeys oldObj (mapKeys newObj)) newObj pfx)
      | _ => [primitiveOp false old new pfx]
    | _ => []
/-- The operations of `genSharedIndices`. -/
def walkIndices (oldArr newArr : List Value) (i : Nat) (pfx : String) (paths : List String) :
    List Operation :=
  match oldArr, newArr with
  | o :: os, n :: ns =>
    walk o n (childPath pfx (Itoa (i : Int))) paths ++ walkIndices os ns (i + 1) pfx paths
  | _, _ => []
/-- The operations of `genSharedKeys`. -/
def walkKeys (entries : List (String × Value)) (newObj : List (String × Value))
    (newKeys : List String) (pfx : String) (paths : List String) : List Operation :=
  match entries with
  | [] => []
  | (k, v) :: rest =>
    if k ∈ newKeys then
      walk v (mapIndex newObj k) (childPath pfx k) paths ++
        walkKeys rest newObj (newKeys.filter fun x => x != k) pfx paths
    else walkKeys rest newObj newKeys pfx paths
end

/-! ## The queue as a list -/

/-- The nodes at the addresses `ptrs` carry the operations `ops` and each is
linked by `prev` to the one after it. -/
def Chain (nodes : List node) : List Nat → List Operation → Prop
  | [], [] => True
  | p :: ps, x :: xs =>
    (∃ nd, nodes[p]? = some nd ∧ nd.value = x ∧ (ps ≠ [] → nd.prev = ps.head?)) ∧
      Chain nodes ps xs
  | _, _ => False

/-- The queue `q` holds the operations `l`, front first: its length is that
of `l`, and `front` and `rear` are the two ends of a chain of distinct nodes
carrying `l`. -/
def OpQueue.Holds (q : OpQueue) (l : List Operation) : Prop :=
  q.length = l.length ∧
    ∃ ptrs : List Nat, ptrs.Nodup ∧ (∀ p ∈ ptrs, p < q.nodes.length) ∧ Chain q.nodes ptrs l ∧
      (l ≠ [] → q.front = ptrs.head? ∧ q.rear = ptrs.getLast?)

/-- `Enqueue` of each operation of the list in turn. -/
def enqueueAll (q : OpQueue) : List Operation → Option OpQueue
  | [] => some q
  | op :: ops => (q.Enqueue op).bind fun q => enqueueAll q ops

/-- Started with the old value `old` on a queue that holds `l`, the walk does not
panic and leaves a queue that holds `l` followed by the operations of `walk`. -/
def WalkSpec (paths : List String) (old : Value) : Prop :=
  ∀ (new : Value) (q : OpQueue) (pfx : String) (l : List Operation), q.Holds l →
    ∃ q', genOperationRecursive old new q pfx paths = some q' ∧
      q'.Holds (l ++ walk old new pfx paths)

/-! ## Notions of the specification -/

/-- The four scalar variants: Boolean, Integer, Float, String. -/
def Value.isScalar : Value → Bool
  | .boolean _ => true
  | .integer _ => true
  | .float _ => true
  | .string _ => true
  | _ => false

/-- The dynamic type of a value as a number; all unrecognised types count as
one. -/
def Value.variant : Value → Nat
  | .null => 0
  | .boolean _ => 1
  | .integer _ => 2
  | .float _ => 3
  | .string _ => 4
  | .array _ => 5
  | .object _ => 6
  | .other _ => 7

/-- Two values are of the same scalar variant and have equal payloads, two
Float payloads being equal when the float64 comparison `==` says so. -/
def sameScalar : Value → Value → Bool
  | .boolean a, .boolean b => a == b
  | .integer a, .integer b => a == b
  | .float a, .float b => f64Eq a b
  | .string a, .string b => a == b
  | _, _ => false

/-- The shape that the specification asks of an emitted operation: CREATE has
no old value, DELETE has no new value, READ and UPDATE have both, which
`IsEqual` finds equal for READ and unequal for UPDATE. -/
def Operation.WellFormed (op : Operation) : Prop :=
  (op.Op = OpType.CREATE → op.Old = Value.null) ∧
  (op.Op = OpType.DELETE → op.New = Value.null) ∧
  (op.Op = OpType.READ →
    op.Old ≠ Value.null ∧ op.New ≠ Value.null ∧ IsEqual op.Old op.New = true) ∧
  (op.Op = OpType.UPDATE →
    op.Old ≠ Value.null ∧ op.New ≠ Value.null ∧ IsEqual op.Old op.New = false)

mutual
/-- The depth of a value tree: the number of values on its longest branch,
the absent value counting as a leaf. -/
def Value.depth : Value → Nat
  | .array xs => 1 + Value.depthList xs
  | .object kvs => 1 + Value.depthEntries kvs
  | _ => 1
/-- The largest depth among the elements of an Array. -/
def Value.depthList : List Value → Nat
  | [] => 0
  | x :: xs => max (Value.depth x) (Value.depthList xs)
/-- The largest depth among the values of an Object. -/
def Value.depthEntries : List (String × Value) → Nat
  | [] => 0
  | (_, v) :: rest => max (Value.depth v) (Value.depthEntries rest)
end

mutual
/-- The depth of the recursion of `genOperationRecursive`: the largest number
of activations of the function that are on the call stack at once, counting
the outermost one. -/
def callDepth (old new : Value) (pfx : String) (paths : List String) : Nat :=
  if old.isNil && new.isNil then 1
  else if old.isNil && !new.isNil then 1
  else if !old.isNil && new.isNil then 1
  else if contains paths pfx then 1
  else
    match old with
    | .array oldArr =>
      match new with
      | .array newArr => 1 + callDepthIndices oldArr newArr 0 pfx paths
      | _ => 1
    | .object oldObj =>
      match new with
      | .object newObj => 1 + callDepthKeys oldObj newObj (mapKeys newObj) pfx paths
      | _ => 1
    | _ => 1
/-- The deepest recursion among the calls of the loop over shared indices. -/
def callDepthIndices (oldArr newArr : List Value) (i : Nat) (pfx : String)
    (paths : List String) : Nat :=
  match oldArr, newArr with
  | o :: os, n :: ns =>
    max (callDepth o n (childPath pfx (Itoa (i : Int))) paths)
      (callDepthIndices os ns (i + 1) pfx paths)
  | _, _ => 0
/-- The deepest recursion among the calls of the loop over the keys of the old
Object. -/
def callDepthKeys (entries : List (String × Value)) (newObj : List (String × Value))
    (newKeys : List String) (pfx : String) (paths : List String) : Nat :=
  match entries with
  | [] => 0
  | (k, v) :: rest =>
    if k ∈ newKeys then
      max (callDepth v (mapIndex newObj k) (childPath pfx k) paths)
        (callDepthKeys rest newObj (newKeys.filter fun x => x != k) pfx paths)
    else callDepthKeys rest newObj newKeys pfx paths
end

mutual
/-- The value is built from the seven variants only and none of its Floats is
a NaN. -/
def Value.plain : Value → Bool
  | .float f => !f64IsNaN f
  | .other _ => false
  | .array xs => Value.plainList xs
  | .object kvs => Value.plainEntries kvs
  | _ => true
/-- Every element of the list is plain. -/
def Value.plainList : List Value → Bool
  | [] => true
  | x :: xs => Value.plain x && Value.plainList xs
/-- Every value of the entry list is plain. -/
def Value.plainEntries : List (String × Value) → Bool
  | [] => true
  | (_, v) :: rest => Value.plain v && Value.plainEntries rest
end

mutual
/-- The scalar positions of a value below the address `pfx`: the bracketed
address of each Boolean, Integer, Float and String in it, with that scalar. -/
def scalarPositions : Value → String → List (String × Value)
  | .boolean b, pfx => [(pfx, Value.boolean b)]
  | .integer i, pfx => [(pfx, Value.integer i)]
  | .float f, pfx => [(pfx, Value.float f)]
  | .string s, pfx => [(pfx, Value.string s)]
  | .array xs, pfx => scalarPositionsList xs 0 pfx
  | .object kvs, pfx => scalarPositionsEntries kvs pfx
  | .null, _ => []
  | .other _, _ => []
/-- The scalar positions in the elements of an Array, `i` being the index of
the first element of the list. -/
def scalarPositionsList : List Value → Nat → String → List (String × Value)
  | [], _, _ => []
  | x :: xs, i, pfx =>
    scalarPositions x (childPath pfx (Itoa (i : Int))) ++ scalarPositionsList xs (i + 1) pfx
/-- The scalar positions in the values of an Object. -/
def scalarPositionsEntries : List (String × Value) → String → List (String × Value)
  | [], _ => []
  | (k, v) :: rest, pfx => scalarPositions v (childPath pfx k) ++ scalarPositionsEntries rest pfx
end

mutual
/-- The keys of all the Objects in a value, at every depth. -/
def Value.allKeys : Value → List String
  | .array xs => Value.allKeysList xs
  | .object kvs => Value.allKeysEntries kvs
  | _ => []
/-- The keys of all the Objects in the elements of an Array. -/
def Value.allKeysList : List Value → List String
  | [] => []
  | x :: xs => Value.allKeys x ++ Value.allKeysList xs
/-- The keys of an Object and of all the Objects in its values. -/
def Value.allKeysEntries : List (String × Value) → List String
  | [] => []
  | (k, v) :: rest => k :: (Value.allKeys v ++ Value.allKeysEntries rest)
end

/-- `Get` resolves the path `rel` from `v` to the value `r` with a nil error,
for every amount of fuel above the length of the path. -/
def Resolves (v : Value) (rel : List Char) (r : Value) : Prop :=
  ∀ f : Nat, rel.length < f → GetFuel f v rel = some (GetOutcome.ok r)

/-- The path of the operation is `pfx` followed by a path that `Get` resolves
from `old` to the old value of the operation, unless it is a CREATE, and from
`new` to its new value, unless it is a DELETE. -/
def PathOK (old new : Value) (pfx : String) (op : Operation) : Prop :=
  ∃ rel : List Char, op.Path = pfx ++ ⟨rel⟩ ∧
    (op.Op ≠ OpType.CREATE → Resolves old rel op.Old) ∧
    (op.Op ≠ OpType.DELETE → Resolves new rel op.New)

/-! ## Notions of the specification: equality and path resolution -/

/-- The one-level reading of structural equality: two Arrays have equal
length and `IsEqual` elements at every index, two Objects have the same key
set and `IsEqual` values at every key, and any other two values are the same
scalar variant with the same payload. -/
def SameStructure (a b : Value) : Prop :=
  match a, b with
  | .array xs, .array ys =>
    xs.length = ys.length ∧
      ∀ i, i < xs.length → IsEqual (xs.getD i Value.null) (ys.getD i Value.null) = true
  | .object m1, .object m2 =>
    (∀ k, k ∈ mapKeys m1 ↔ k ∈ mapKeys m2) ∧
      ∀ k, k ∈ mapKeys m1 → IsEqual (mapIndex m1 k) (mapIndex m2 k) = true
  | a, b => sameScalar a b = true

/-- The value can be indexed: it is an Array or an Object. -/
def Value.isIndexable : Value → Bool
  | .array _ => true
  | .object _ => true
  | _ => false

/-- Each `[` of the path is followed later by a `]`. -/
def bracketsClosed : List Char → Bool
  | [] => true
  | c :: rest => (c != '[' || rest.contains ']') && bracketsClosed rest

/-- The recursive call that `Get(v, path)` makes, if it makes one: the value
and the path it passes on. -/
def GetCall (v : Value) (path : List Char) : Option (Value × List Char) :=
  match path with
  | [] => none
  | curr :: rest =>
    if curr = '[' then
      match rest.span (fun c => c != ']') with
      | (_, []) => none
      | (seg, _ :: after) =>
        match v with
        | .array vArr =>
          match ParseInt seg with
          | none => none
          | some i =>
            if 0 ≤ i ∧ i < vArr.length then
              if after = [] then none else some (vArr.getD i.toNat Value.null, after)
            else none
        | .object vObj => if after = [] then none else some (mapIndex vObj ⟨seg⟩, after)
        | _ => none
    else if curr = '.' then
      if rest.length + 1 > 1 then some (v, rest) else none
    else
      match path.span (fun c => c != '.' && c != '[') with
      | (_, []) => none
      | (seg, c :: after) =>
        match v with
        | .object vObj =>
          if c = '.' then some (mapIndex vObj ⟨seg⟩, after)
          else some (mapIndex vObj ⟨seg⟩, c :: after)
        | _ => none

/-- The resolution of the path `p` from `v` reaches the value `x` with the
path `rest` still to resolve: `Get(x, rest)` is `Get(v, p)` itself or one of
the recursive calls under it. -/
inductive Reaches : Value → List Char → Value → List Char → Prop where
  | here (v : Value) (p : List Char) : Reaches v p v p
  | call {v v' x : Value} {p p' rest : List Char} :
      GetCall v p = some (v', p') → Reaches v' p' x rest → Reaches v p x rest

/-! ## internal/plan/tree.go

The nodes of a tree live in a store; a `*TreeNode` is the index of the node in
the store, `none` is the nil pointer.  A new node gets the next free index.
An outcome `none` of a function means that the call does not return: a nil
dereference, an index out of range, or a recursion that does not end. -/

/-- `TreeNode`.  `val` is the queue that the pointer `val` points to, `none`
for a nil pointer. -/
structure TreeNode where
  children : List Nat
  parent : Option Nat
  val : Option OpQueue

/-- `OpQueueTree`. -/
structure OpQueueTree where
  Root : Option Nat

/-- `NewOpQueueTree()`. -/
def NewOpQueueTree : OpQueueTree := ⟨none⟩

/-- `t.AddChild(s, parent)`: the new child and the store afterwards. -/
def AddChild (store : List TreeNode) (s : Option OpQueue) (parent : Option Nat) :
    Option (Nat × List TreeNode) :=
  match parent with
  | none => none
  | some p =>
    match store[p]? with
    | none => none
    | some nd =>
      some (store.length,
        store.set p { nd with children := nd.children ++ [store.length] } ++
          [⟨[], some p, s⟩])

/-- The test `len(node.children) == 0 && node.val.Len() == 0`; `none` is the
nil dereference of `val`, which the test reaches only for a node without
children. -/
def leafAndEmpty (nd : TreeNode) : Option Bool :=
  if nd.children.length == 0 then
    match nd.val with
    | none => none
    | some q => some (q.Len == 0)
  else some false

/-- The loop `for _, i := range remove { a[i] = a[len(a)-1] }` of
`removeChildren` on the slice `a`. -/
def overwriteWithLast (a : List Nat) : List Nat → Option (List Nat)
  | [] => some a
  | i :: rest =>
    if i < a.length then overwriteWithLast (a.set i (a.getD (a.length - 1) 0)) rest
    else none

/-- `node.removeChildren(remove)`: the store afterwards. -/
def removeChildren (store : List TreeNode) (node : Nat) (remove : List Nat) :
    Option (List TreeNode) :=
  match store[node]? with
  | none => none
  | some nd =>
    match overwriteWithLast nd.children remove with
    | none => none
    | some a =>
      if remove.length ≤ a.length then
        some (store.set node { nd with children := a.take (a.length - remove.length) })
      else none

/-- The loop `for i, _node := range node.children` of `pruneRecursive`, on the
children from index `i` on; `call` is the recursive call.  The result is the
slice `remove` and the store after the loop. -/
def pruneChildren (call : List TreeNode → Nat → Option (Bool × List TreeNode)) :
    List Nat → Nat → List TreeNode → List Nat → Option (List Nat × List TreeNode)
  | [], _, store, remove => some (remove, store)
  | _node :: rest, i, store, remove =>
    match call store _node with
    | none => none
    | some (canRemove, store') =>
      pruneChildren call rest (i + 1) store' (if canRemove then remove ++ [i] else remove)

/-- `node.pruneRecursive()`: the returned flag and the store afterwards;
`fuel` bounds the depth of the recursion. -/
def pruneRecursive : Nat → List TreeNode → Nat → Option (Bool × List TreeNode)
  | 0, _, _ => none
  | fuel + 1, store, node =>
    match store[node]? with
    | none => none
    | some nd =>
      match leafAndEmpty nd with
      | none => none
      | some true => some (true, store)
      | some false =>
        match pruneChildren (pruneRecursive fuel) nd.children 0 store [] with
        | none => none
        | some (remove, store1) =>
          match removeChildren store1 node remove with
          | none => none
          | some store2 =>
            match store2[node]? with
            | none => none
            | some nd2 =>
              match leafAndEmpty nd2 with
              | none => none
              | some b => some (b, store2)

/-- `t.Prune()`: the store afterwards.  The depth of a tree is less than the
number of its nodes, which bounds the recursion. -/
def Prune (store : List TreeNode) (t : OpQueueTree) : Option (List TreeNode) :=
  match t.Root with
  | none => some store
  | some root => (pruneRecursive (store.length + 1) store root).map Prod.snd

/-- The loop `for _, _node := range node.children` of `getNLeavesRecursive`;
`call` is the recursive call. -/
def leavesOfChildren (call : Nat → List Nat → Option (List Nat)) (n : Int) :
    List Nat → List Nat → Option (List Nat)
  | [], currNodes => some currNodes
  | _node :: rest, currNodes =>
    match call _node currNodes with
    | none => none
    | some currNodes' =>
      if (currNodes'.length : Int) == n then some currNodes'
      else leavesOfChildren call n rest currNodes'

/-- `getNLeavesRecursive(n, node, currNodes)`; `fuel` bounds the depth of the
recursion. -/
def getNLeavesRecursive : Nat → List TreeNode → Int → Nat → List Nat → Option (List Nat)
  | 0, _, _, _, _ => none
  | fuel + 1, store, n, node, currNodes =>
    match store[node]? with
    | none => none
    | some nd =>
      if nd.children.length == 0 then some (currNodes ++ [node])
      else leavesOfChildren (getNLeavesRecursive fuel store n) n nd.children currNodes

/-- `t.GetNLeaves(n)`. -/
def GetNLeaves (store : List TreeNode) (t : OpQueueTree) (n : Int) : Option (List Nat) :=
  match t.Root with
  | none => some []
  | some root => getNLeavesRecursive (store.length + 1) store n root []

/-- The lists of children of the nodes of a store, in the order of the
store. -/
def childrenOf (store : List TreeNode) : List (List Nat) := store.map TreeNode.children

/-- The queue lengths `node.val.Len()` of the nodes of a store, in the order
of the store; `none` for a nil `val`. -/
def queueLens (store : List TreeNode) : List (Option Nat) :=
  store.map fun nd => nd.val.map OpQueue.Len

/-- The nodes reachable from `node` through the children lists, depth first,
each as often as it is reached; `fuel` bounds the depth. -/
def subtreeNodes : Nat → List TreeNode → Nat → List Nat
  | 0, _, _ => []
  | fuel + 1, store, node =>
    match store[node]? with
    | none => []
    | some nd => node :: nd.children.flatMap (subtreeNodes fuel store)

/-- The nodes of the tree: those reachable from the root. -/
def treeNodes (store : List TreeNode) (t : OpQueueTree) : List Nat :=
  match t.Root with
  | none => []
  | some root => subtreeNodes (store.length + 1) store root

/-- The store holds trees built by allocating nodes and attaching children
with `AddChild`: every child is an allocated node, allocated after its
parent. -/
def StoreOK (store : List TreeNode) : Prop :=
  ∀ (p : Nat) (nd : TreeNode), store[p]? = some nd → ∀ c ∈ nd.children, p < c ∧ c < store.length

/-! ### Trees in the manner of tree_test.go -/

/-- A queue without operations, `NewOpQueue()`. -/
def emptyQueue : Option OpQueue := some NewOpQueue

/-- A queue with one operation, as `s5` of `TestPruneDeepNotAllEmpty`. -/
def pendingQueue : Option OpQueue :=
  NewOpQueue.Enqueue ⟨OpType.READ, ".hello", Value.string "hello", Value.string "there"⟩

/-- A root (node 0) holding a pending queue. -/
def rootOnly : List TreeNode := [⟨[], none, pendingQueue⟩]

/-- `AddChild` of one node for each queue of the list, in turn, all under the
node `parent`. -/
def addChildren (parent : Nat) : List (Option OpQueue) → List TreeNode → Option (List TreeNode)
  | [], store => some store
  | s :: rest, store =>
    (AddChild store s (some parent)).bind fun r => addChildren parent rest r.2

/-- The root with three children: node 1 with an empty queue, node 2 with a
pending queue, node 3 with an empty queue. -/
def threeChildren : Option (List TreeNode) :=
  addChildren 0 [emptyQueue, pendingQueue, emptyQueue] rootOnly

/-- The root with four children: nodes 1 and 2 with empty queues, nodes 3 and
4 with pending queues. -/
def fourChildren : Option (List TreeNode) :=
  addChildren 0 [emptyQueue, emptyQueue, pendingQueue, pendingQueue] rootOnly


/-! ## The leaves of a tree -/

/-- The leaves (nodes without children) reachable from `node` through the
children lists, depth first and left to right in the order of each children
list; `fuel` bounds the depth. -/
def subtreeLeaves : Nat → List TreeNode → Nat → List Nat
  | 0, _, _ => []
  | fuel + 1, store, node =>
    match store[node]? with
    | none => []
    | some nd =>
      if nd.children.length == 0 then [node]
      else nd.children.flatMap (subtreeLeaves fuel store)

/-- The leaves of the tree in depth-first, left-to-right order. -/
def treeLeaves (store : List TreeNode) (t : OpQueueTree) : List Nat :=
  match t.Root with
  | none => []
  | some root => subtreeLeaves (store.length + 1) store root

/-- The node at the address `i` has no children. -/
def isLeaf (store : List TreeNode) (i : Nat) : Bool :=
  match store[i]? with
  | none => false
  | some nd => nd.children.length == 0

/-- The check that every child of every node of the store is an allocated
node, allocated after its parent. -/
def checkStore (store : List TreeNode) : Bool :=
  (List.range store.length).all fun p =>
    match store[p]? with
    | none => true
    | some nd => nd.children.all fun c => decide (p < c) && decide (c < store.length)

/-- The tree of `initComplexTree` in tree_test.go: the root (node 0) with the
children 1 and 2, node 1 with the children 3 and 4, node 2 with the children
5 and 6, every queue pending. -/
def complexTree : List TreeNode :=
  [⟨[1, 2], none, pendingQueue⟩, ⟨[3, 4], some 0, pendingQueue⟩, ⟨[5, 6], some 0, pendingQueue⟩,
    ⟨[], some 1, pendingQueue⟩, ⟨[], some 1, pendingQueue⟩, ⟨[], some 2, pendingQueue⟩,
    ⟨[], some 2, pendingQueue⟩]

/-! ## internal/plan/stack.go

As for the queue, the nodes of a stack live in a store and a `*stackNode` is
an index into it. -/

/-- `stackNode`. -/
structure stackNode where
  value : Operation
  prev : Option Nat

/-- `OpStack`, together with the store `nodes` of the nodes allocated for
it. -/
structure OpStack where
  nodes : List stackNode
  top : Option Nat
  length : Nat

/-- `NewOpStack()`. -/
def NewOpStack : OpStack := ⟨[], none, 0⟩

namespace OpStack

/-- `s.IsEmpty()`. -/
def IsEmpty (s : OpStack) : Bool := s.length == 0

/-- `s.Len()`. -/
def Len (s : OpStack) : Nat := s.length

/-- `s.Peek()`; the outer `none` is the panic of a nil dereference. -/
def Peek (s : OpStack) : Option (Option Operation) :=
  if s.IsEmpty then some none
  else
    match s.top with
    | none => none
    | some p =>
      match s.nodes[p]? with
      | none => none
      | some n => some (some n.value)

/-- `s.Pop()`: the returned operation (`none` for nil) and the stack
afterwards; the outer `none` is the panic of a nil dereference. -/
def Pop (s : OpStack) : Option (Option Operation × OpStack) :=
  if s.IsEmpty then some (none, s)
  else
    match s.top with
    | none => none
    | some p =>
      match s.nodes[p]? with
      | none => none
      | some n => some (some n.value, ⟨s.nodes, n.prev, s.length - 1⟩)

/-- `s.Push(op)`. -/
def Push (s : OpStack) (op : Operation) : OpStack :=
  ⟨s.nodes ++ [⟨op, s.top⟩], some s.nodes.length, s.length + 1⟩

end OpStack

/-! ## Sequences of calls on a queue or a stack -/

/-- One call on a container: an insertion (`Enqueue` / `Push`), a removal
(`Dequeue` / `Pop`) or `Peek`. -/
inductive Call where
  | insert (op : Operation)
  | remove
  | peek

/-- The calls of the list made in turn on the queue `q`: the values that the
`Dequeue` and `Peek` calls return, in order, and the queue at the end. -/
def runQueue : List Call → OpQueue → Option (List (Option Operation) × OpQueue)
  | [], q => some ([], q)
  | .insert op :: cs, q => (q.Enqueue op).bind fun q' => runQueue cs q'
  | .remove :: cs, q =>
    q.Dequeue.bind fun r => (runQueue cs r.2).map fun rs => (r.1 :: rs.1, rs.2)
  | .peek :: cs, q =>
    q.Peek.bind fun r => (runQueue cs q).map fun rs => (r :: rs.1, rs.2)

/-- The calls of the list made in turn on the stack `s`: the values that the
`Pop` and `Peek` calls return, in order, and the stack at the end. -/
def runStack : List Call → OpStack → Option (List (Option Operation) × OpStack)
  | [], s => some ([], s)
  | .insert op :: cs, s => runStack cs (s.Push op)
  | .remove :: cs, s =>
    s.Pop.bind fun r => (runStack cs r.2).map fun rs => (r.1 :: rs.1, rs.2)
  | .peek :: cs, s =>
    s.Peek.bind fun r => (runStack cs s).map fun rs => (r :: rs.1, rs.2)

/-- The calls `Peek`, removal, repeated `n` times. -/
def peekThenRemove : Nat → List Call
  | 0 => []
  | n + 1 => Call.peek :: Call.remove :: peekThenRemove n

/-- An operation for the examples, as in the tests. -/
def opHello : Operation := ⟨OpType.READ, ".hello", Value.string "hello", Value.string "there"⟩

/-- A second operation for the examples. -/
def opWorld : Operation := ⟨OpType.UPDATE, ".world", Value.integer 1, Value.integer 2⟩

/-- The queue after `Enqueue(opHello)` and `Dequeue()` on a new queue: empty,
with the node of the dequeued operation still in the store. -/
def drainedQueue : OpQueue := ⟨[⟨opHello, none, none⟩], none, none, 0⟩

/-- The stack after `Push(opHello)` and `Pop()` on a new stack. -/
def drainedStack : OpStack := ⟨[⟨opHello, none⟩], none, 0⟩

/-- The queue after `Enqueue(opHello)` and `Enqueue(opWorld)` on a new
queue. -/
def twoQueue : OpQueue :=
  ⟨[⟨opHello, some 1, none⟩, ⟨opWorld, none, some 0⟩], some 0, some 1, 2⟩

/-- The first-in-first-out list that the calls describe, started from the
list `l` (oldest first): the values returned and the list at the end. -/
def queueModel : List Call → List Operation → List (Option Operation) × List Operation
  | [], l => ([], l)
  | .insert op :: cs, l => queueModel cs (l ++ [op])
  | .remove :: cs, l => (l.head? :: (queueModel cs l.tail).1, (queueModel cs l.tail).2)
  | .peek :: cs, l => (l.head? :: (queueModel cs l).1, (queueModel cs l).2)

/-- The last-in-first-out list that the calls describe, started from the
list `l` (newest first): the values returned and the list at the end. -/
def stackModel : List Call → List Operation → List (Option Operation) × List Operation
  | [], l => ([], l)
  | .insert op :: cs, l => stackModel cs (op :: l)
  | .remove :: cs, l => (l.head? :: (stackModel cs l.tail).1, (stackModel cs l.tail).2)
  | .peek :: cs, l => (l.head? :: (stackModel cs l).1, (stackModel cs l).2)

/-- The nodes from `top` down along `prev` carry the operations `l`, newest
first. -/
def StackChain (nodes : List stackNode) : Option Nat → List Operation → Prop
  | _, [] => True
  | top, x :: xs =>
    ∃ p nd, top = some p ∧ nodes[p]? = some nd ∧ nd.value = x ∧ StackChain nodes nd.prev xs

/-- The stack `s` holds the operations `l`, newest first. -/
def OpStack.Holds (s : OpStack) (l : List Operation) : Prop :=
  s.length = l.length ∧ StackChain s.nodes s.top l

/-- The number of insertions among the calls. -/
def countInsert : List Call → Nat
  | [] => 0
  | .insert _ :: cs => countInsert cs + 1
  | _ :: cs => countInsert cs

/-- The number of removals among the calls. -/
def countRemove : List Call → Nat
  | [] => 0
  | .remove :: cs => countRemove cs + 1
  | _ :: cs => countRemove cs

/-- No removal of the list is made on an empty container, the container
holding `size` elements at the start. -/
def noUnderflow : List Call → Nat → Bool
  | [], _ => true
  | .insert _ :: cs, size => noUnderflow cs (size + 1)
  | .remove :: cs, size => size != 0 && noUnderflow cs (size - 1)
  | .peek :: cs, size => noUnderflow cs size

/-! ## internal/plan/helpers.go -/

/-- `int(op)` of an `OpType`: the constants are declared with `iota` in the
order CREATE, READ, UPDATE, DELETE. -/
def OpType.toInt : OpType → Int
  | .CREATE => 0
  | .READ => 1
  | .UPDATE => 2
  | .DELETE => 3

/-- `op1.IsEqual(op2)`. -/
def Operation.IsEqual (op1 op2 : Operation) : Bool :=
  let res := op1.Op == op2.Op
  let res := res && Porter.IsEqual op1.Old op2.Old && Porter.IsEqual op1.New op2.New
  let res := res && op1.Path == op2.Path
  res

/-- `op1.ToString()`. -/
def Operation.ToString (op1 : Operation) : String :=
  Itoa op1.Op.toInt ++ ":" ++ op1.Path

/-! ## Values of the seven variants -/

mutual
/-- The value is absent or built from the seven variants only: no value in it
is of an unrecognised dynamic type. -/
def Value.recognised : Value → Bool
  | .other _ => false
  | .array xs => Value.recognisedList xs
  | .object kvs => Value.recognisedEntries kvs
  | _ => true
/-- Every element of the list is recognised. -/
def Value.recognisedList : List Value → Bool
  | [] => true
  | x :: xs => Value.recognised x && Value.recognisedList xs
/-- Every value of the entry list is recognised. -/
def Value.recognisedEntries : List (String × Value) → Bool
  | [] => true
  | (_, v) :: rest => Value.recognised v && Value.recognisedEntries rest
end

/-- The operation is a change: a CREATE, an UPDATE or a DELETE. -/
def Operation.isChange (op : Operation) : Bool :=
  op.Op == OpType.CREATE || op.Op == OpType.UPDATE || op.Op == OpType.DELETE

/-! ## pkg/json and pkg/translator: conventions

A source text is the list of its runes: it stands for a valid UTF-8 byte
sequence, so the branch of `next` for an improper encoding is not reached.
Offsets are byte offsets as in the source, the size of a rune being
`Char.utf8Size`; every slice that the scanners take begins and ends between
two runes.  The `Line` and `Column` of a position enter the error messages
only and are left out, as is the position prefix of each message.

A loop or recursion of the source whose end is not evident from its shape
takes a bound `fuel`; the outcome `none` means that the bound was reached. -/

/-- The functions of the Go standard library that the sources call and that
this development leaves open.  `IsLetter` is `unicode.IsLetter`, consulted
for runes from `0x80` on; `ParseFloat` is `strconv.ParseFloat(s, 64)` with the
binary64 bit pattern of the result, `none` for a returned error;
`FormatFloat` is `strconv.FormatFloat(f, 'e', -1, 64)`; `floatToInt` is the
conversion `int(f)` and `intToFloat` the conversion `float64(i)`. -/
structure GoLib where
  IsLetter : Char → Bool
  ParseFloat : List Char → Option Nat
  FormatFloat : Nat → List Char
  floatToInt : Nat → Int
  intToFloat : Int → Nat

/-- The rune `eof` of the scanners, `rune(0)`. -/
def eof : Char := '\x00'

/-- The bytes `src[lo:hi]` of a text, as runes: the runes that begin at the
offsets from `lo` on and end at `hi` at the latest. -/
def sliceBytes : List Char → Nat → Nat → List Char
  | [], _, _ => []
  | c :: cs, lo, hi =>
    if lo = 0 then
      if c.utf8Size ≤ hi then c :: sliceBytes cs 0 (hi - c.utf8Size) else []
    else sliceBytes cs (lo - c.utf8Size) (hi - c.utf8Size)

/-- The number of bytes of a text, `len(src)`. -/
def byteLen : List Char → Nat
  | [] => 0
  | c :: cs => c.utf8Size + byteLen cs

/-- The map assignment `obj[k] = val`. -/
def mapSet (m : List (String × Value)) (k : String) (val : Value) : List (String × Value) :=
  match m with
  | [] => [(k, val)]
  | (k', v) :: rest => if k' = k then (k', val) :: rest else (k', v) :: mapSet rest k val

namespace json

/-! ## pkg/json/token.go -/

/-- `Token`, in the order of the `iota` enumeration. -/
inductive Token where
  | SPECIALBEG
  | EOF
  | ILLEGAL
  | SPECIALEND
  | LITERALBEG
  | NUMBER
  | STRING
  | TRUE
  | FALSE
  | NULL
  | LITERALEND
  | OPERATORBEG
  | LBRACE
  | LBRACK
  | RBRACE
  | RBRACK
  | COMMA
  | COLON
  | LINJECT
  | RINJECT
  | OPERATOREND
  deriving DecidableEq

/-- The integer value of a token constant. -/
def Token.toNat : Token → Nat
  | .SPECIALBEG => 0
  | .EOF => 1
  | .ILLEGAL => 2
  | .SPECIALEND => 3
  | .LITERALBEG => 4
  | .NUMBER => 5
  | .STRING => 6
  | .TRUE => 7
  | .FALSE => 8
  | .NULL => 9
  | .LITERALEND => 10
  | .OPERATORBEG => 11
  | .LBRACE => 12
  | .LBRACK => 13
  | .RBRACE => 14
  | .RBRACK => 15
  | .COMMA => 16
  | .COLON => 17
  | .LINJECT => 18
  | .RINJECT => 19
  | .OPERATOREND => 20

/-- `tok.IsLiteral()`. -/
def Token.IsLiteral (tok : Token) : Bool :=
  decide (Token.LITERALBEG.toNat < tok.toNat) && decide (tok.toNat < Token.LITERALEND.toNat)

/-- `tok.IsOperator()`. -/
def Token.IsOperator (tok : Token) : Bool :=
  decide (Token.OPERATORBEG.toNat < tok.toNat) && decide (tok.toNat < Token.OPERATOREND.toNat)

/-- `RichToken`, without its position. -/
structure RichToken where
  tok : Token
  lit : List Char

/-- The zero value `RichToken{}`. -/
def RichToken.zero : RichToken := ⟨Token.SPECIALBEG, []⟩

/-- The errors that the scanner, the parser and the encoder return, each with
the text of its message after the position. -/
inductive Err where
  /-- "Unexpected null character (0x00)". -/
  | nullCharacter
  /-- "Illegal token". -/
  | illegalToken
  /-- "Not a valid name token: must be true, false, or null. Strings must be
  enclosed in quotes". -/
  | notNameToken
  /-- "String not terminated". -/
  | stringNotTerminated
  /-- "0 cannot be followed by digit without . or exponent". -/
  | zeroThenDigit
  /-- ". must be followed by at least one digit". -/
  | dotWithoutDigit
  /-- "e or E must be followed by at least one digit". -/
  | exponentWithoutDigit
  /-- "Right brace } not preceded by left brace {". -/
  | rightBrace
  /-- "Right bracket ] not preceded by left bracket [". -/
  | rightBracket
  /-- "Commas can only be present when separating array or object values". -/
  | strayComma
  /-- "Colons can only be used for string: value pairs inside objects". -/
  | strayColon
  /-- "Right injection }} not preceded by left injection {{". -/
  | rightInjection
  /-- "Key must be a string for a key injection". -/
  | keyNotString
  /-- "Must use colon : to define a string: value pair". -/
  | colonExpected
  /-- "Commas must be followed by a string: value pair". -/
  | commaWithoutPair
  /-- "Left brace { not followed by comma-separated string: value pairs or
  right brace }". -/
  | leftBraceNotFollowed
  /-- "Unable to parse number into int or float". -/
  | numberUnparsable
  /-- "No closing bracket in array". -/
  | noClosingBracket
  /-- "Commas must be followed by a value". -/
  | commaWithoutValue
  /-- "Values must be separated by a comma". -/
  | valuesNotSeparated
  /-- "Must have a value between array elements". -/
  | noValueBetween
  /-- "No closing injection }} found". -/
  | noClosingInjection
  /-- "Value does not contain a supported Porter type". -/
  | unsupportedType
  deriving DecidableEq

/-! ## pkg/json/scanner.go -/

/-- `Scanner`: `buf` is the unread part of the buffer, `offset` is
`srcPos.Offset`. -/
structure Scanner where
  buf : List Char
  src : List Char
  ch : Char
  offset : Nat
  lastCharLen : Nat

/-- `NewScanner(src)`. -/
def NewScanner (src : List Char) : Scanner := ⟨src, src, ' ', 0, 0⟩

namespace Scanner

/-- `s.next()`: the scanner afterwards, the returned rune and the returned
error. -/
def next (s : Scanner) : Scanner × Char × Option Err :=
  match s.buf with
  | [] => ({ s with offset := s.offset + s.lastCharLen, lastCharLen := 0, ch := eof }, eof, none)
  | r :: rest =>
    let s' : Scanner :=
      { s with buf := rest, offset := s.offset + s.lastCharLen, lastCharLen := r.utf8Size,
               ch := r }
    if r = '\x00' then (s', eof, some Err.nullCharacter) else (s', r, none)

/-- `s.peek()`. -/
def peek (s : Scanner) : Char :=
  match s.buf with
  | [] => eof
  | r :: _ => r

end Scanner

/-- `isLetter(ch)`. -/
def isLetter (L : GoLib) (ch : Char) : Bool :=
  (decide ('a' ≤ ch) && decide (ch ≤ 'z')) || (decide ('A' ≤ ch) && decide (ch ≤ 'Z')) ||
    ch == '_' || (decide (0x80 ≤ ch.toNat) && L.IsLetter ch)

/-- `isDecimal(ch)`. -/
def isDecimal (ch : Char) : Bool := decide ('0' ≤ ch) && decide (ch ≤ '9')

namespace Scanner

/-- The loop of `s.skipWhitespace()`. -/
def skipWhitespaceLoop : Nat → Scanner → Option Scanner
  | 0, _ => none
  | fuel + 1, s =>
    if s.ch = '\t' ∨ s.ch = '\n' ∨ s.ch = '\r' ∨ s.ch = ' ' then skipWhitespaceLoop fuel s.next.1
    else some s

/-- `s.skipWhitespace()`; each round of the loop reads a rune or reaches the
end of the buffer, where `ch` becomes `eof`. -/
def skipWhitespace (s : Scanner) : Option Scanner := skipWhitespaceLoop (s.buf.length + 2) s

/-- The loop `for isLetter(ch)` of `scanIdentifier`: the scanner afterwards
and the error that ended the loop, if one did. -/
def identifierLoop (L : GoLib) : Nat → Scanner → Char → Option (Scanner × Option Err)
  | 0, _, _ => none
  | fuel + 1, s, ch =>
    if isLetter L ch then
      match s.next with
      | (s', _, some e) => some (s', some e)
      | (s', ch', none) => identifierLoop L fuel s' ch'
    else some (s, none)

/-- `s.scanIdentifier()`. -/
def scanIdentifier (L : GoLib) (s : Scanner) : Option (Scanner × RichToken × Option Err) :=
  let offs := s.offset
  match identifierLoop L (s.buf.length + 2) s s.ch with
  | none => none
  | some (s', some e) => some (s', RichToken.zero, some e)
  | some (s', none) =>
    let lit := sliceBytes s'.src offs s'.offset
    if lit = "true".data then some (s', ⟨Token.TRUE, lit⟩, none)
    else if lit = "false".data then some (s', ⟨Token.FALSE, lit⟩, none)
    else if lit = "null".data then some (s', ⟨Token.NULL, lit⟩, none)
    else some (s', RichToken.zero, some Err.notNameToken)

/-- The loop `for` of `scanString`, `ch` being the rune read last; the result
is the scanner afterwards and whether the loop ended at the closing quote
(`none`), or how the function returned from inside the loop. -/
def stringLoop : Nat → Scanner → Char → Option (Scanner × Option (RichToken × Option Err))
  | 0, _, _ => none
  | fuel + 1, s, ch =>
    if ch = eof then some (s, some (RichToken.zero, some Err.stringNotTerminated))
    else if ch = '"' then some (s, none)
    else
      match s.next with
      | (s', _, some _) => some (s', some (RichToken.zero, none))
      | (s', ch', none) => stringLoop fuel s' ch'

/-- `s.scanString()`.  When `next` reports an error the function returns the
zero token with a nil error. -/
def scanString (s : Scanner) : Option (Scanner × RichToken × Option Err) :=
  match s.next with
  | (s1, _, some _) => some (s1, RichToken.zero, none)
  | (s1, ch, none) =>
    let startOffset := s1.offset
    match stringLoop (s1.buf.length + 2) s1 ch with
    | none => none
    | some (s2, some (tok, err)) => some (s2, tok, err)
    | some (s2, none) =>
      let lit := sliceBytes s2.src startOffset s2.offset
      some (s2.next.1, ⟨Token.STRING, lit⟩, none)

/-- A loop `for isDecimal(ch) { ch, err = s.next() }` of `scanNumber` that
goes on after an error: the scanner, the rune and the error afterwards. -/
def digitsLoop : Nat → Scanner → Char → Option Err → Option (Scanner × Char × Option Err)
  | 0, _, _, _ => none
  | fuel + 1, s, ch, err =>
    if isDecimal ch then
      match s.next with
      | (s', ch', err') => digitsLoop fuel s' ch' err'
    else some (s, ch, err)

/-- A loop `for isDecimal(ch) { ch, err = s.next(); if err != nil { return } }`
of `scanNumber`: the scanner and the rune afterwards, or the error returned
from inside the loop. -/
def digitsLoopChecked : Nat → Scanner → Char → Option (Scanner × Except Err Char)
  | 0, _, _ => none
  | fuel + 1, s, ch =>
    if isDecimal ch then
      match s.next with
      | (s', _, some e) => some (s', Except.error e)
      | (s', ch', none) => digitsLoopChecked fuel s' ch'
    else some (s, Except.ok ch)

/-- The part of `scanNumber` from the test `ch == 'e' || ch == 'E'` on. -/
def scanExponent (s : Scanner) (ch : Char) (offs : Nat) :
    Option (Scanner × RichToken × Option Err) :=
  if ch = 'e' ∨ ch = 'E' then
    match s.next with
    | (s1, _, some e) => some (s1, RichToken.zero, some e)
    | (s1, ch1, none) =>
      let signed : Scanner × Char × Option Err :=
        if ch1 = '+' ∨ ch1 = '-' then s1.next else (s1, ch1, none)
      match signed with
      | (s2, _, some e) => some (s2, RichToken.zero, some e)
      | (s2, ch2, none) =>
        if !isDecimal ch2 then some (s2, RichToken.zero, some Err.exponentWithoutDigit)
        else
          match digitsLoopChecked (s2.buf.length + 2) s2 ch2 with
          | none => none
          | some (s3, Except.error e) => some (s3, RichToken.zero, some e)
          | some (s3, Except.ok _) =>
            some (s3, ⟨Token.NUMBER, sliceBytes s3.src offs s3.offset⟩, none)
  else some (s, ⟨Token.NUMBER, sliceBytes s.src offs s.offset⟩, none)

/-- The part of `scanNumber` from the test `ch == '.'` on. -/
def scanFraction (s : Scanner) (ch : Char) (offs : Nat) :
    Option (Scanner × RichToken × Option Err) :=
  if ch = '.' then
    match s.next with
    | (s1, _, some e) => some (s1, RichToken.zero, some e)
    | (s1, ch1, none) =>
      if !isDecimal ch1 then some (s1, RichToken.zero, some Err.dotWithoutDigit)
      else
        match digitsLoopChecked (s1.buf.length + 2) s1 ch1 with
        | none => none
        | some (s2, Except.error e) => some (s2, RichToken.zero, some e)
        | some (s2, Except.ok ch2) => scanExponent s2 ch2 offs
  else scanExponent s ch offs

/-- `s.scanNumber()`. -/
def scanNumber (s : Scanner) : Option (Scanner × RichToken × Option Err) :=
  let offs := s.offset
  -- if ch is -, move on to next digit
  let st1 : Scanner × Char × Option Err := if s.ch = '-' then s.next else (s, s.ch, none)
  match st1 with
  | (s1, ch1, err1) =>
    if ch1 = '0' ∧ isDecimal s1.peek = true then some (s1, RichToken.zero, some Err.zeroThenDigit)
    else
      let st2 : Scanner × Char × Option Err := if ch1 = '0' then s1.next else (s1, ch1, err1)
      match st2 with
      | (s2, ch2, err2) =>
        let st3 : Option (Scanner × Char × Option Err) :=
          if ch2 ≠ '0' then digitsLoop (s2.buf.length + 2) s2 ch2 err2 else some (s2, ch2, err2)
        match st3 with
        | none => none
        | some (s3, _, some e) => some (s3, RichToken.zero, some e)
        | some (s3, ch3, none) => scanFraction s3 ch3 offs

/-- `s.Scan()`: the scanner afterwards, the returned token and the returned
error. -/
def Scan (L : GoLib) (s : Scanner) : Option (Scanner × RichToken × Option Err) :=
  match s.skipWhitespace with
  | none => none
  | some s =>
    if s.ch = eof then some (s, ⟨Token.EOF, "EOF".data⟩, none)
    else
      let ch := s.ch
      -- the statements after the `switch`: `s.next()` and the return
      let finish (s : Scanner) (tok : Token) (lit : List Char) :
          Option (Scanner × RichToken × Option Err) :=
        match s.next with
        | (s', _, some e) => some (s', RichToken.zero, some e)
        | (s', _, none) => some (s', ⟨tok, lit⟩, none)
      if isLetter L ch then s.scanIdentifier L
      else if isDecimal ch || (ch == '-' && isDecimal s.peek) then s.scanNumber
      else if ch = '{' ∧ s.peek = '{' then finish s.next.1 Token.LINJECT "\x7b\x7b".data
      else if ch = '}' ∧ s.peek = '}' then finish s.next.1 Token.RINJECT "\x7d\x7d".data
      else if ch = eof then finish s Token.EOF [ch]
      else if ch = '"' then s.scanString
      else if ch = ',' then finish s Token.COMMA [ch]
      else if ch = ':' then finish s Token.COLON [ch]
      else if ch = '[' then finish s Token.LBRACK [ch]
      else if ch = ']' then finish s Token.RBRACK [ch]
      else if ch = '{' then finish s Token.LBRACE [ch]
      else if ch = '}' then finish s Token.RBRACE [ch]
      else some (s, RichToken.zero, some Err.illegalToken)

end Scanner

/-! ## pkg/json/parser.go -/

/-- `Parser`. -/
structure Parser where
  scanner : Scanner
  richTok : RichToken
  injections : List Value
  currInj : Nat

/-- `NewParser(src)`. -/
def NewParser (src : List Char) : Parser := ⟨NewScanner src, RichToken.zero, [], 0⟩

/-- What a method of the parser does: return a value with a nil error, return
an error (with a nil value), or panic on an index out of range.  The parser
afterwards is kept in the first two cases. -/
inductive Res where
  | ok (p : Parser) (v : Value)
  | err (p : Parser) (e : Err)
  | panic

/-- What `Parse` and `Inject` do. -/
inductive Outcome where
  | ok (v : Value)
  | err (e : Err)
  | panic

namespace Parser

/-- `p.next()`: the parser afterwards and the returned error. -/
def next (L : GoLib) (p : Parser) : Option (Parser × Option Err) :=
  match p.scanner.Scan L with
  | none => none
  | some (s, val, err) => some ({ p with scanner := s, richTok := val }, err)

/-- `p.parseNumber()`. -/
def parseNumber (L : GoLib) (p : Parser) : Res :=
  match ParseInt p.richTok.lit with
  | some _int => Res.ok p (Value.integer _int)
  | none =>
    match L.ParseFloat p.richTok.lit with
    | none => Res.err p Err.numberUnparsable
    | some _float =>
      if f64Eq _float (L.intToFloat (L.floatToInt _float)) then
        Res.ok p (Value.integer (L.floatToInt _float))
      else Res.ok p (Value.float _float)

mutual
/-- `p.parseValue()`. -/
def parseValue (L : GoLib) : Nat → Parser → Option Res
  | 0, _ => none
  | fuel + 1, p =>
    let tok := p.richTok.tok
    if tok.IsLiteral then
      if tok = Token.STRING then some (Res.ok p (Value.string ⟨p.richTok.lit⟩))
      else if tok = Token.NUMBER then some (parseNumber L p)
      else if tok = Token.TRUE then some (Res.ok p (Value.boolean true))
      else if tok = Token.FALSE then some (Res.ok p (Value.boolean false))
      else if tok = Token.NULL then some (Res.ok p Value.null)
      else some (Res.ok p Value.null)
    else if tok.IsOperator then
      if tok = Token.LBRACE then parseObject L fuel p
      else if tok = Token.RBRACE then some (Res.err p Err.rightBrace)
      else if tok = Token.LBRACK then parseArray L fuel p
      else if tok = Token.RBRACK then some (Res.err p Err.rightBracket)
      else if tok = Token.COMMA then some (Res.err p Err.strayComma)
      else if tok = Token.COLON then some (Res.err p Err.strayColon)
      else if tok = Token.LINJECT then parseInjection L fuel p
      else if tok = Token.RINJECT then some (Res.err p Err.rightInjection)
      else some (Res.ok p Value.null)
    else some (Res.ok p Value.null)
/-- `p.parseObject()`. -/
def parseObject (L : GoLib) : Nat → Parser → Option Res
  | 0, _ => none
  | fuel + 1, p =>
    if p.richTok.tok = Token.LBRACE then objectLoop L fuel p [] p.richTok.tok
    else some (Res.ok p (Value.object []))
/-- The loop `for` of `parseObject`, with the map `obj` and the variable
`prevTok` as they stand. -/
def objectLoop (L : GoLib) : Nat → Parser → List (String × Value) → Token → Option Res
  | 0, _, _, _ => none
  | fuel + 1, p, obj, prevTok =>
    match p.next L with
    | none => none
    | some (p, some e) => some (Res.err p e)
    | some (p, none) =>
      -- if an injection, parse and rewrite richTok
      let key : Option Res :=
        if p.richTok.tok = Token.LINJECT then parseInjection L fuel p
        else some (Res.ok p Value.null)
      match key with
      | none => none
      | some Res.panic => some Res.panic
      | some (Res.err p' e) => some (Res.err p' e)
      | some (Res.ok p' inj) =>
        let richTok? : Option RichToken :=
          if p.richTok.tok = Token.LINJECT then
            match inj with
            | .string str => some ⟨Token.STRING, str.data⟩
            | _ => none
          else some p.richTok
        match richTok? with
        | none => some (Res.err p' Err.keyNotString)
        | some richTok =>
          if richTok.tok = Token.STRING ∨ richTok.tok = Token.LINJECT then
            match p'.next L with
            | none => none
            | some (p1, some e) => some (Res.err p1 e)
            | some (p1, none) =>
              if p1.richTok.tok = Token.COLON then
                match p1.next L with
                | none => none
                | some (p2, some e) => some (Res.err p2 e)
                | some (p2, none) =>
                  match parseValue L fuel p2 with
                  | none => none
                  | some Res.panic => some Res.panic
                  | some (Res.err p3 e) => some (Res.err p3 e)
                  | some (Res.ok p3 val) =>
                    objectLoop L fuel p3 (mapSet obj ⟨richTok.lit⟩ val) p3.richTok.tok
              else some (Res.err p1 Err.colonExpected)
          else if (richTok.tok = Token.RBRACE ∧ prevTok = Token.COMMA) ∨
              (richTok.tok = Token.COMMA ∧ prevTok = Token.COMMA) then
            some (Res.err p' Err.commaWithoutPair)
          else if richTok.tok = Token.RBRACE then some (Res.ok p' (Value.object obj))
          else if richTok.tok ≠ Token.COMMA then some (Res.err p' Err.leftBraceNotFollowed)
          else objectLoop L fuel p' obj p'.richTok.tok
/-- `p.parseArray()`. -/
def parseArray (L : GoLib) : Nat → Parser → Option Res
  | 0, _ => none
  | fuel + 1, p =>
    if p.richTok.tok = Token.LBRACK then arrayLoop L fuel p [] Token.LBRACK
    else some (Res.ok p (Value.array []))
/-- The loop `for` of `parseArray`, with the slice `arr` and the variable
`prevTok` as they stand. -/
def arrayLoop (L : GoLib) : Nat → Parser → List Value → Token → Option Res
  | 0, _, _, _ => none
  | fuel + 1, p, arr, prevTok =>
    match p.next L with
    | none => none
    | some (p, some e) => some (Res.err p e)
    | some (p, none) =>
      let richTok := p.richTok
      if richTok.tok = Token.EOF then some (Res.err p Err.noClosingBracket)
      else if richTok.tok = Token.RBRACK ∧ prevTok = Token.COMMA then
        some (Res.err p Err.commaWithoutValue)
      else if richTok.tok = Token.RBRACK then some (Res.ok p (Value.array arr))
      else if richTok.tok ≠ Token.COMMA ∧ prevTok ≠ Token.COMMA ∧ prevTok ≠ Token.LBRACK then
        some (Res.err p Err.valuesNotSeparated)
      else if richTok.tok = Token.COMMA ∧ (prevTok = Token.LBRACK ∨ prevTok = Token.COMMA) then
        some (Res.err p Err.noValueBetween)
      else if richTok.tok ≠ Token.COMMA then
        match parseValue L fuel p with
        | none => none
        | some Res.panic => some Res.panic
        | some (Res.err p' e) => some (Res.err p' e)
        | some (Res.ok p' obj) => arrayLoop L fuel p' (arr ++ [obj]) richTok.tok
      else arrayLoop L fuel p arr richTok.tok
/-- `p.parseInjection()`.  The error of `p.next()` is dropped. -/
def parseInjection (L : GoLib) : Nat → Parser → Option Res
  | 0, _ => none
  | fuel + 1, p =>
    if p.richTok.tok ≠ Token.RINJECT then
      if p.richTok.tok = Token.EOF then some (Res.err p Err.noClosingInjection)
      else
        match p.next L with
        | none => none
        | some (p', _) => parseInjection L fuel p'
    else
      match p.injections[p.currInj]? with
      | none => some Res.panic
      | some res => some (Res.ok { p with currInj := p.currInj + 1 } res)
end

/-- `p.Parse()` with the bound `fuel` on the depth of the calls and the rounds
of the loops. -/
def ParseFuel (L : GoLib) (fuel : Nat) (p : Parser) : Option Outcome :=
  match p.next L with
  | none => none
  | some (_, some e) => some (Outcome.err e)
  | some (p, none) =>
    match parseValue L fuel p with
    | none => none
    | some Res.panic => some Outcome.panic
    | some (Res.err p e) =>
      -- advance to hopefully the end of parsing (EOF)
      match p.next L with
      | none => none
      | some _ => some (Outcome.err e)
    | some (Res.ok p val) =>
      match p.next L with
      | none => none
      | some (p, _) =>
        if p.richTok.tok ≠ Token.EOF then some (Outcome.err Err.illegalToken)
        else some (Outcome.ok val)

end Parser

/-- `Inject(src, v...)` with the bound `fuel`. -/
def InjectFuel (L : GoLib) (fuel : Nat) (src : List Char) (v : List Value) : Option Outcome :=
  Parser.ParseFuel L fuel { NewParser src with injections := v, currInj := 0 }

/-- `Inject(src, v...)`.  In a parse that ends, every round of a loop reads a
token and every call follows one, so three steps for each rune of the source
and for its end bound the depth of the calls and the rounds of the loops. -/
def Inject (L : GoLib) (src : String) (v : List Value) : Option Outcome :=
  InjectFuel L (3 * src.length + 6) src.data v

/-! ## pkg/json/encoder.go -/

/-- `strconv.FormatBool`. -/
def FormatBool (b : Bool) : String := if b then "true" else "false"

mutual
/-- `ToJSON(v1)`: the text, or the returned error. -/
def ToJSON (L : GoLib) : Value → Except Err String
  | .null => Except.ok "null"
  | .boolean res => Except.ok (FormatBool res)
  | .float res => Except.ok ⟨L.FormatFloat res⟩
  | .integer res => Except.ok (Itoa res)
  | .string res => Except.ok ("\"" ++ res ++ "\"")
  | .array res =>
    match ToJSONElems L res with
    | Except.error e => Except.error e
    | Except.ok str => Except.ok ("[" ++ str ++ "]")
  | .object res =>
    match ToJSONEntries L res with
    | Except.error e => Except.error e
    | Except.ok str => Except.ok ("\x7b" ++ str ++ "\x7d")
  | .other _ => Except.error Err.unsupportedType
/-- The text that the loop `for i, val := range res` of the Array case adds,
on the elements from the current index on. -/
def ToJSONElems (L : GoLib) : List Value → Except Err String
  | [] => Except.ok ""
  | val :: rest =>
    match ToJSON L val with
    | Except.error e => Except.error e
    | Except.ok valStr =>
      match ToJSONElems L rest with
      | Except.error e => Except.error e
      | Except.ok str => Except.ok (valStr ++ (if rest.length > 0 then "," else "") ++ str)
/-- The text that the loop `for k, v := range res` of the Object case adds, on
the entries not yet visited. -/
def ToJSONEntries (L : GoLib) : List (String × Value) → Except Err String
  | [] => Except.ok ""
  | (k, v) :: rest =>
    match ToJSON L v with
    | Except.error e => Except.error e
    | Except.ok valStr =>
      match ToJSONEntries L rest with
      | Except.error e => Except.error e
      | Except.ok str =>
        Except.ok ("\"" ++ k ++ "\"" ++ ":" ++ valStr ++ (if rest.length > 0 then "," else "") ++
          str)
end

end json

/-! ## Comparing outcomes -/

mutual
/-- The two values are the same value. -/
def Value.same : Value → Value → Bool
  | .null, .null => true
  | .boolean a, .boolean b => a == b
  | .integer a, .integer b => a == b
  | .float a, .float b => a == b
  | .string a, .string b => a == b
  | .array xs, .array ys => Value.sameList xs ys
  | .object xs, .object ys => Value.sameEntries xs ys
  | .other a, .other b => a == b
  | _, _ => false
/-- The two lists hold the same values in the same order. -/
def Value.sameList : List Value → List Value → Bool
  | [], [] => true
  | x :: xs, y :: ys => Value.same x y && Value.sameList xs ys
  | _, _ => false
/-- The two entry lists hold the same entries in the same order. -/
def Value.sameEntries : List (String × Value) → List (String × Value) → Bool
  | [], [] => true
  | (k, x) :: xs, (k', y) :: ys => k == k' && Value.same x y && Value.sameEntries xs ys
  | _, _ => false
end

/-- The run of `Parse` or `Inject` ends with the outcome `want`. -/
def json.endsWith : Option json.Outcome → json.Outcome → Bool
  | some (json.Outcome.ok v), json.Outcome.ok w => Value.same v w
  | some (json.Outcome.err e), json.Outcome.err e' => e == e'
  | some json.Outcome.panic, json.Outcome.panic => true
  | _, _ => false

/-- The parser in which `Inject` of `{{a.b}}` with the injection values `vals`
is caught: the scanner stands on the `.`, the token is the zero token. -/
def json.stuckParser (vals : List Value) : json.Parser :=
  ⟨⟨['b', '}', '}'], "\x7b\x7ba.b\x7d\x7d".data, '.', 3, 1⟩, json.RichToken.zero, vals, 0⟩

/-- The parser of `Inject(src)` with no injection values when the scanner has
consumed the first `k` runes of `src`: the current rune `ch`, its offset and
length in bytes, and the token `tok` with the text `lit`. -/
def json.parserAt (src : List Char) (k : Nat) (ch : Char) (offset lastCharLen : Nat)
    (tok : json.Token) (lit : List Char) : json.Parser :=
  ⟨⟨src.drop k, src, ch, offset, lastCharLen⟩, ⟨tok, lit⟩, [], 0⟩

/-- The text `{"a":1 "b":2}`: two members of an object with no comma between
them. -/
def json.twoMembers : List Char := "\x7b\"a\":1 \"b\":2\x7d".data

/-! ## pkg/translator

The source text is a list of runes, as for pkg/json: a valid UTF-8 text, of
which `ReadRune` returns the runes in turn, each with its length in bytes.
The error handler `s.err` of a scanner made by `NewScanner` is nil, so a call
of it panics.  `Position` is used with the fields `Offset`, `Line` and
`Column`. -/

namespace translator

/-- The token constants of token.go. -/
inductive Token where
  | LITERALBEG
  | LHEREDOC
  | RHEREDOC
  | CODE
  | LITERALEND
  | OPERATORBEG
  | LINJECT
  | RINJECT
  | OPERATOREND
  deriving DecidableEq

/-- `Position`. -/
structure Position where
  Offset : Nat
  Line : Nat
  Column : Nat

/-- `RichToken`. -/
structure RichToken where
  pos : Position
  tok : Token
  lit : List Char

/-- What a method does: return, or panic. -/
inductive Out (α : Type) where
  | ok (a : α)
  | panic

/-- `Scanner`; `buf` holds the runes not yet read. -/
structure Scanner where
  buf : List Char
  src : List Char
  ch : Char
  srcPos : Position
  prevPos : Position
  lastCharLen : Nat

/-- `NewScanner(src)`. -/
def NewScanner (src : List Char) : Scanner := ⟨src, src, ' ', ⟨0, 1, 0⟩, ⟨0, 0, 0⟩, 0⟩

/-- The slice `src[lo:hi]` of the source, which panics when the bounds are
not in order or beyond the length of the source. -/
def slice (src : List Char) (lo hi : Nat) : Out (List Char) :=
  if lo ≤ hi ∧ hi ≤ byteLen src then Out.ok (sliceBytes src lo hi) else Out.panic

namespace Scanner

/-- `s.next()`: the scanner afterwards and the returned rune.  On the null
character the nil `s.err` is called. -/
def next (s : Scanner) : Out (Scanner × Char) :=
  match s.buf with
  | [] =>
    Out.ok ({ s with
      srcPos := { s.srcPos with Column := s.srcPos.Column + 1,
                                Offset := s.srcPos.Offset + s.lastCharLen },
      lastCharLen := 0, ch := eof }, eof)
  | r :: rest =>
    let pos : Position :=
      { s.srcPos with Column := s.srcPos.Column + 1, Offset := s.srcPos.Offset + s.lastCharLen }
    let s' : Scanner :=
      { s with buf := rest, prevPos := s.srcPos, srcPos := pos, lastCharLen := r.utf8Size, ch := r }
    if r = '\n' then Out.ok ({ s' with srcPos := { pos with Line := pos.Line + 1, Column := 0 } }, r)
    else if r = '\x00' then Out.panic
    else Out.ok (s', r)

/-- `s.peek()`. -/
def peek (s : Scanner) : Char :=
  match s.buf with
  | [] => eof
  | r :: _ => r

/-- `s.skipWhitespace()`, with the bound `fuel` on the rounds of its loop. -/
def skipWhitespace : Nat → Scanner → Option (Out Scanner)
  | 0, _ => none
  | fuel + 1, s =>
    if s.ch = ' ' ∨ s.ch = '\t' ∨ s.ch = '\r' then
      match s.next with
      | Out.panic => some Out.panic
      | Out.ok (s', _) => skipWhitespace fuel s'
    else some (Out.ok s)

/-- The loop `for` of `scanCode`, `ch` being the rune read last. -/
def scanCodeLoop : Nat → Scanner → Char → Nat → Nat → Option (Out (Scanner × List RichToken))
  | 0, _, _, _, _ => none
  | fuel + 1, s, ch, startOffs, startCol =>
    if ch = '}' ∧ s.peek = '}' then
      match slice s.src startOffs s.srcPos.Offset with
      | Out.panic => some Out.panic
      | Out.ok codeLit =>
        match slice s.src s.srcPos.Offset (s.srcPos.Offset + 2) with
        | Out.panic => some Out.panic
        | Out.ok rLit =>
          let codeToken : RichToken := ⟨⟨startOffs, s.srcPos.Line, startCol⟩, Token.CODE, codeLit⟩
          let rInjectToken : RichToken := ⟨s.srcPos, Token.RINJECT, rLit⟩
          match s.next with
          | Out.panic => some Out.panic
          | Out.ok (s', _) => some (Out.ok (s', [codeToken, rInjectToken]))
    else
      match s.next with
      | Out.panic => some Out.panic
      | Out.ok (s', ch') => scanCodeLoop fuel s' ch' startOffs startCol

/-- `s.scanCode()`. -/
def scanCode (fuel : Nat) (s : Scanner) : Option (Out (Scanner × List RichToken)) :=
  match s.next with
  | Out.panic => some Out.panic
  | Out.ok (s', ch) => scanCodeLoop fuel s' ch s'.srcPos.Offset s'.srcPos.Column

/-- The first loop `for` of `scanHeredoc`, which reads the name: the scanner
afterwards and the name.  At the end of the source the nil `s.err` is
called. -/
def nameLoop : Nat → Scanner → Nat → Option (Out (Scanner × List Char))
  | 0, _, _ => none
  | fuel + 1, s, nameOffset =>
    match s.next with
    | Out.panic => some Out.panic
    | Out.ok (s', ch) =>
      if ch = ' ' ∨ ch = '\t' ∨ ch = '\n' then
        match slice s'.src (nameOffset + s'.lastCharLen) s'.srcPos.Offset with
        | Out.panic => some Out.panic
        | Out.ok name => some (Out.ok (s', name))
      else if ch = eof then some Out.panic
      else nameLoop fuel s' nameOffset

/-- The second loop `for` of `scanHeredoc`, `ch` being the rune read last.  At
the end of the source the nil `s.err` is called. -/
def bodyLoop : Nat → Scanner → Char → Nat → Nat → List RichToken → List Char →
    Option (Out (Scanner × List RichToken))
  | 0, _, _, _, _, _, _ => none
  | fuel + 1, s, ch, termNameOffs, termNameCol, tokens, name =>
    if ch = eof then some Out.panic
    else
      let white : Bool := ch = ' ' ∨ ch = '\t' ∨ ch = '\n'
      let termNameOffs := if white then s.srcPos.Offset + 1 else termNameOffs
      let termNameCol := if white then s.srcPos.Column + 1 else termNameCol
      -- the statements after the test for the terminus
      let goOn (_ : Unit) : Option (Out (Scanner × List RichToken)) :=
        let code : Option (Out (Scanner × List RichToken)) :=
          if ch = '{' ∧ s.peek = '{' then
            match slice s.src s.srcPos.Offset (s.srcPos.Offset + 2) with
            | Out.panic => some Out.panic
            | Out.ok lit =>
              let tokens := tokens ++ [⟨s.srcPos, Token.LINJECT, lit⟩]
              match s.next with
              | Out.panic => some Out.panic
              | Out.ok (s1, _) =>
                match scanCode fuel s1 with
                | none => none
                | some Out.panic => some Out.panic
                | some (Out.ok (s2, codeToken)) => some (Out.ok (s2, tokens ++ codeToken))
          else some (Out.ok (s, tokens))
        match code with
        | none => none
        | some Out.panic => some Out.panic
        | some (Out.ok (s2, tokens)) =>
          match s2.next with
          | Out.panic => some Out.panic
          | Out.ok (s3, ch') => bodyLoop fuel s3 ch' termNameOffs termNameCol tokens name
      if ch = '>' ∧ s.peek = '>' then
        match slice s.src termNameOffs s.srcPos.Offset with
        | Out.panic => some Out.panic
        | Out.ok testName =>
          if testName = name then
            match s.next with
            | Out.panic => some Out.panic
            | Out.ok (s1, _) =>
              match slice s1.src termNameOffs (s1.srcPos.Offset + 1) with
              | Out.panic => some Out.panic
              | Out.ok lit =>
                some (Out.ok (s1, tokens ++
                  [⟨⟨termNameOffs, s1.srcPos.Line, termNameCol⟩, Token.RHEREDOC, lit⟩]))
          else goOn ()
      else goOn ()

/-- `s.scanHeredoc()`. -/
def scanHeredoc (fuel : Nat) (s : Scanner) : Option (Out (Scanner × List RichToken)) :=
  let startOffs := s.srcPos.Offset
  let startCol := s.srcPos.Column
  -- consume second <
  match s.next with
  | Out.panic => some Out.panic
  | Out.ok (s1, _) =>
    match nameLoop fuel s1 s1.srcPos.Offset with
    | none => none
    | some Out.panic => some Out.panic
    | some (Out.ok (s2, name)) =>
      match slice s2.src startOffs s2.srcPos.Offset with
      | Out.panic => some Out.panic
      | Out.ok lit =>
        let tokens : List RichToken := [⟨⟨startOffs, s2.srcPos.Line, startCol⟩, Token.LHEREDOC, lit⟩]
        match s2.next with
        | Out.panic => some Out.panic
        | Out.ok (s3, ch) => bodyLoop fuel s3 ch s3.srcPos.Offset s3.srcPos.Column tokens name

/-- `s.Scan()`: the scanner afterwards and the returned tokens. -/
def Scan (fuel : Nat) (s : Scanner) : Option (Out (Scanner × List RichToken)) :=
  match skipWhitespace fuel s with
  | none => none
  | some Out.panic => some Out.panic
  | some (Out.ok s1) =>
    let tokens : Option (Out (Scanner × List RichToken)) :=
      if s1.ch = '<' then
        if s1.peek = '<' then scanHeredoc fuel s1 else some (Out.ok (s1, []))
      else some (Out.ok (s1, []))
    match tokens with
    | none => none
    | some Out.panic => some Out.panic
    | some (Out.ok (s2, tokens)) =>
      match s2.next with
      | Out.panic => some Out.panic
      | Out.ok (s3, _) => some (Out.ok (s3, tokens))

end Scanner

/-- `Translator`. -/
structure Translator where
  src : List Char
  res : List Char
  scanner : Scanner
  currBlock : List RichToken

/-- `NewTranslator(src)`. -/
def NewTranslator (src : List Char) : Translator := ⟨src, [], NewScanner src, []⟩

/-- The loop `for _, richTok := range t.currBlock` of `TranslateToString` on
the tokens of the list: `t.res` and `prevPos` afterwards. -/
def stringTokens (src : List Char) : List RichToken → List Char → Nat → Out (List Char × Nat)
  | [], res, prevPos => Out.ok (res, prevPos)
  | richTok :: rest, res, prevPos =>
    let res' : Out (List Char) :=
      match richTok.tok with
      | Token.LHEREDOC =>
        match slice src prevPos richTok.pos.Offset with
        | Out.panic => Out.panic
        | Out.ok text => Out.ok (res ++ text ++ "\x60".data)
      | Token.LINJECT =>
        match slice src prevPos richTok.pos.Offset with
        | Out.panic => Out.panic
        | Out.ok text => Out.ok (res ++ text ++ "\x60 + ".data)
      | Token.CODE => Out.ok (res ++ richTok.lit)
      | Token.RINJECT => Out.ok (res ++ " + \x60".data)
      | Token.RHEREDOC =>
        match slice src prevPos richTok.pos.Offset with
        | Out.panic => Out.panic
        | Out.ok text => Out.ok (res ++ text ++ "\x60".data)
      | _ => Out.ok res
    match res' with
    | Out.panic => Out.panic
    | Out.ok res' => stringTokens src rest res' (richTok.pos.Offset + byteLen richTok.lit)

/-- The loop `for t.scanner.ch != eof` of `TranslateToString`, with the bound
`fuel` on its rounds and the bound `inner` on the rounds of the loops of the
scanner: the translator and `prevPos` afterwards. -/
def stringLoop (inner : Nat) : Nat → Translator → Nat → Option (Out (Translator × Nat))
  | 0, _, _ => none
  | fuel + 1, t, prevPos =>
    if t.scanner.ch ≠ eof then
      match t.scanner.Scan inner with
      | none => none
      | some Out.panic => some Out.panic
      | some (Out.ok (s, currBlock)) =>
        match stringTokens t.src currBlock t.res prevPos with
        | Out.panic => some Out.panic
        | Out.ok (res, prevPos) =>
          stringLoop inner fuel { t with scanner := s, currBlock := currBlock, res := res } prevPos
    else some (Out.ok (t, prevPos))

/-- `t.TranslateToString()` with the bounds `fuel` on the rounds of the outer
loop and of the loops of the scanner. -/
def Translator.TranslateFuel (fuel : Nat) (t : Translator) : Option (Out (List Char)) :=
  match stringLoop fuel fuel t 0 with
  | none => none
  | some Out.panic => some Out.panic
  | some (Out.ok (t, prevPos)) =>
    match slice t.src prevPos t.scanner.srcPos.Offset with
    | Out.panic => some Out.panic
    | Out.ok text => some (Out.ok (t.res ++ text))

/-- `NewTranslator(src).TranslateToString()`.  Every round of a loop that ends
reads a rune or stands at the end of the source, so the number of runes and
two bounds the rounds. -/
def TranslateToString (src : List Char) : Option (Out (List Char)) :=
  (NewTranslator src).TranslateFuel (src.length + 2)

end translator

/-- The scanner `s` stands in the text `src`: the runes not yet read are the
rest of `src`, the offset after the current rune is the number of bytes read,
the current rune and the next one are not both `<`, and the current rune is
`eof` only at the end of the text. -/
def translator.Good (src : List Char) (s : translator.Scanner) : Prop :=
  s.src = src ∧
  (∃ pre, src = pre ++ s.buf ∧ s.srcPos.Offset + s.lastCharLen = byteLen pre) ∧
  (s.ch = '<' → s.buf.head? ≠ some '<') ∧
  (s.ch = eof → s.buf = [] ∧ s.lastCharLen = 0)

/-- The number of calls of `next` that the scanner `s` has left before it
stands at the end of the text. -/
def translator.left (s : translator.Scanner) : Nat :=
  s.buf.length + (if s.ch = eof then 0 else 1)
/-! ## Induction over values -/

theorem Value.induct {P : Value → Prop} (hnull : P Value.null)
    (hbool : ∀ b, P (Value.boolean b)) (hint : ∀ i, P (Value.integer i))
    (hfloat : ∀ f, P (Value.float f)) (hstr : ∀ s, P (Value.string s))
    (harr : ∀ xs, (∀ x ∈ xs, P x) → P (Value.array xs))
    (hobj : ∀ kvs, (∀ kv ∈ kvs, P kv.2) → P (Value.object kvs))
    (hother : ∀ t, P (Value.other t)) : ∀ v, P v := by
  intro v
  refine @Value.rec P (fun xs => ∀ x ∈ xs, P x)
    (fun kvs => ∀ kv ∈ kvs, P kv.2) (fun kv => P kv.2)
    hnull hbool hint hfloat hstr harr hobj hother ?_ ?_ ?_ ?_ ?_ v
  · intro x hx; cases hx
  · intro head tail hh ht x hx
    rcases List.mem_cons.1 hx with rfl | hx
    · exact hh
    · exact ht x hx
  · intro kv hkv; cases hkv
  · intro head tail hh ht kv hkv
    rcases List.mem_cons.1 hkv with rfl | hkv
    · exact hh
    · exact ht kv hkv
  · intro _ _ h; exact h

/-! ## The linked queue holds a list -/

theorem chain_length {nodes : List node} :
    ∀ {ptrs : List Nat} {l : List Operation}, Chain nodes ptrs l → ptrs.length = l.length
  | [], [], _ => rfl
  | [], _ :: _, h => by simp [Chain] at h
  | _ :: _, [], h => by simp [Chain] at h
  | _ :: ps, _ :: xs, h => by
    have := @chain_length nodes ps xs h.2
    simp [this]

theorem holds_new : NewOpQueue.Holds [] := by
  refine ⟨rfl, [], List.nodup_nil, ?_, ?_, ?_⟩
  · intro p hp; cases hp
  · simp [Chain]
  · intro h; exact absurd rfl h

/-- Writing the `prev` field of the last node of a chain and allocating a new
node behind it extends the chain by the new node. -/
theorem chain_snoc {nodes : List node} (op : Operation) :
    ∀ (ptrs : List Nat) (l : List Operation) (r : Nat) (nd : node),
      Chain nodes ptrs l → ptrs.Nodup → (∀ p ∈ ptrs, p < nodes.length) →
      ptrs.getLast? = some r → nodes[r]? = some nd →
      Chain (nodes.set r { nd with prev := some nodes.length } ++ [⟨op, none, some r⟩])
        (ptrs ++ [nodes.length]) (l ++ [op])
  | [], _, _, _, _, _, _, hlast, _ => by simp at hlast
  | _ :: _, [], _, _, h, _, _, _, _ => by simp [Chain] at h
  | p :: ps, x :: xs, r, nd, h, hnd, hlt, hlast, hr => by
    obtain ⟨⟨n0, hn0, hv0, hp0⟩, htail⟩ := h
    have hpl : p < nodes.length := hlt p (List.mem_cons_self _ _)
    cases ps with
    | nil =>
      have hxs : xs = [] := by
        cases xs with
        | nil => rfl
        | cons _ _ => simp [Chain] at htail
      subst hxs
      have hpr : p = r := by simpa using hlast
      subst hpr
      have hnn : n0 = nd := by rw [hn0] at hr; exact Option.some.inj hr
      subst hnn
      refine ⟨⟨{ n0 with prev := some nodes.length }, ?_, hv0, ?_⟩, ?_⟩
      · rw [List.getElem?_append_left (by simpa using hpl)]
        exact List.getElem?_set_self hpl
      · intro _; rfl
      · refine ⟨⟨⟨op, none, some p⟩, ?_, rfl, ?_⟩, ?_⟩
        · have : (nodes.set p { n0 with prev := some nodes.length }).length = nodes.length := by
            simp
          rw [List.getElem?_append_right (by simp), this]
          simp
        · intro h; exact absurd rfl h
        · simp [Chain]
    | cons p' ps' =>
      have hlast' : (p' :: ps').getLast? = some r := by
        simpa [List.getLast?_cons_cons] using hlast
      have hrmem : r ∈ p' :: ps' := List.mem_of_getLast?_eq_some hlast'
      have hne : r ≠ p := by
        intro e; subst e
        exact (List.nodup_cons.1 hnd).1 hrmem
      have ih := chain_snoc op (p' :: ps') xs r nd htail (List.nodup_cons.1 hnd).2
        (fun q hq => hlt q (List.mem_cons_of_mem _ hq)) hlast' hr
      refine ⟨⟨n0, ?_, hv0, ?_⟩, ih⟩
      · rw [List.getElem?_append_left (by simpa using hpl), List.getElem?_set_ne hne]
        exact hn0
      · intro _
        have := hp0 (by simp)
        simpa using this

theorem holds_enqueue {q : OpQueue} {l : List Operation} (op : Operation) (h : q.Holds l) :
    ∃ q', q.Enqueue op = some q' ∧ q'.Holds (l ++ [op]) := by
  obtain ⟨hlen, ptrs, hnd, hlt, hch, hends⟩ := h
  cases l with
  | nil =>
    have he : q.IsEmpty = true := by simp [OpQueue.IsEmpty, hlen]
    simp only [OpQueue.Enqueue, he, if_true]
    refine ⟨_, rfl, ?_, [q.nodes.length], by simp, ?_, ?_, ?_⟩
    · simp [hlen]
    · intro p hp; simp at hp; subst hp; simp
    · simp [Chain]
    · intro _; simp
  | cons x xs =>
    have he : q.IsEmpty = false := by simp [OpQueue.IsEmpty, hlen]
    obtain ⟨hfront, hrear⟩ := hends (by simp)
    have hpl := chain_length hch
    cases hptrs : ptrs.getLast? with
    | none =>
      rw [List.getLast?_eq_none_iff] at hptrs
      subst hptrs; simp at hpl
    | some r =>
      have hrm : r ∈ ptrs := List.mem_of_getLast?_eq_some hptrs
      have hrl : r < q.nodes.length := hlt r hrm
      have hget : q.nodes[r]? = some q.nodes[r] := List.getElem?_eq_getElem hrl
      have hc := chain_snoc op ptrs (x :: xs) r q.nodes[r] hch hnd hlt hptrs hget
      simp only [OpQueue.Enqueue, he, hrear, hptrs, hget]
      refine ⟨_, rfl, ?_, ptrs ++ [q.nodes.length], ?_, ?_, hc, ?_⟩
      · simp [hlen]
      · rw [List.nodup_append]
        refine ⟨hnd, by simp, ?_⟩
        intro a ha hb
        simp at hb; subst hb
        exact absurd (hlt _ ha) (lt_irrefl _)
      · intro p hp
        simp only [List.length_append, List.length_set, List.length_singleton]
        rcases List.mem_append.1 hp with hp | hp
        · exact Nat.lt_succ_of_lt (hlt p hp)
        · simp at hp; subst hp; exact Nat.lt_succ_self _
      · intro _
        constructor
        · cases ptrs with
          | nil => simp at hptrs
          | cons p ps => simpa using hfront
        · simp [List.getLast?_append]

/-- Clearing a `next` field leaves a chain in place. -/
theorem chain_set_next {nodes : List node} (j : Nat) (nd' : node) (hj : nodes[j]? = some nd') :
    ∀ (ptrs : List Nat) (l : List Operation), Chain nodes ptrs l →
      Chain (nodes.set j { nd' with next := none }) ptrs l
  | [], [], _ => by simp [Chain]
  | [], _ :: _, h => by simp [Chain] at h
  | _ :: _, [], h => by simp [Chain] at h
  | p :: ps, x :: xs, h => by
    obtain ⟨⟨n0, hn0, hv0, hp0⟩, htail⟩ := h
    refine ⟨?_, chain_set_next j nd' hj ps xs htail⟩
    by_cases hpj : j = p
    · subst hpj
      have : n0 = nd' := by rw [hn0] at hj; exact Option.some.inj hj
      subst this
      have hjl : j < nodes.length := (List.getElem?_eq_some.1 hn0).1
      exact ⟨{ n0 with next := none }, List.getElem?_set_self hjl, hv0, hp0⟩
    · exact ⟨n0, by rw [List.getElem?_set_ne hpj]; exact hn0, hv0, hp0⟩

theorem holds_dequeue {q : OpQueue} {x : Operation} {l : List Operation}
    (h : q.Holds (x :: l)) : ∃ q', q.Dequeue = some (some x, q') ∧ q'.Holds l := by
  obtain ⟨hlen, ptrs, hnd, hlt, hch, hends⟩ := h
  obtain ⟨hfront, hrear⟩ := hends (by simp)
  have he : q.IsEmpty = false := by simp [OpQueue.IsEmpty, hlen]
  cases ptrs with
  | nil => simp [Chain] at hch
  | cons p ps =>
    obtain ⟨⟨n0, hn0, hv0, hp0⟩, htail⟩ := hch
    have hpl := chain_length htail
    cases l with
    | nil =>
      have hps : ps = [] := by
        cases ps with
        | nil => rfl
        | cons _ _ => simp at hpl
      subst hps
      have hr : q.rear = some p := by simpa using hrear
      have hl1 : q.length = 1 := by simp [hlen]
      simp only [OpQueue.Dequeue, he, hl1, hr, hn0, hv0]
      refine ⟨_, rfl, ?_, [], ?_, ?_, ?_, ?_⟩
      · simp [hlen]
      · simp
      · simp
      · simp [Chain]
      · intro h; exact absurd rfl h
    | cons y ys =>
      cases ps with
      | nil => simp at hpl
      | cons p' ps' =>
        have hf : q.front = some p := by simpa using hfront
        have hprev : n0.prev = some p' := by simpa using hp0 (by simp)
        have hp'l : p' < q.nodes.length := hlt p' (by simp)
        have hget : q.nodes[p']? = some q.nodes[p'] := List.getElem?_eq_getElem hp'l
        have hl1 : ¬ (q.length = 1) := by simp [hlen]
        simp only [OpQueue.Dequeue, he, hl1, hf, hn0, hprev, hget, hv0]
        refine ⟨_, rfl, ?_, p' :: ps', (List.nodup_cons.1 hnd).2, ?_, ?_, ?_⟩
        · simp [hlen]
        · intro a ha
          simp only [List.length_set]
          exact hlt a (List.mem_cons_of_mem _ ha)
        · exact chain_set_next p' q.nodes[p'] hget _ _ htail
        · intro _
          constructor
          · simp
          · simpa [List.getLast?_cons_cons] using hrear

theorem holds_drain : ∀ (l : List Operation) (q : OpQueue), q.Holds l →
    q.drain l.length = some l
  | [], _, _ => by simp [OpQueue.drain]
  | x :: xs, q, h => by
    obtain ⟨q', hd, hq'⟩ := holds_dequeue h
    have he : q.IsEmpty = false := by simp [OpQueue.IsEmpty, h.1]
    simp [OpQueue.drain, he, hd, holds_drain xs q' hq']

/-- A queue that holds a list hands out exactly that list. -/
theorem holds_contents {q : OpQueue} {l : List Operation} (h : q.Holds l) :
    q.contents = some l := by
  unfold OpQueue.contents
  rw [h.1]
  exact holds_drain l q h

theorem holds_enqueueAll : ∀ (ops : List Operation) {q : OpQueue} {l : List Operation},
    q.Holds l → ∃ q', enqueueAll q ops = some q' ∧ q'.Holds (l ++ ops)
  | [], q, l, h => ⟨q, rfl, by simpa using h⟩
  | op :: ops, q, l, h => by
    obtain ⟨q1, h1, hq1⟩ := holds_enqueue op h
    obtain ⟨q2, h2, hq2⟩ := holds_enqueueAll ops hq1
    exact ⟨q2, by simp [enqueueAll, h1, h2], by simpa using hq2⟩

/-- Every queue built by `Enqueue` alone holds the list enqueued. -/
theorem enqueueAll_holds {ops : List Operation} {q : OpQueue}
    (h : enqueueAll NewOpQueue ops = some q) : q.Holds ops := by
  obtain ⟨q', h', hq'⟩ := holds_enqueueAll ops holds_new
  rw [h] at h'
  cases h'
  simpa using hq'

/-! ## The queue built by the walk holds the list of the walk -/

theorem enqueuePrimitiveOp_spec (ok : Bool) (old new : Value) (pfx : String) {q : OpQueue}
    {l : List Operation} (h : q.Holds l) :
    ∃ q', enqueuePrimitiveOp ok old new q pfx = some q' ∧
      q'.Holds (l ++ [primitiveOp ok old new pfx]) := by
  unfold enqueuePrimitiveOp primitiveOp
  split
  · exact holds_enqueue _ h
  · exact holds_enqueue _ h

theorem enqueueDeletes_spec (pfx : String) : ∀ (surplus : List Value) (i : Nat) {q : OpQueue}
    {l : List Operation}, q.Holds l →
    ∃ q', enqueueDeletes surplus i q pfx = some q' ∧ q'.Holds (l ++ deleteOps surplus i pfx)
  | [], _, q, _, h => ⟨q, rfl, by simpa [deleteOps] using h⟩
  | x :: xs, i, q, l, h => by
    obtain ⟨q1, h1, hq1⟩ := holds_enqueue
      ⟨OpType.DELETE, childPath pfx (Itoa (i : Int)), x, Value.null⟩ h
    obtain ⟨q2, h2, hq2⟩ := enqueueDeletes_spec pfx xs (i + 1) hq1
    exact ⟨q2, by simp [enqueueDeletes, h1, h2], by simpa [deleteOps] using hq2⟩

theorem enqueueCreates_spec (pfx : String) : ∀ (surplus : List Value) (i : Nat) {q : OpQueue}
    {l : List Operation}, q.Holds l →
    ∃ q', enqueueCreates surplus i q pfx = some q' ∧ q'.Holds (l ++ createOps surplus i pfx)
  | [], _, q, _, h => ⟨q, rfl, by simpa [createOps] using h⟩
  | x :: xs, i, q, l, h => by
    obtain ⟨q1, h1, hq1⟩ := holds_enqueue
      ⟨OpType.CREATE, childPath pfx (Itoa (i : Int)), Value.null, x⟩ h
    obtain ⟨q2, h2, hq2⟩ := enqueueCreates_spec pfx xs (i + 1) hq1
    exact ⟨q2, by simp [enqueueCreates, h1, h2], by simpa [createOps] using hq2⟩

theorem enqueueKeyDeletes_spec (oldObj : List (String × Value)) (pfx : String) :
    ∀ (oldKeys : List String) {q : OpQueue} {l : List Operation}, q.Holds l →
    ∃ q', enqueueKeyDeletes oldKeys oldObj q pfx = some q' ∧
      q'.Holds (l ++ keyDeleteOps oldKeys oldObj pfx)
  | [], q, _, h => ⟨q, rfl, by simpa [keyDeleteOps] using h⟩
  | k :: ks, q, l, h => by
    obtain ⟨q1, h1, hq1⟩ := holds_enqueue
      ⟨OpType.DELETE, childPath pfx k, mapIndex oldObj k, Value.null⟩ h
    obtain ⟨q2, h2, hq2⟩ := enqueueKeyDeletes_spec oldObj pfx ks hq1
    exact ⟨q2, by simp [enqueueKeyDeletes, h1, h2], by simpa [keyDeleteOps] using hq2⟩

theorem enqueueKeyCreates_spec (newObj : List (String × Value)) (pfx : String) :
    ∀ (newKeys : List String) {q : OpQueue} {l : List Operation}, q.Holds l →
    ∃ q', enqueueKeyCreates newKeys newObj q pfx = some q' ∧
      q'.Holds (l ++ keyCreateOps newKeys newObj pfx)
  | [], q, _, h => ⟨q, rfl, by simpa [keyCreateOps] using h⟩
  | k :: ks, q, l, h => by
    obtain ⟨q1, h1, hq1⟩ := holds_enqueue
      ⟨OpType.CREATE, childPath pfx k, Value.null, mapIndex newObj k⟩ h
    obtain ⟨q2, h2, hq2⟩ := enqueueKeyCreates_spec newObj pfx ks hq1
    exact ⟨q2, by simp [enqueueKeyCreates, h1, h2], by simpa [keyCreateOps] using hq2⟩

theorem genSharedIndices_spec (paths : List String) (pfx : String) :
    ∀ (oldArr : List Value), (∀ x ∈ oldArr, WalkSpec paths x) →
    ∀ (newArr : List Value) (i : Nat) (q : OpQueue) (l : List Operation), q.Holds l →
    ∃ q', genSharedIndices oldArr newArr i q pfx paths = some q' ∧
      q'.Holds (l ++ walkIndices oldArr newArr i pfx paths)
  | [], _, newArr, i, q, l, h => by
    refine ⟨q, ?_, ?_⟩
    · simp [genSharedIndices]
    · simpa [walkIndices] using h
  | o :: os, _, [], i, q, l, h => by
    refine ⟨q, ?_, ?_⟩
    · simp [genSharedIndices]
    · simpa [walkIndices] using h
  | o :: os, ih, n :: ns, i, q, l, h => by
    obtain ⟨q1, h1, hq1⟩ := ih o (List.mem_cons_self _ _) n q
      (childPath pfx (Itoa (i : Int))) l h
    obtain ⟨q2, h2, hq2⟩ := genSharedIndices_spec paths pfx os
      (fun x hx => ih x (List.mem_cons_of_mem _ hx)) ns (i + 1) q1 _ hq1
    refine ⟨q2, ?_, ?_⟩
    · simp [genSharedIndices, h1, h2]
    · simpa [walkIndices] using hq2

theorem genSharedKeys_spec (paths : List String) (pfx : String)
    (newObj : List (String × Value)) :
    ∀ (entries : List (String × Value)), (∀ kv ∈ entries, WalkSpec paths kv.2) →
    ∀ (newKeys oldKeys : List String) (q : OpQueue) (l : List Operation), q.Holds l →
    ∃ q', genSharedKeys entries newObj newKeys oldKeys q pfx paths =
        some (restNewKeys entries newKeys, restOldKeys entries newKeys oldKeys, q') ∧
      q'.Holds (l ++ walkKeys entries newObj newKeys pfx paths)
  | [], _, newKeys, oldKeys, q, l, h => by
    refine ⟨q, ?_, ?_⟩
    · simp [genSharedKeys, restNewKeys, restOldKeys]
    · simpa [walkKeys] using h
  | (k, v) :: rest, ih, newKeys, oldKeys, q, l, h => by
    by_cases hk : k ∈ newKeys
    · obtain ⟨q1, h1, hq1⟩ := ih (k, v) (List.mem_cons_self _ _) (mapIndex newObj k) q
        (childPath pfx k) l h
      obtain ⟨q2, h2, hq2⟩ := genSharedKeys_spec paths pfx newObj rest
        (fun x hx => ih x (List.mem_cons_of_mem _ hx)) (newKeys.filter fun x => x != k)
        oldKeys q1 _ hq1
      refine ⟨q2, ?_, ?_⟩
      · simp only [genSharedKeys, restNewKeys, restOldKeys, hk, if_true]
        simp only [] at h1
        rw [h1]
        simpa using h2
      · simpa [walkKeys, hk] using hq2
    · obtain ⟨q2, h2, hq2⟩ := genSharedKeys_spec paths pfx newObj rest
        (fun x hx => ih x (List.mem_cons_of_mem _ hx)) newKeys (oldKeys ++ [k]) q l h
      refine ⟨q2, ?_, ?_⟩
      · simpa [genSharedKeys, restNewKeys, restOldKeys, hk] using h2
      · simpa [walkKeys, hk] using hq2

/-- Started on a queue that holds `l`, the walk does not panic and leaves a
queue that holds `l` followed by the operations of `walk`. -/
theorem genOperationRecursive_spec (paths : List String) : ∀ old, WalkSpec paths old := by
  intro old
  induction old using Value.induct with
  | hnull =>
    intro new q pfx l h
    cases new <;>
      first
      | exact ⟨q, by simp [genOperationRecursive, Value.isNil],
          by simpa [walk, Value.isNil] using h⟩
      | (obtain ⟨q1, h1, hq1⟩ := holds_enqueue ⟨OpType.CREATE, pfx, Value.null, _⟩ h
         exact ⟨q1, by simpa [genOperationRecursive, Value.isNil] using h1,
          by simpa [walk, Value.isNil] using hq1⟩)
  | hbool b =>
    intro new q pfx l h
    simp only [genOperationRecursive, walk, Value.isNil, Bool.false_and, Bool.not_false,
      Bool.true_and, Bool.false_eq_true, if_false]
    split_ifs <;>
      first
      | exact holds_enqueue _ h
      | exact enqueuePrimitiveOp_spec _ _ _ _ h
  | hint i =>
    intro new q pfx l h
    simp only [genOperationRecursive, walk, Value.isNil, Bool.false_and, Bool.not_false,
      Bool.true_and, Bool.false_eq_true, if_false]
    split_ifs <;>
      first
      | exact holds_enqueue _ h
      | exact enqueuePrimitiveOp_spec _ _ _ _ h
  | hfloat f =>
    intro new q pfx l h
    simp only [genOperationRecursive, walk, Value.isNil, Bool.false_and, Bool.not_false,
      Bool.true_and, Bool.false_eq_true, if_false]
    split_ifs <;>
      first
      | exact holds_enqueue _ h
      | exact enqueuePrimitiveOp_spec _ _ _ _ h
  | hstr s =>
    intro new q pfx l h
    simp only [genOperationRecursive, walk, Value.isNil, Bool.false_and, Bool.not_false,
      Bool.true_and, Bool.false_eq_true, if_false]
    split_ifs <;>
      first
      | exact holds_enqueue _ h
      | exact enqueuePrimitiveOp_spec _ _ _ _ h
  | hother t =>
    intro new q pfx l h
    simp only [genOperationRecursive, walk, Value.isNil, Bool.false_and, Bool.not_false,
      Bool.true_and, Bool.false_eq_true, if_false]
    split_ifs <;>
      first
      | exact holds_enqueue _ h
      | exact ⟨q, rfl, by simpa using h⟩
  | harr xs ih =>
    intro new q pfx l h
    simp only [genOperationRecursive, walk, Value.isNil, Bool.false_and, Bool.not_false,
      Bool.true_and, Bool.false_eq_true, if_false]
    split_ifs with h1 h2 h3
    · exact holds_enqueue _ h
    · exact holds_enqueue _ h
    · exact holds_enqueue _ h
    · cases new with
      | array newArr =>
        simp only []
        obtain ⟨q1, e1, hq1⟩ := genSharedIndices_spec paths pfx xs ih newArr 0 q l h
        rw [e1]
        simp only [Option.some_bind]
        split_ifs with h4 h5
        · obtain ⟨q2, e2, hq2⟩ := enqueueDeletes_spec pfx (xs.drop newArr.length)
            newArr.length hq1
          exact ⟨q2, e2, by simpa using hq2⟩
        · obtain ⟨q2, e2, hq2⟩ := enqueueCreates_spec pfx (newArr.drop xs.length)
            xs.length hq1
          exact ⟨q2, e2, by simpa using hq2⟩
        · exact ⟨q1, rfl, by simpa using hq1⟩
      | _ => exact enqueuePrimitiveOp_spec _ _ _ _ h
  | hobj kvs ih =>
    intro new q pfx l h
    simp only [genOperationRecursive, walk, Value.isNil, Bool.false_and, Bool.not_false,
      Bool.true_and, Bool.false_eq_true, if_false]
    split_ifs with h1 h2 h3
    · exact holds_enqueue _ h
    · exact holds_enqueue _ h
    · exact holds_enqueue _ h
    · cases new with
      | object newObj =>
        simp only []
        obtain ⟨q1, e1, hq1⟩ := genSharedKeys_spec paths pfx newObj kvs ih (mapKeys newObj)
          [] q l h
        rw [e1]
        simp only [Option.some_bind]
        obtain ⟨q2, e2, hq2⟩ := enqueueKeyDeletes_spec kvs pfx
          (restOldKeys kvs (mapKeys newObj) []) hq1
        rw [e2]
        simp only [Option.some_bind]
        obtain ⟨q3, e3, hq3⟩ := enqueueKeyCreates_spec newObj pfx
          (restNewKeys kvs (mapKeys newObj)) hq2
        exact ⟨q3, e3, by simpa using hq3⟩
      | _ => exact enqueuePrimitiveOp_spec _ _ _ _ h

theorem planOps_eq_walk (old new : Value) (paths : List String) :
    planOps old new paths = some (walk old new "" paths) := by
  obtain ⟨q, hq, hh⟩ := genOperationRecursive_spec paths old new NewOpQueue "" [] holds_new
  simp only [planOps, CreateOpQueue, hq, Option.some_bind]
  simpa using holds_contents hh

theorem emitted_eq_walk (old new : Value) (pfx : String) (paths : List String) :
    emitted old new pfx paths = some (walk old new pfx paths) := by
  obtain ⟨q, hq, hh⟩ := genOperationRecursive_spec paths old new NewOpQueue pfx [] holds_new
  simp only [emitted, hq, Option.some_bind]
  simpa using holds_contents hh

theorem contains_iff (paths : List String) (p : String) : contains paths p = true ↔ p ∈ paths := by
  induction paths with
  | nil => simp [contains]
  | cons a rest ih =>
    simp only [contains, List.mem_cons]
    split_ifs with h
    · simp [h]
    · rw [ih]
      constructor
      · exact Or.inr
      · rintro (h' | h')
        · exact absurd h'.symm h
        · exact h'

theorem isNil_eq_false {v : Value} (h : v ≠ Value.null) : v.isNil = false := by
  cases v <;> simp [Value.isNil] at h ⊢

theorem isNil_eq_true {v : Value} : v.isNil = true ↔ v = Value.null := by
  cases v <;> simp [Value.isNil]

/-- The walk at a stop path with both values present. -/
theorem walk_stop {old new : Value} {pfx : String} {paths : List String}
    (hold : old ≠ Value.null) (hnew : new ≠ Value.null) (hstop : pfx ∈ paths) :
    walk old new pfx paths =
      [⟨if IsEqual old new then OpType.READ else OpType.UPDATE, pfx, old, new⟩] := by
  have h1 := isNil_eq_false hold
  have h2 := isNil_eq_false hnew
  have h3 := (contains_iff paths pfx).2 hstop
  cases old <;> first | exact absurd rfl hold | skip
  all_goals
    simp only [walk, h1, h2, h3, Bool.false_and, Bool.not_false, Bool.true_and,
      Bool.false_eq_true, if_false, if_true, Bool.and_false, Bool.not_eq_true']
    cases IsEqual _ new <;> simp


/-! ## Shape of the emitted operations -/

theorem wellFormed_create (p : String) (v : Value) :
    Operation.WellFormed ⟨OpType.CREATE, p, Value.null, v⟩ := by
  simp [Operation.WellFormed]

theorem wellFormed_delete (p : String) (v : Value) :
    Operation.WellFormed ⟨OpType.DELETE, p, v, Value.null⟩ := by
  simp [Operation.WellFormed]

theorem wellFormed_compare (p : String) {old new : Value} (hold : old ≠ Value.null)
    (hnew : new ≠ Value.null) :
    Operation.WellFormed
      ⟨if IsEqual old new then OpType.READ else OpType.UPDATE, p, old, new⟩ := by
  cases h : IsEqual old new <;> simp [Operation.WellFormed, h, hold, hnew]

theorem primitiveOp_eq (ok : Bool) (old new : Value) (p : String)
    (hok : ok = false → IsEqual old new = false) :
    primitiveOp ok old new p =
      ⟨if IsEqual old new then OpType.READ else OpType.UPDATE, p, old, new⟩ := by
  unfold primitiveOp
  cases ok <;> cases h : IsEqual old new <;> simp_all

theorem wellFormed_stop (p : String) {old new : Value} (hold : old ≠ Value.null)
    (hnew : new ≠ Value.null) (op : Operation)
    (hop : op ∈ (if (!IsEqual old new) = true then [(⟨OpType.UPDATE, p, old, new⟩ : Operation)]
      else [⟨OpType.READ, p, old, new⟩])) : op.WellFormed := by
  cases h : IsEqual old new <;> simp [h] at hop <;> subst hop <;>
    simp [Operation.WellFormed, h, hold, hnew]

theorem wellFormed_primitive (ok : Bool) (p : String) {old new : Value}
    (hold : old ≠ Value.null) (hnew : new ≠ Value.null)
    (hok : ok = false → IsEqual old new = false) :
    (primitiveOp ok old new p).WellFormed := by
  rw [primitiveOp_eq _ _ _ _ hok]
  exact wellFormed_compare p hold hnew

theorem mem_deleteOps_wf (pfx : String) : ∀ (xs : List Value) (i : Nat),
    ∀ op ∈ deleteOps xs i pfx, op.WellFormed
  | [], _, op, h => by simp [deleteOps] at h
  | x :: xs, i, op, h => by
    simp only [deleteOps, List.mem_cons] at h
    rcases h with rfl | h
    · exact wellFormed_delete _ _
    · exact mem_deleteOps_wf pfx xs (i + 1) op h

theorem mem_createOps_wf (pfx : String) : ∀ (xs : List Value) (i : Nat),
    ∀ op ∈ createOps xs i pfx, op.WellFormed
  | [], _, op, h => by simp [createOps] at h
  | x :: xs, i, op, h => by
    simp only [createOps, List.mem_cons] at h
    rcases h with rfl | h
    · exact wellFormed_create _ _
    · exact mem_createOps_wf pfx xs (i + 1) op h

/-- Every operation of the walk has the shape the specification asks. -/
theorem walk_wellFormed (paths : List String) :
    ∀ (old new : Value) (pfx : String), ∀ op ∈ walk old new pfx paths, op.WellFormed := by
  intro old
  induction old using Value.induct with
  | harr xs ih =>
    intro new pfx op hop
    have hidx : ∀ (os ns : List Value) (i : Nat), (∀ x ∈ os, ∀ (new : Value) (pfx : String),
        ∀ op ∈ walk x new pfx paths, op.WellFormed) →
        ∀ op ∈ walkIndices os ns i pfx paths, op.WellFormed := by
      intro os
      induction os with
      | nil => intro ns i _ op h; simp [walkIndices] at h
      | cons o os iho =>
        intro ns i ihx op h
        cases ns with
        | nil => simp [walkIndices] at h
        | cons n ns =>
          simp only [walkIndices, List.mem_append] at h
          rcases h with h | h
          · exact ihx o (List.mem_cons_self _ _) _ _ op h
          · exact iho ns (i + 1) (fun x hx => ihx x (List.mem_cons_of_mem _ hx)) op h
    by_cases hn : new = Value.null
    · subst hn
      simp only [walk, Value.isNil, Bool.false_and, Bool.not_false, Bool.true_and,
        Bool.false_eq_true, if_false, if_true, List.mem_singleton] at hop
      subst hop; exact wellFormed_delete _ _
    · have h2 := isNil_eq_false hn
      simp only [walk, Value.isNil, h2, Bool.false_and, Bool.not_false, Bool.true_and,
        Bool.false_eq_true, if_false, Bool.and_false] at hop
      by_cases hc : contains paths pfx = true
      · rw [if_pos hc] at hop
        exact wellFormed_stop pfx (by simp) hn op hop
      · rw [if_neg hc] at hop
        cases new with
        | array newArr =>
          simp only [List.mem_append] at hop
          rcases hop with h | h
          · exact hidx xs newArr 0 ih op h
          · split_ifs at h
            · exact mem_deleteOps_wf _ _ _ op h
            · exact mem_createOps_wf _ _ _ op h
            · simp at h
        | _ =>
          simp only [List.mem_singleton] at hop; subst hop
          exact wellFormed_primitive _ pfx (by simp) hn (by intro _; simp [IsEqual, Value.isNil])
  | hobj kvs ih =>
    intro new pfx op hop
    have hkeys : ∀ (es newObj : List (String × Value)) (newKeys : List String),
        (∀ kv ∈ es, ∀ (new : Value) (pfx : String),
          ∀ op ∈ walk kv.2 new pfx paths, op.WellFormed) →
        ∀ op ∈ walkKeys es newObj newKeys pfx paths, op.WellFormed := by
      intro es
      induction es with
      | nil => intro newObj newKeys _ op h; simp [walkKeys] at h
      | cons e es ihe =>
        intro newObj newKeys ihx op h
        obtain ⟨k, v⟩ := e
        simp only [walkKeys] at h
        split_ifs at h
        · rcases List.mem_append.1 h with h | h
          · exact ihx (k, v) (List.mem_cons_self _ _) _ _ op h
          · exact ihe newObj _ (fun x hx => ihx x (List.mem_cons_of_mem _ hx)) op h
        · exact ihe newObj _ (fun x hx => ihx x (List.mem_cons_of_mem _ hx)) op h
    by_cases hn : new = Value.null
    · subst hn
      simp only [walk, Value.isNil, Bool.false_and, Bool.not_false, Bool.true_and,
        Bool.false_eq_true, if_false, if_true, List.mem_singleton] at hop
      subst hop; exact wellFormed_delete _ _
    · have h2 := isNil_eq_false hn
      simp only [walk, Value.isNil, h2, Bool.false_and, Bool.not_false, Bool.true_and,
        Bool.false_eq_true, if_false, Bool.and_false] at hop
      by_cases hc : contains paths pfx = true
      · rw [if_pos hc] at hop
        exact wellFormed_stop pfx (by simp) hn op hop
      · rw [if_neg hc] at hop
        cases new with
        | object newObj =>
          simp only [List.mem_append, keyDeleteOps, keyCreateOps, List.mem_map] at hop
          rcases hop with h | ⟨k, _, rfl⟩ | ⟨k, _, rfl⟩
          · exact hkeys kvs newObj _ ih op h
          · exact wellFormed_delete _ _
          · exact wellFormed_create _ _
        | _ =>
          simp only [List.mem_singleton] at hop; subst hop
          exact wellFormed_primitive _ pfx (by simp) hn (by intro _; simp [IsEqual, Value.isNil])
  | hnull =>
    intro new pfx op hop
    by_cases hn : new = Value.null
    · subst hn; simp [walk, Value.isNil] at hop
    · have h2 := isNil_eq_false hn
      simp only [walk, Value.isNil, h2, Bool.true_and, Bool.not_false, Bool.false_eq_true,
        if_false, if_true, List.mem_singleton, Bool.and_false] at hop
      subst hop; exact wellFormed_create _ _
  | _ =>
    intro new pfx op hop
    by_cases hn : new = Value.null
    · subst hn
      simp only [walk, Value.isNil, Bool.false_and, Bool.not_false, Bool.true_and,
        Bool.false_eq_true, if_false, if_true, List.mem_singleton] at hop
      subst hop; exact wellFormed_delete _ _
    · have h2 := isNil_eq_false hn
      simp only [walk, Value.isNil, h2, Bool.false_and, Bool.not_false, Bool.true_and,
        Bool.false_eq_true, if_false, Bool.and_false] at hop
      by_cases hc : contains paths pfx = true
      · rw [if_pos hc] at hop
        exact wellFormed_stop pfx (by simp) hn op hop
      · rw [if_neg hc] at hop
        first
        | (simp only [List.mem_singleton] at hop; subst hop
           refine wellFormed_primitive _ pfx (by simp) hn ?_
           intro hb
           cases new <;> simp_all [IsEqual, Value.isNil, Value.isBoolean,
             Value.isFloat, Value.isInteger, Value.isString])
        | simp at hop

/-! ## Depth of the recursion -/

theorem depth_pos (v : Value) : 1 ≤ v.depth := by
  cases v <;> simp [Value.depth]

theorem depth_le_depthList {x : Value} : ∀ {xs : List Value}, x ∈ xs → x.depth ≤ Value.depthList xs
  | [], h => by cases h
  | y :: ys, h => by
    simp only [Value.depthList]
    rcases List.mem_cons.1 h with rfl | h
    · exact le_max_left _ _
    · exact le_trans (depth_le_depthList h) (le_max_right _ _)

theorem depth_le_depthEntries {kv : String × Value} :
    ∀ {kvs : List (String × Value)}, kv ∈ kvs → kv.2.depth ≤ Value.depthEntries kvs
  | [], h => by cases h
  | (k, v) :: rest, h => by
    simp only [Value.depthEntries]
    rcases List.mem_cons.1 h with rfl | h
    · exact le_max_left _ _
    · exact le_trans (depth_le_depthEntries h) (le_max_right _ _)

theorem mapLookup_mem {k : String} {v : Value} :
    ∀ {m : List (String × Value)}, mapLookup m k = some v → (k, v) ∈ m
  | [], h => by simp [mapLookup] at h
  | (k', v') :: rest, h => by
    simp only [mapLookup] at h
    split_ifs at h with hk
    · cases h; subst hk; exact List.mem_cons_self _ _
    · exact List.mem_cons_of_mem _ (mapLookup_mem h)

theorem mapLookup_isSome {k : String} :
    ∀ {m : List (String × Value)}, k ∈ mapKeys m → ∃ v, mapLookup m k = some v
  | [], h => by simp [mapKeys] at h
  | (k', v') :: rest, h => by
    simp only [mapLookup]
    split_ifs with hk
    · exact ⟨v', rfl⟩
    · have : k ∈ mapKeys rest := by
        simp only [mapKeys, List.map_cons, List.mem_cons] at h
        rcases h with h | h
        · exact absurd h.symm hk
        · exact h
      exact mapLookup_isSome this

theorem mapLookup_eq_none {k : String} :
    ∀ {m : List (String × Value)}, k ∉ mapKeys m → mapLookup m k = none
  | [], _ => rfl
  | (k', v') :: rest, h => by
    simp only [mapKeys, List.map_cons, List.mem_cons, not_or] at h
    simp only [mapLookup]
    rw [if_neg (fun e => h.1 e.symm)]
    exact mapLookup_eq_none h.2

theorem depth_mapIndex_le {k : String} {m : List (String × Value)} (h : k ∈ mapKeys m) :
    (mapIndex m k).depth ≤ Value.depthEntries m := by
  obtain ⟨v, hv⟩ := mapLookup_isSome h
  simp only [mapIndex, hv, Option.getD_some]
  exact depth_le_depthEntries (mapLookup_mem hv)

/-- The recursion is no deeper than either input tree. -/
theorem callDepth_le (paths : List String) :
    ∀ (old new : Value) (pfx : String),
      callDepth old new pfx paths ≤ old.depth ∧ callDepth old new pfx paths ≤ new.depth := by
  intro old
  induction old using Value.induct with
  | harr xs ih =>
    intro new pfx
    have hidx : ∀ (os ns : List Value) (i : Nat),
        (∀ x ∈ os, ∀ (new : Value) (pfx : String),
          callDepth x new pfx paths ≤ x.depth ∧ callDepth x new pfx paths ≤ new.depth) →
        callDepthIndices os ns i pfx paths ≤ Value.depthList os ∧
          callDepthIndices os ns i pfx paths ≤ Value.depthList ns := by
      intro os
      induction os with
      | nil => intro ns i _; simp [callDepthIndices]
      | cons o os iho =>
        intro ns i ihx
        cases ns with
        | nil => simp [callDepthIndices]
        | cons n ns =>
          have h1 := ihx o (List.mem_cons_self _ _) n (childPath pfx (Itoa (i : Int)))
          have h2 := iho ns (i + 1) (fun x hx => ihx x (List.mem_cons_of_mem _ hx))
          simp only [callDepthIndices, Value.depthList]
          exact ⟨max_le_max h1.1 h2.1, max_le_max h1.2 h2.2⟩
    simp only [callDepth]
    split_ifs
    · exact ⟨depth_pos _, depth_pos _⟩
    · exact ⟨depth_pos _, depth_pos _⟩
    · exact ⟨depth_pos _, depth_pos _⟩
    · exact ⟨depth_pos _, depth_pos _⟩
    · cases new with
      | array newArr =>
        have := hidx xs newArr 0 ih
        simp only [Value.depth]
        omega
      | _ => exact ⟨depth_pos _, depth_pos _⟩
  | hobj kvs ih =>
    intro new pfx
    have hkeys : ∀ (es newObj : List (String × Value)) (newKeys : List String),
        (∀ k ∈ newKeys, k ∈ mapKeys newObj) →
        (∀ kv ∈ es, ∀ (new : Value) (pfx : String),
          callDepth kv.2 new pfx paths ≤ kv.2.depth ∧
            callDepth kv.2 new pfx paths ≤ new.depth) →
        callDepthKeys es newObj newKeys pfx paths ≤ Value.depthEntries es ∧
          callDepthKeys es newObj newKeys pfx paths ≤ Value.depthEntries newObj := by
      intro es
      induction es with
      | nil => intro newObj newKeys _ _; simp [callDepthKeys]
      | cons e es ihe =>
        intro newObj newKeys hsub ihx
        obtain ⟨k, v⟩ := e
        simp only [callDepthKeys, Value.depthEntries]
        split_ifs with hk
        · have h1 := ihx (k, v) (List.mem_cons_self _ _) (mapIndex newObj k) (childPath pfx k)
          have h2 := ihe newObj (newKeys.filter fun x => x != k)
            (fun a ha => hsub a (List.mem_filter.1 ha).1)
            (fun x hx => ihx x (List.mem_cons_of_mem _ hx))
          have h3 := depth_mapIndex_le (hsub k hk)
          exact ⟨max_le_max h1.1 h2.1, max_le (le_trans h1.2 h3) h2.2⟩
        · have h2 := ihe newObj newKeys hsub (fun x hx => ihx x (List.mem_cons_of_mem _ hx))
          exact ⟨le_trans h2.1 (le_max_right _ _), h2.2⟩
    simp only [callDepth]
    split_ifs
    · exact ⟨depth_pos _, depth_pos _⟩
    · exact ⟨depth_pos _, depth_pos _⟩
    · exact ⟨depth_pos _, depth_pos _⟩
    · exact ⟨depth_pos _, depth_pos _⟩
    · cases new with
      | object newObj =>
        have := hkeys kvs newObj (mapKeys newObj) (fun _ h => h) ih
        simp only [Value.depth]
        omega
      | _ => exact ⟨depth_pos _, depth_pos _⟩
  | _ =>
    intro new pfx
    simp only [callDepth]
    split_ifs <;> exact ⟨depth_pos _, depth_pos _⟩

/-! ## Decimal text -/

theorem digitVal_digitChar {d : Nat} (h : d < 10) : digitVal (digitChar d) = some d := by
  interval_cases d <;> decide

theorem digitChar_ne_zero {d : Nat} (h : d < 10) (h0 : d ≠ 0) : digitChar d ≠ '0' := by
  interval_cases d <;> first | exact absurd rfl h0 | decide

theorem digitChar_isDigit {d : Nat} (h : d < 10) :
    48 ≤ (digitChar d).toNat ∧ (digitChar d).toNat ≤ 57 := by
  interval_cases d <;> decide

theorem parseDigits_append (c : Char) : ∀ (xs : List Char) (acc : Nat),
    parseDigits (xs ++ [c]) acc =
      (parseDigits xs acc).bind fun a => (digitVal c).map fun d => a * 10 + d
  | [], acc => by
    cases h : digitVal c <;> simp [parseDigits, h]
  | x :: xs, acc => by
    cases h : digitVal x with
    | none => simp [parseDigits, h]
    | some d => simp [parseDigits, h, parseDigits_append c xs]

theorem natDigits_ne_nil : ∀ (fuel n : Nat), n < fuel → natDigits fuel n ≠ []
  | 0, _, h => by omega
  | fuel + 1, n, _ => by
    simp only [natDigits]
    split_ifs <;> simp

theorem natDigits_digits : ∀ (fuel n : Nat), ∀ c ∈ natDigits fuel n, ∃ d, d < 10 ∧ c = digitChar d
  | 0, _, c, h => by simp [natDigits] at h
  | fuel + 1, n, c, h => by
    simp only [natDigits] at h
    split_ifs at h with hn
    · simp only [List.mem_singleton] at h
      exact ⟨n, hn, h⟩
    · rcases List.mem_append.1 h with h | h
      · exact natDigits_digits fuel (n / 10) c h
      · simp only [List.mem_singleton] at h
        exact ⟨n % 10, Nat.mod_lt _ (by decide), h⟩

theorem parseDigits_natDigits : ∀ (fuel n : Nat), n < fuel →
    parseDigits (natDigits fuel n) 0 = some n
  | 0, _, h => by omega
  | fuel + 1, n, h => by
    simp only [natDigits]
    split_ifs with hn
    · simp [parseDigits, digitVal_digitChar hn]
    · have hlt : n / 10 < fuel := by omega
      rw [parseDigits_append, parseDigits_natDigits fuel (n / 10) hlt,
        digitVal_digitChar (Nat.mod_lt _ (by decide))]
      simp only [Option.some_bind, Option.map_some']
      congr 1
      omega

theorem natDigits_head : ∀ (fuel n : Nat), n < fuel → n ≠ 0 →
    (natDigits fuel n).head? ≠ some '0'
  | 0, _, h, _ => by omega
  | fuel + 1, n, h, h0 => by
    simp only [natDigits]
    split_ifs with hn
    · simp only [List.head?_cons, ne_eq, Option.some.injEq]
      exact digitChar_ne_zero hn h0
    · have hlt : n / 10 < fuel := by omega
      have hne : n / 10 ≠ 0 := by omega
      have ih := natDigits_head fuel (n / 10) hlt hne
      have hnn := natDigits_ne_nil fuel (n / 10) hlt
      cases hd : natDigits fuel (n / 10) with
      | nil => exact absurd hd hnn
      | cons a as =>
        rw [hd] at ih
        simpa using ih

theorem Itoa_nat_data (i : Nat) : (Itoa (i : Int)).data = natDigits (i + 1) i := by
  have h : ¬ ((i : Int) < 0) := by omega
  simp [Itoa, h]

/-- The text of a natural number is its canonical decimal numeral: not empty,
digits only, no leading zero unless the number is zero, and it reads back as
the number. -/
theorem Itoa_nat_decimal (i : Nat) :
    (Itoa (i : Int)).data ≠ [] ∧
    (∀ c ∈ (Itoa (i : Int)).data, 48 ≤ c.toNat ∧ c.toNat ≤ 57) ∧
    ((Itoa (i : Int)).data.head? = some '0' → Itoa (i : Int) = "0") ∧
    parseDigits (Itoa (i : Int)).data 0 = some i := by
  rw [Itoa_nat_data]
  refine ⟨natDigits_ne_nil _ _ (Nat.lt_succ_self _), ?_, ?_,
    parseDigits_natDigits _ _ (Nat.lt_succ_self _)⟩
  · intro c hc
    obtain ⟨d, hd, rfl⟩ := natDigits_digits _ _ c hc
    exact digitChar_isDigit hd
  · intro h
    by_cases h0 : i = 0
    · subst h0; rfl
    · exact absurd h (natDigits_head _ _ (Nat.lt_succ_self _) h0)

/-! ## The Array case as a list -/

theorem walkIndices_eq (paths : List String) (pfx : String) :
    ∀ (os ns : List Value) (i : Nat),
      walkIndices os ns i pfx paths =
        ((os.zip ns).enumFrom i).flatMap fun p =>
          walk p.2.1 p.2.2 (childPath pfx (Itoa (p.1 : Int))) paths
  | [], _, _ => by simp [walkIndices]
  | _ :: _, [], _ => by simp [walkIndices]
  | o :: os, n :: ns, i => by
    simp only [walkIndices, List.zip_cons_cons, List.enumFrom_cons, List.flatMap_cons,
      walkIndices_eq paths pfx os ns (i + 1)]

theorem deleteOps_eq (pfx : String) : ∀ (xs : List Value) (i : Nat),
    deleteOps xs i pfx =
      (xs.enumFrom i).map fun p =>
        ⟨OpType.DELETE, childPath pfx (Itoa (p.1 : Int)), p.2, Value.null⟩
  | [], _ => by simp [deleteOps]
  | x :: xs, i => by simp [deleteOps, List.enumFrom, deleteOps_eq pfx xs (i + 1)]

theorem createOps_eq (pfx : String) : ∀ (xs : List Value) (i : Nat),
    createOps xs i pfx =
      (xs.enumFrom i).map fun p =>
        ⟨OpType.CREATE, childPath pfx (Itoa (p.1 : Int)), Value.null, p.2⟩
  | [], _ => by simp [createOps]
  | x :: xs, i => by simp [createOps, List.enumFrom, createOps_eq pfx xs (i + 1)]

theorem contains_eq_false {paths : List String} {p : String} (h : p ∉ paths) :
    contains paths p = false := by
  rw [← Bool.not_eq_true, contains_iff]; exact h

theorem walk_array_array (oldArr newArr : List Value) (pfx : String) (paths : List String)
    (h : pfx ∉ paths) :
    walk (Value.array oldArr) (Value.array newArr) pfx paths =
      (((oldArr.zip newArr).enumFrom 0).flatMap fun p =>
        walk p.2.1 p.2.2 (childPath pfx (Itoa (p.1 : Int))) paths) ++
      (((oldArr.drop newArr.length).enumFrom newArr.length).map fun p =>
        ⟨OpType.DELETE, childPath pfx (Itoa (p.1 : Int)), p.2, Value.null⟩) ++
      (((newArr.drop oldArr.length).enumFrom oldArr.length).map fun p =>
        ⟨OpType.CREATE, childPath pfx (Itoa (p.1 : Int)), Value.null, p.2⟩) := by
  simp only [walk, Value.isNil, contains_eq_false h, Bool.false_and, Bool.and_false,
    Bool.false_eq_true, if_false, walkIndices_eq, List.append_assoc]
  congr 1
  split_ifs with h1 h2
  · have : List.drop oldArr.length newArr = [] := List.drop_eq_nil_of_le (by omega)
    simp [this, deleteOps_eq]
  · have : List.drop newArr.length oldArr = [] := List.drop_eq_nil_of_le (by omega)
    simp [this, createOps_eq]
  · have e1 : List.drop oldArr.length newArr = [] := List.drop_eq_nil_of_le (by omega)
    have e2 : List.drop newArr.length oldArr = [] := List.drop_eq_nil_of_le (by omega)
    simp [e1, e2]

/-! ## The Object case as a list -/

theorem mapLookup_of_mem {k : String} {v : Value} :
    ∀ {m : List (String × Value)}, (mapKeys m).Nodup → (k, v) ∈ m → mapLookup m k = some v
  | [], _, h => by cases h
  | (k', v') :: rest, hnd, h => by
    simp only [mapKeys, List.map_cons, List.nodup_cons] at hnd
    simp only [mapLookup]
    rcases List.mem_cons.1 h with h | h
    · cases h; simp
    · have hk : k ∈ mapKeys rest := List.mem_map.2 ⟨(k, v), h, rfl⟩
      have hne : k' ≠ k := fun e => hnd.1 (e ▸ hk)
      rw [if_neg hne]
      exact mapLookup_of_mem hnd.2 h

theorem mapIndex_of_mem {k : String} {v : Value} {m : List (String × Value)}
    (hnd : (mapKeys m).Nodup) (h : (k, v) ∈ m) : mapIndex m k = v := by
  simp [mapIndex, mapLookup_of_mem hnd h]

theorem filter_keys_erase {rest : List (String × Value)} {k : String} (newKeys : List String)
    (hk : k ∉ mapKeys rest) :
    rest.filter (fun kv => decide (kv.1 ∈ newKeys.filter fun x => x != k)) =
      rest.filter (fun kv => decide (kv.1 ∈ newKeys)) := by
  apply List.filter_congr
  intro kv hkv
  have hne : kv.1 ≠ k := fun e => hk (e ▸ List.mem_map.2 ⟨kv, hkv, rfl⟩)
  simp [List.mem_filter, hne]

theorem filter_keys_erase_not {rest : List (String × Value)} {k : String}
    (newKeys : List String) (hk : k ∉ mapKeys rest) :
    rest.filter (fun kv => decide (kv.1 ∉ newKeys.filter fun x => x != k)) =
      rest.filter (fun kv => decide (kv.1 ∉ newKeys)) := by
  apply List.filter_congr
  intro kv hkv
  have hne : kv.1 ≠ k := fun e => hk (e ▸ List.mem_map.2 ⟨kv, hkv, rfl⟩)
  simp [List.mem_filter, hne]

theorem walkKeys_eq (paths : List String) (pfx : String) (newObj : List (String × Value)) :
    ∀ (es : List (String × Value)) (newKeys : List String), (mapKeys es).Nodup →
      walkKeys es newObj newKeys pfx paths =
        (es.filter fun kv => decide (kv.1 ∈ newKeys)).flatMap fun kv =>
          walk kv.2 (mapIndex newObj kv.1) (childPath pfx kv.1) paths
  | [], _, _ => by simp [walkKeys]
  | (k, v) :: rest, newKeys, hnd => by
    simp only [mapKeys, List.map_cons, List.nodup_cons] at hnd
    simp only [walkKeys]
    split_ifs with hk
    · rw [walkKeys_eq paths pfx newObj rest _ hnd.2, filter_keys_erase newKeys hnd.1]
      simp [List.filter_cons, hk]
    · rw [walkKeys_eq paths pfx newObj rest _ hnd.2]
      simp [List.filter_cons, hk]

theorem restOldKeys_eq : ∀ (es : List (String × Value)) (newKeys oldKeys : List String),
    (mapKeys es).Nodup →
      restOldKeys es newKeys oldKeys =
        oldKeys ++ (es.filter fun kv => decide (kv.1 ∉ newKeys)).map Prod.fst
  | [], _, _, _ => by simp [restOldKeys]
  | (k, v) :: rest, newKeys, oldKeys, hnd => by
    simp only [mapKeys, List.map_cons, List.nodup_cons] at hnd
    simp only [restOldKeys]
    split_ifs with hk
    · rw [restOldKeys_eq rest _ _ hnd.2, filter_keys_erase_not newKeys hnd.1]
      simp [List.filter_cons, hk]
    · rw [restOldKeys_eq rest _ _ hnd.2]
      simp [List.filter_cons, hk]

theorem restNewKeys_eq : ∀ (es : List (String × Value)) (newKeys : List String),
    restNewKeys es newKeys = newKeys.filter fun k => decide (k ∉ mapKeys es)
  | [], _ => by simp [restNewKeys, mapKeys]
  | (k, v) :: rest, newKeys => by
    simp only [restNewKeys]
    split_ifs with hk
    · rw [restNewKeys_eq rest, List.filter_filter]
      apply List.filter_congr
      intro x _
      simp only [mapKeys, List.map_cons, List.mem_cons, not_or, bne_iff_ne, ne_eq,
        Bool.decide_and, Bool.and_eq_true, decide_eq_true_eq, decide_not]
      by_cases hx : x = k <;> simp [hx]
    · rw [restNewKeys_eq rest]
      apply List.filter_congr
      intro x hx
      have hne : x ≠ k := fun e => hk (e ▸ hx)
      simp [mapKeys, hne]

theorem walk_object_object (oldObj newObj : List (String × Value)) (pfx : String)
    (paths : List String) (h : pfx ∉ paths) (ho : (mapKeys oldObj).Nodup)
    (hn : (mapKeys newObj).Nodup) :
    walk (Value.object oldObj) (Value.object newObj) pfx paths =
      ((oldObj.filter fun kv => decide (kv.1 ∈ mapKeys newObj)).flatMap fun kv =>
        walk kv.2 (mapIndex newObj kv.1) (childPath pfx kv.1) paths) ++
      ((oldObj.filter fun kv => decide (kv.1 ∉ mapKeys newObj)).map fun kv =>
        ⟨OpType.DELETE, childPath pfx kv.1, kv.2, Value.null⟩) ++
      ((newObj.filter fun kv => decide (kv.1 ∉ mapKeys oldObj)).map fun kv =>
        ⟨OpType.CREATE, childPath pfx kv.1, Value.null, kv.2⟩) := by
  simp only [walk, Value.isNil, contains_eq_false h, Bool.false_and, Bool.and_false,
    Bool.false_eq_true, if_false, walkKeys_eq _ _ _ _ _ ho, restOldKeys_eq _ _ _ ho,
    restNewKeys_eq, List.nil_append, List.append_assoc, keyDeleteOps, keyCreateOps]
  congr 2
  · rw [List.map_map]
    apply List.map_congr_left
    intro kv hkv
    have hm : (kv.1, kv.2) ∈ oldObj := (List.mem_filter.1 hkv).1
    simp [mapIndex_of_mem ho hm]
  · have e : (mapKeys newObj).filter (fun k => decide (k ∉ mapKeys oldObj)) =
        (newObj.filter fun kv => decide (kv.1 ∉ mapKeys oldObj)).map Prod.fst := by
      simp only [mapKeys, List.filter_map]
      rfl
    rw [e, List.map_map]
    apply List.map_congr_left
    intro kv hkv
    have hm : (kv.1, kv.2) ∈ newObj := (List.mem_filter.1 hkv).1
    simp [mapIndex_of_mem hn hm]

/-! ## Reflexivity -/

theorem WFList_iff : ∀ {xs : List Value}, Value.WFList xs ↔ ∀ x ∈ xs, x.WF
  | [] => by simp [Value.WFList]
  | x :: xs => by simp [Value.WFList, @WFList_iff xs]

theorem WFEntries_iff : ∀ {kvs : List (String × Value)},
    Value.WFEntries kvs ↔ ∀ kv ∈ kvs, kv.2.WF
  | [] => by simp [Value.WFEntries]
  | (k, v) :: rest => by simp [Value.WFEntries, @WFEntries_iff rest]

theorem plainList_iff : ∀ {xs : List Value},
    Value.plainList xs = true ↔ ∀ x ∈ xs, x.plain = true
  | [] => by simp [Value.plainList]
  | x :: xs => by simp [Value.plainList, @plainList_iff xs]

theorem plainEntries_iff : ∀ {kvs : List (String × Value)},
    Value.plainEntries kvs = true ↔ ∀ kv ∈ kvs, kv.2.plain = true
  | [] => by simp [Value.plainEntries]
  | (k, v) :: rest => by simp [Value.plainEntries, @plainEntries_iff rest]

theorem f64Eq_self {f : Nat} (h : f64IsNaN f = false) : f64Eq f f = true := by
  simp [f64Eq, h]

theorem IsEqualElems_self : ∀ (xs : List Value), (∀ x ∈ xs, IsEqual x x = true) →
    IsEqualElems xs xs = true
  | [], _ => by simp [IsEqualElems]
  | x :: xs, h => by
    simp only [IsEqualElems, h x (List.mem_cons_self _ _), Bool.not_true, Bool.false_eq_true,
      if_false]
    exact IsEqualElems_self xs fun y hy => h y (List.mem_cons_of_mem _ hy)

theorem IsEqualEntries_self (m : List (String × Value)) (hnd : (mapKeys m).Nodup) :
    ∀ (es : List (String × Value)), (∀ kv ∈ es, kv ∈ m) →
      (∀ kv ∈ es, IsEqual kv.2 kv.2 = true) → IsEqualEntries es m = true
  | [], _, _ => by simp [IsEqualEntries]
  | (k, v) :: rest, hsub, h => by
    have hl := mapLookup_of_mem hnd (hsub (k, v) (List.mem_cons_self _ _))
    have hv := h (k, v) (List.mem_cons_self _ _)
    simp only [IsEqualEntries, hl, hv, Bool.not_true, Bool.false_eq_true, if_false]
    exact IsEqualEntries_self m hnd rest (fun kv hkv => hsub kv (List.mem_cons_of_mem _ hkv))
      fun kv hkv => h kv (List.mem_cons_of_mem _ hkv)

/-- `IsEqual` finds a plain value equal to itself. -/
theorem IsEqual_self : ∀ (X : Value), X.WF → X.plain = true → IsEqual X X = true := by
  intro X
  induction X using Value.induct with
  | hnull => intro _ _; simp [IsEqual, Value.isNil]
  | hbool b => intro _ _; simp [IsEqual, Value.isNil]
  | hint i => intro _ _; simp [IsEqual, Value.isNil]
  | hfloat f =>
    intro _ hp
    simp only [Value.plain, Bool.not_eq_true'] at hp
    simp [IsEqual, Value.isNil, f64Eq_self hp]
  | hstr s => intro _ _; simp [IsEqual, Value.isNil]
  | hother t => intro _ hp; simp [Value.plain] at hp
  | harr xs ih =>
    intro hw hp
    simp only [Value.WF] at hw
    simp only [Value.plain] at hp
    have h1 := WFList_iff.1 hw.2
    have h2 := plainList_iff.1 hp
    simp only [IsEqual, Value.isNil, Bool.false_and, Bool.false_or, Bool.false_eq_true,
      if_false, bne_self_eq_false]
    exact IsEqualElems_self xs fun x hx => ih x hx (h1 x hx) (h2 x hx)
  | hobj kvs ih =>
    intro hw hp
    simp only [Value.WF] at hw
    simp only [Value.plain] at hp
    have h1 := WFEntries_iff.1 hw.2
    have h2 := plainEntries_iff.1 hp
    simp only [IsEqual, Value.isNil, Bool.false_and, Bool.false_or, Bool.false_eq_true,
      if_false, bne_self_eq_false]
    exact IsEqualEntries_self kvs hw.1 kvs (fun _ h => h)
      fun kv hkv => ih kv hkv (h1 kv hkv) (h2 kv hkv)

theorem mem_zip_self {a b : Value} : ∀ {xs : List Value}, (a, b) ∈ xs.zip xs → a = b ∧ a ∈ xs
  | [], h => by simp at h
  | x :: xs, h => by
    simp only [List.zip_cons_cons, List.mem_cons, Prod.mk.injEq] at h
    rcases h with ⟨rfl, rfl⟩ | h
    · exact ⟨rfl, List.mem_cons_self _ _⟩
    · have := mem_zip_self h
      exact ⟨this.1, List.mem_cons_of_mem _ this.2⟩

/-- The walk of a plain value against itself emits READ only. -/
theorem walk_self_read (paths : List String) : ∀ (X : Value), X.WF → X.plain = true →
    ∀ (pfx : String), ∀ op ∈ walk X X pfx paths, op.Op = OpType.READ := by
  intro X
  induction X using Value.induct with
  | hnull => intro _ _ pfx op hop; simp [walk, Value.isNil] at hop
  | hother t => intro _ hp; simp [Value.plain] at hp
  | harr xs ih =>
    intro hw hp pfx op hop
    have he := IsEqual_self _ hw hp
    by_cases hs : pfx ∈ paths
    · rw [walk_stop (by simp) (by simp) hs, he] at hop
      simp only [if_true, List.mem_singleton] at hop
      subst hop; rfl
    · simp only [Value.WF] at hw
      simp only [Value.plain] at hp
      have h1 := WFList_iff.1 hw.2
      have h2 := plainList_iff.1 hp
      rw [walk_array_array _ _ _ _ hs] at hop
      simp only [List.drop_length, List.enumFrom_nil, List.map_nil, List.append_nil,
        List.mem_flatMap] at hop
      obtain ⟨p, hp1, hp2⟩ := hop
      obtain ⟨i, a, b⟩ := p
      have hab : a = b ∧ a ∈ xs := mem_zip_self (List.snd_mem_of_mem_enumFrom hp1)
      obtain ⟨hab, ha⟩ := hab
      subst hab
      exact ih a ha (h1 a ha) (h2 a ha) _ op hp2
  | hobj kvs ih =>
    intro hw hp pfx op hop
    have he := IsEqual_self _ hw hp
    by_cases hs : pfx ∈ paths
    · rw [walk_stop (by simp) (by simp) hs, he] at hop
      simp only [if_true, List.mem_singleton] at hop
      subst hop; rfl
    · simp only [Value.WF] at hw
      simp only [Value.plain] at hp
      have h1 := WFEntries_iff.1 hw.2
      have h2 := plainEntries_iff.1 hp
      rw [walk_object_object _ _ _ _ hs hw.1 hw.1] at hop
      simp only [List.mem_append, List.mem_flatMap, List.mem_map, List.mem_filter,
        decide_eq_true_eq] at hop
      rcases hop with (⟨kv, ⟨hkv, _⟩, hop⟩ | ⟨kv, ⟨hkv, hno⟩, _⟩) | ⟨kv, ⟨hkv, hno⟩, _⟩
      · rw [mapIndex_of_mem hw.1 hkv] at hop
        exact ih kv hkv (h1 kv hkv) (h2 kv hkv) _ op hop
      · exact absurd (List.mem_map.2 ⟨kv, hkv, rfl⟩) hno
      · exact absurd (List.mem_map.2 ⟨kv, hkv, rfl⟩) hno
  | _ =>
    intro hw hp pfx op hop
    have he := IsEqual_self _ hw hp
    by_cases hs : pfx ∈ paths
    · rw [walk_stop (by simp) (by simp) hs, he] at hop
      simp only [if_true, List.mem_singleton] at hop
      subst hop; rfl
    · simp only [walk, Value.isNil, contains_eq_false hs, Bool.false_and, Bool.and_false,
        Bool.false_eq_true, if_false, primitiveOp, he, Value.isBoolean, Value.isFloat,
        Value.isInteger, Value.isString, Bool.not_true, Bool.or_self, List.mem_singleton]
        at hop
      subst hop; rfl

theorem mem_mapKeys_of_mem {kv : String × Value} {m : List (String × Value)} (h : kv ∈ m) :
    kv.1 ∈ mapKeys m := List.mem_map.2 ⟨kv, h, rfl⟩

theorem walkIndices_self_scalars (pfx : String) : ∀ (xs : List Value) (i : Nat),
    (∀ x ∈ xs, ∀ (p : String), walk x x p [] =
      (scalarPositions x p).map fun s => ⟨OpType.READ, s.1, s.2, s.2⟩) →
    walkIndices xs xs i pfx [] =
      (scalarPositionsList xs i pfx).map fun s => ⟨OpType.READ, s.1, s.2, s.2⟩
  | [], _, _ => by simp [walkIndices, scalarPositionsList]
  | x :: xs, i, h => by
    simp only [walkIndices, scalarPositionsList, List.map_append]
    rw [h x (List.mem_cons_self _ _),
      walkIndices_self_scalars pfx xs (i + 1) fun y hy => h y (List.mem_cons_of_mem _ hy)]

theorem flatMap_self_scalars (pfx : String) : ∀ (es : List (String × Value)),
    (∀ kv ∈ es, ∀ (p : String), walk kv.2 kv.2 p [] =
      (scalarPositions kv.2 p).map fun s => ⟨OpType.READ, s.1, s.2, s.2⟩) →
    (es.flatMap fun kv => walk kv.2 kv.2 (childPath pfx kv.1) []) =
      (scalarPositionsEntries es pfx).map fun s => ⟨OpType.READ, s.1, s.2, s.2⟩
  | [], _ => by simp [scalarPositionsEntries]
  | (k, v) :: rest, h => by
    simp only [List.flatMap_cons, scalarPositionsEntries, List.map_append]
    rw [h (k, v) (List.mem_cons_self _ _),
      flatMap_self_scalars pfx rest fun y hy => h y (List.mem_cons_of_mem _ hy)]

/-- With no stop paths the walk of a plain value against itself is one READ
for each scalar position. -/
theorem walk_self_scalars : ∀ (X : Value), X.WF → X.plain = true → ∀ (pfx : String),
    walk X X pfx [] = (scalarPositions X pfx).map fun s => ⟨OpType.READ, s.1, s.2, s.2⟩ := by
  intro X
  induction X using Value.induct with
  | hnull => intro _ _ pfx; simp [walk, Value.isNil, scalarPositions]
  | hother t => intro _ hp; simp [Value.plain] at hp
  | harr xs ih =>
    intro hw hp pfx
    simp only [Value.WF] at hw
    simp only [Value.plain] at hp
    have h1 := WFList_iff.1 hw.2
    have h2 := plainList_iff.1 hp
    simp only [walk, Value.isNil, contains, Bool.false_and, Bool.and_false, Bool.false_eq_true,
      if_false, gt_iff_lt, lt_self_iff_false, List.append_nil, scalarPositions]
    exact walkIndices_self_scalars pfx xs 0 fun x hx p => ih x hx (h1 x hx) (h2 x hx) p
  | hobj kvs ih =>
    intro hw hp pfx
    simp only [Value.WF] at hw
    simp only [Value.plain] at hp
    have h1 := WFEntries_iff.1 hw.2
    have h2 := plainEntries_iff.1 hp
    rw [walk_object_object _ _ pfx [] (by simp) hw.1 hw.1]
    have e1 : (kvs.filter fun kv => decide (kv.1 ∈ mapKeys kvs)) = kvs := by
      rw [List.filter_eq_self]
      intro kv hkv
      simp [mem_mapKeys_of_mem hkv]
    have e2 : (kvs.filter fun kv => decide (kv.1 ∉ mapKeys kvs)) = [] := by
      rw [List.filter_eq_nil_iff]
      intro kv hkv
      simp [mem_mapKeys_of_mem hkv]
    rw [e1, e2]
    simp only [List.map_nil, List.append_nil, scalarPositions]
    have e3 : (kvs.flatMap fun kv => walk kv.2 (mapIndex kvs kv.1) (childPath pfx kv.1) []) =
        kvs.flatMap fun kv => walk kv.2 kv.2 (childPath pfx kv.1) [] := by
      apply List.flatMap_congr
      intro kv hkv
      rw [mapIndex_of_mem hw.1 hkv]
    rw [e3]
    exact flatMap_self_scalars pfx kvs fun kv hkv p => ih kv hkv (h1 kv hkv) (h2 kv hkv) p
  | _ =>
    intro hw hp pfx
    have he := IsEqual_self _ hw hp
    simp [walk, Value.isNil, contains, primitiveOp, he, Value.isBoolean, Value.isFloat,
      Value.isInteger, Value.isString, scalarPositions]

/-! ## Resolution of emitted paths -/

theorem span_close : ∀ (seg rest : List Char), ']' ∉ seg →
    (seg ++ ']' :: rest).span (fun c => c != ']') = (seg, ']' :: rest)
  | [], rest, _ => by simp [List.span, List.span.loop]
  | c :: seg, rest, h => by
    simp only [List.mem_cons, not_or] at h
    have hc : (c != ']') = true := by simpa using fun e => h.1 e.symm
    have ih := span_close seg rest h.2
    simp only [List.span_eq_take_drop, List.cons_append, List.takeWhile_cons, hc, if_true,
      List.dropWhile_cons, Prod.mk.injEq] at ih ⊢
    exact ⟨by rw [ih.1], ih.2⟩

theorem resolves_nil (v : Value) : Resolves v [] v := by
  intro f hf
  cases f with
  | zero => simp at hf
  | succ f => simp [GetFuel]

theorem resolves_nil_eq {v r : Value} (h : Resolves v [] r) : r = v := by
  have := h 1 (by simp)
  simp only [GetFuel, Option.some.injEq, GetOutcome.ok.injEq] at this
  exact this.symm

theorem resolves_object {m : List (String × Value)} {k : String} {rest : List Char}
    {r : Value} (hk : ']' ∉ k.data) (h : Resolves (mapIndex m k) rest r) :
    Resolves (Value.object m) ('[' :: k.data ++ ']' :: rest) r := by
  intro f hf
  cases f with
  | zero => simp at hf
  | succ f =>
    have hlen : rest.length < f := by
      simp only [List.cons_append, List.length_cons, List.length_append] at hf
      omega
    simp only [GetFuel, List.cons_append, if_true, span_close k.data rest hk]
    split_ifs with hr
    · subst hr
      rw [resolves_nil_eq h]
    · exact h f hlen

theorem ParseInt_digits : ∀ (s : List Char), s ≠ [] →
    (∀ c ∈ s, 48 ≤ c.toNat ∧ c.toNat ≤ 57) →
    ParseInt s = (parseDigits s 0).bind fun n =>
      if n < 2 ^ 63 then some (Int.ofNat n) else none
  | [], h, _ => absurd rfl h
  | c :: cs, _, hd => by
    have hc := hd c (List.mem_cons_self _ _)
    have h1 : c ≠ '+' := by
      intro e; subst e; revert hc; decide
    have h2 : c ≠ '-' := by
      intro e; subst e; revert hc; decide
    unfold ParseInt
    split
    · rename_i heq; cases heq
    · rename_i heq; cases heq; exact absurd rfl h1
    · rename_i heq; cases heq; exact absurd rfl h2
    · rfl

theorem ParseInt_Itoa (i : Nat) (h : i < 2 ^ 63) :
    ParseInt (Itoa (i : Int)).data = some (i : Int) := by
  obtain ⟨h1, h2, _, h4⟩ := Itoa_nat_decimal i
  rw [ParseInt_digits _ h1 h2, h4]
  simp only [Option.some_bind, if_pos h]
  rfl

theorem Itoa_no_close (i : Nat) : ']' ∉ (Itoa (i : Int)).data := by
  intro hmem
  have := (Itoa_nat_decimal i).2.1 _ hmem
  revert this
  decide

theorem resolves_array {xs : List Value} {i : Nat} {x : Value} {rest : List Char} {r : Value}
    (hlen : xs.length < 2 ^ 63) (hx : xs[i]? = some x) (h : Resolves x rest r) :
    Resolves (Value.array xs) ('[' :: (Itoa (i : Int)).data ++ ']' :: rest) r := by
  intro f hf
  cases f with
  | zero => simp at hf
  | succ f =>
    have hl : rest.length < f := by
      simp only [List.cons_append, List.length_cons, List.length_append] at hf
      omega
    have hi : i < xs.length := (List.getElem?_eq_some.1 hx).1
    have hget : xs.getD i Value.null = x := by
      simp [List.getD, hx]
    have hrange : (0 : Int) ≤ (i : Int) ∧ (i : Int) < (xs.length : Int) := by
      constructor
      · exact Int.ofNat_nonneg _
      · exact_mod_cast hi
    simp only [GetFuel, List.cons_append, if_true, span_close _ rest (Itoa_no_close i),
      ParseInt_Itoa i (by omega), hrange, and_self, Int.toNat_ofNat, hget]
    split_ifs with hr
    · subst hr
      rw [resolves_nil_eq h]
    · exact h f hl

theorem childPath_append (pfx k : String) (rel : List Char) :
    childPath pfx k ++ ⟨rel⟩ = pfx ++ ⟨'[' :: k.data ++ ']' :: rel⟩ := by
  apply String.ext
  simp [childPath, String.data_append]

theorem append_mk_nil (pfx : String) : pfx ++ ⟨[]⟩ = pfx := by
  apply String.ext
  simp [String.data_append]

theorem primitiveOp_form (ok : Bool) (old new : Value) (pfx : String) :
    ∃ kind, primitiveOp ok old new pfx = ⟨kind, pfx, old, new⟩ := by
  unfold primitiveOp
  split_ifs
  · exact ⟨_, rfl⟩
  · exact ⟨_, rfl⟩

/-- An operation of the walk is either one at the prefix itself, carrying the
two values whole, or it comes from the descent into two Arrays or two Objects
at a prefix that is not a stop path. -/
theorem walk_cases {old new : Value} {pfx : String} {paths : List String} {op : Operation}
    (hop : op ∈ walk old new pfx paths) :
    (∃ kind, op = ⟨kind, pfx, old, new⟩) ∨
      (pfx ∉ paths ∧ ((∃ xs ys, old = Value.array xs ∧ new = Value.array ys) ∨
        (∃ mo mn, old = Value.object mo ∧ new = Value.object mn))) := by
  by_cases hs : pfx ∈ paths
  · left
    by_cases ho : old = Value.null
    · subst ho
      by_cases hn : new = Value.null
      · subst hn; simp [walk, Value.isNil] at hop
      · simp only [walk, Value.isNil, isNil_eq_false hn, Bool.true_and, Bool.not_false,
          Bool.false_eq_true, if_false, if_true, List.mem_singleton, Bool.and_false] at hop
        exact ⟨_, hop⟩
    · by_cases hn : new = Value.null
      · subst hn
        cases old <;>
          first
          | exact absurd rfl ho
          | (simp only [walk, Value.isNil, Bool.false_and, Bool.not_false,
              Bool.true_and, Bool.false_eq_true, if_false, if_true, List.mem_singleton,
              Bool.and_true] at hop
             exact ⟨_, hop⟩)
      · rw [walk_stop ho hn hs, List.mem_singleton] at hop
        exact ⟨_, hop⟩
  · have hc := contains_eq_false hs
    cases old <;> cases new <;>
      simp only [walk, Value.isNil, hc, Bool.true_and, Bool.false_and, Bool.and_false,
        Bool.and_true, Bool.not_false, Bool.not_true, Bool.false_eq_true, if_false, if_true,
        List.mem_singleton, List.not_mem_nil] at hop <;>
      first
      | exact absurd hop id
      | exact Or.inl ⟨_, hop⟩
      | (obtain ⟨kind, hk⟩ := primitiveOp_form _ _ _ _
         rw [hk] at hop
         exact Or.inl ⟨_, hop⟩)
      | exact Or.inr ⟨hs, Or.inl ⟨_, _, rfl, rfl⟩⟩
      | exact Or.inr ⟨hs, Or.inr ⟨_, _, rfl, rfl⟩⟩

theorem allKeys_of_mem_list {x : Value} : ∀ {xs : List Value}, x ∈ xs →
    ∀ k ∈ x.allKeys, k ∈ Value.allKeysList xs
  | [], h, _, _ => by cases h
  | y :: ys, h, k, hk => by
    simp only [Value.allKeysList, List.mem_append]
    rcases List.mem_cons.1 h with rfl | h
    · exact Or.inl hk
    · exact Or.inr (allKeys_of_mem_list h k hk)

theorem allKeys_of_mem_entries {kv : String × Value} :
    ∀ {kvs : List (String × Value)}, kv ∈ kvs →
      kv.1 ∈ Value.allKeysEntries kvs ∧ ∀ k ∈ kv.2.allKeys, k ∈ Value.allKeysEntries kvs
  | [], h => by cases h
  | (k', v') :: rest, h => by
    simp only [Value.allKeysEntries, List.mem_cons, List.mem_append]
    rcases List.mem_cons.1 h with rfl | h
    · exact ⟨Or.inl rfl, fun k hk => Or.inr (Or.inl hk)⟩
    · have ih := allKeys_of_mem_entries h
      exact ⟨Or.inr (Or.inr ih.1), fun k hk => Or.inr (Or.inr (ih.2 k hk))⟩

theorem mapIndex_cases (m : List (String × Value)) (k : String) :
    mapIndex m k = Value.null ∨ (k, mapIndex m k) ∈ m := by
  cases h : mapLookup m k with
  | none => left; simp [mapIndex, h]
  | some v => right; simpa [mapIndex, h] using mapLookup_mem h

theorem WF_mapIndex {m : List (String × Value)} (h : Value.WFEntries m) (k : String) :
    (mapIndex m k).WF := by
  rcases mapIndex_cases m k with h0 | h1
  · rw [h0]; simp [Value.WF]
  · exact WFEntries_iff.1 h _ h1

theorem allKeys_mapIndex {m : List (String × Value)} (k : String) :
    ∀ k' ∈ (mapIndex m k).allKeys, k' ∈ Value.allKeysEntries m := by
  rcases mapIndex_cases m k with h0 | h1
  · rw [h0]; simp [Value.allKeys]
  · exact (allKeys_of_mem_entries h1).2

theorem pathOK_terminal (kind : OpType) (old new : Value) (pfx : String) :
    PathOK old new pfx ⟨kind, pfx, old, new⟩ :=
  ⟨[], (append_mk_nil pfx).symm, fun _ => resolves_nil old, fun _ => resolves_nil new⟩

theorem pathOK_object {mo mn : List (String × Value)} {k : String} {pfx : String}
    {op : Operation} (hk : ']' ∉ k.data)
    (h : PathOK (mapIndex mo k) (mapIndex mn k) (childPath pfx k) op) :
    PathOK (Value.object mo) (Value.object mn) pfx op := by
  obtain ⟨rel, hp, h1, h2⟩ := h
  refine ⟨'[' :: k.data ++ ']' :: rel, ?_, ?_, ?_⟩
  · rw [hp, childPath_append]
  · intro hc; exact resolves_object hk (h1 hc)
  · intro hc; exact resolves_object hk (h2 hc)

theorem pathOK_array {xs ys : List Value} {i : Nat} {a b : Value} {pfx : String}
    {op : Operation} (hx : xs.length < 2 ^ 63) (hy : ys.length < 2 ^ 63)
    (ha : xs[i]? = some a) (hb : ys[i]? = some b)
    (h : PathOK a b (childPath pfx (Itoa (i : Int))) op) :
    PathOK (Value.array xs) (Value.array ys) pfx op := by
  obtain ⟨rel, hp, h1, h2⟩ := h
  refine ⟨'[' :: (Itoa (i : Int)).data ++ ']' :: rel, ?_, ?_, ?_⟩
  · rw [hp, childPath_append]
  · intro hc; exact resolves_array hx ha (h1 hc)
  · intro hc; exact resolves_array hy hb (h2 hc)

/-- Every operation of the walk has a path that resolves, when no key holds a
closing bracket. -/
theorem walk_pathOK (paths : List String) : ∀ (old new : Value) (pfx : String),
    old.WF → new.WF → (∀ k ∈ old.allKeys, ']' ∉ k.data) → (∀ k ∈ new.allKeys, ']' ∉ k.data) →
    ∀ op ∈ walk old new pfx paths, PathOK old new pfx op := by
  intro old
  induction old using Value.induct with
  | harr xs ih =>
    intro new pfx hwo hwn hko hkn op hop
    rcases walk_cases hop with ⟨kind, rfl⟩ | ⟨hs, ⟨xs', ys, hx, rfl⟩ | ⟨mo, mn, hx, _⟩⟩
    · exact pathOK_terminal _ _ _ _
    · cases hx
      simp only [Value.WF] at hwo hwn
      simp only [Value.allKeys] at hko hkn
      rw [walk_array_array _ _ _ _ hs] at hop
      simp only [List.mem_append, List.mem_flatMap, List.mem_map] at hop
      rcases hop with (⟨p, hp1, hp2⟩ | ⟨p, hp1, rfl⟩) | ⟨p, hp1, rfl⟩
      · obtain ⟨i, a, b⟩ := p
        have hz := (List.mk_mem_enumFrom_iff_le_and_getElem?_sub.1 hp1).2
        simp only [Nat.sub_zero] at hz
        obtain ⟨ha, hb⟩ := List.getElem?_zip_eq_some.1 hz
        have hax : a ∈ xs := List.mem_iff_getElem?.2 ⟨i, ha⟩
        have hby : b ∈ ys := List.mem_iff_getElem?.2 ⟨i, hb⟩
        exact pathOK_array hwo.1 hwn.1 ha hb
          (ih a hax b _ (WFList_iff.1 hwo.2 a hax) (WFList_iff.1 hwn.2 b hby)
            (fun k hk => hko k (allKeys_of_mem_list hax k hk))
            (fun k hk => hkn k (allKeys_of_mem_list hby k hk)) op hp2)
      · obtain ⟨i, x⟩ := p
        obtain ⟨hle, hz⟩ := List.mk_mem_enumFrom_iff_le_and_getElem?_sub.1 hp1
        rw [List.getElem?_drop] at hz
        have hi : ys.length + (i - ys.length) = i := by omega
        rw [hi] at hz
        refine ⟨'[' :: (Itoa (i : Int)).data ++ [']'], ?_, ?_, ?_⟩
        · show childPath pfx (Itoa (i : Int)) = _
          rw [← append_mk_nil (childPath pfx (Itoa (i : Int))), childPath_append]
        · intro _; exact resolves_array hwo.1 hz (resolves_nil x)
        · intro hc; exact absurd rfl hc
      · obtain ⟨i, x⟩ := p
        obtain ⟨hle, hz⟩ := List.mk_mem_enumFrom_iff_le_and_getElem?_sub.1 hp1
        rw [List.getElem?_drop] at hz
        have hi : xs.length + (i - xs.length) = i := by omega
        rw [hi] at hz
        refine ⟨'[' :: (Itoa (i : Int)).data ++ [']'], ?_, ?_, ?_⟩
        · show childPath pfx (Itoa (i : Int)) = _
          rw [← append_mk_nil (childPath pfx (Itoa (i : Int))), childPath_append]
        · intro hc; exact absurd rfl hc
        · intro _; exact resolves_array hwn.1 hz (resolves_nil x)
    · cases hx
  | hobj kvs ih =>
    intro new pfx hwo hwn hko hkn op hop
    rcases walk_cases hop with ⟨kind, rfl⟩ | ⟨hs, ⟨xs', ys, hx, _⟩ | ⟨mo, mn, hx, rfl⟩⟩
    · exact pathOK_terminal _ _ _ _
    · cases hx
    · cases hx
      simp only [Value.WF] at hwo hwn
      simp only [Value.allKeys] at hko hkn
      rw [walk_object_object _ _ _ _ hs hwo.1 hwn.1] at hop
      simp only [List.mem_append, List.mem_flatMap, List.mem_map, List.mem_filter,
        decide_eq_true_eq] at hop
      rcases hop with (⟨kv, ⟨hkv, _⟩, hop⟩ | ⟨kv, ⟨hkv, _⟩, rfl⟩) | ⟨kv, ⟨hkv, _⟩, rfl⟩
      · have hk := hko kv.1 (allKeys_of_mem_entries hkv).1
        have := ih kv hkv (mapIndex mn kv.1) (childPath pfx kv.1)
          (WFEntries_iff.1 hwo.2 kv hkv) (WF_mapIndex hwn.2 kv.1)
          (fun k hk' => hko k ((allKeys_of_mem_entries hkv).2 k hk'))
          (fun k hk' => hkn k (allKeys_mapIndex kv.1 k hk')) op hop
        rw [← mapIndex_of_mem hwo.1 hkv] at this
        exact pathOK_object hk this
      · have hk := hko kv.1 (allKeys_of_mem_entries hkv).1
        refine ⟨'[' :: kv.1.data ++ [']'], ?_, ?_, ?_⟩
        · show childPath pfx kv.1 = _
          rw [← append_mk_nil (childPath pfx kv.1), childPath_append]
        · intro _
          refine resolves_object hk ?_
          rw [mapIndex_of_mem hwo.1 hkv]
          exact resolves_nil _
        · intro hc; exact absurd rfl hc
      · have hk := hkn kv.1 (allKeys_of_mem_entries hkv).1
        refine ⟨'[' :: kv.1.data ++ [']'], ?_, ?_, ?_⟩
        · show childPath pfx kv.1 = _
          rw [← append_mk_nil (childPath pfx kv.1), childPath_append]
        · intro hc; exact absurd rfl hc
        · intro _
          refine resolves_object hk ?_
          rw [mapIndex_of_mem hwn.1 hkv]
          exact resolves_nil _
  | _ =>
    intro new pfx hwo hwn hko hkn op hop
    rcases walk_cases hop with ⟨kind, rfl⟩ | ⟨hs, ⟨xs', ys, hx, _⟩ | ⟨mo, mn, hx, _⟩⟩
    · exact pathOK_terminal _ _ _ _
    · cases hx
    · cases hx

/-! ## A key mapped to null -/

theorem perm_insert_middle {α : Type} (S A B C D E : List α) (c : α) :
    (S ++ (c :: (A ++ (B ++ (C ++ (D ++ E)))))).Perm
      (S ++ (A ++ (B ++ (C ++ (D ++ c :: E))))) := by
  apply List.Perm.append_left
  have h : A ++ (B ++ (C ++ (D ++ c :: E))) = (A ++ (B ++ (C ++ D))) ++ c :: E := by simp
  rw [h]
  refine (List.Perm.cons c ?_).trans List.perm_middle.symm
  simp

theorem mapKeys_append (a b : List (String × Value)) :
    mapKeys (a ++ b) = mapKeys a ++ mapKeys b := by
  simp [mapKeys]

theorem filter_notin_insert {w : List (String × Value)} {k : String}
    (m1 m2 : List (String × Value)) (hk : k ∉ mapKeys w) :
    (w.filter fun kv => decide (kv.1 ∉ mapKeys (m1 ++ (k, Value.null) :: m2))) =
      w.filter fun kv => decide (kv.1 ∉ mapKeys (m1 ++ m2)) := by
  apply List.filter_congr
  intro kv hkv
  have hne : kv.1 ≠ k := fun e => hk (e ▸ mem_mapKeys_of_mem hkv)
  simp [mapKeys, hne]

theorem walk_null_present {v : Value} (hv : v ≠ Value.null) (pfx : String)
    (paths : List String) :
    walk Value.null v pfx paths = [⟨OpType.CREATE, pfx, Value.null, v⟩] := by
  simp [walk, Value.isNil, isNil_eq_false hv]

theorem IsEqual_length_ne {a b : List (String × Value)} (h : a.length ≠ b.length) :
    IsEqual (Value.object a) (Value.object b) = false := by
  simp [IsEqual, Value.isNil, h]

/-! ## The diff planner: properties of the specification -/

/-- C1. Absence laws of `CreateOpQueue`, for every stop-path set: with both
values absent the plan is the empty queue; with only the old one absent it is
the single CREATE at the empty path carrying the new value; with only the new
one absent it is the single DELETE at the empty path carrying the old value;
also when the empty path is a stop path. -/
theorem absence_laws (paths : List String) (X : Value) (hX : X ≠ Value.null) :
    CreateOpQueue Value.null Value.null paths = some NewOpQueue ∧
    planOps Value.null Value.null paths = some [] ∧
    planOps Value.null X paths = some [⟨OpType.CREATE, "", Value.null, X⟩] ∧
    planOps X Value.null paths = some [⟨OpType.DELETE, "", X, Value.null⟩] ∧
    planOps Value.null X ("" :: paths) = some [⟨OpType.CREATE, "", Value.null, X⟩] ∧
    planOps X Value.null ("" :: paths) = some [⟨OpType.DELETE, "", X, Value.null⟩] := by
  have hn := isNil_eq_false hX
  have e1 : ∀ ps, walk Value.null X "" ps = [⟨OpType.CREATE, "", Value.null, X⟩] := by
    intro ps; simp [walk, Value.isNil, hn]
  have e2 : ∀ ps, walk X Value.null "" ps = [⟨OpType.DELETE, "", X, Value.null⟩] := by
    intro ps
    cases X <;> first | exact absurd rfl hX | simp [walk, Value.isNil]
  refine ⟨?_, ?_, ?_, ?_, ?_, ?_⟩
  · simp [CreateOpQueue, genOperationRecursive, Value.isNil]
  · rw [planOps_eq_walk]; simp [walk, Value.isNil]
  · rw [planOps_eq_walk, e1]
  · rw [planOps_eq_walk, e2]
  · rw [planOps_eq_walk, e1]
  · rw [planOps_eq_walk, e2]

theorem absence_laws_witness :
    Value.boolean true ≠ Value.null ∧
    (CreateOpQueue Value.null Value.null ["[a]"] = some NewOpQueue ∧
    planOps Value.null Value.null ["[a]"] = some [] ∧
    planOps Value.null (Value.boolean true) ["[a]"] =
      some [⟨OpType.CREATE, "", Value.null, Value.boolean true⟩] ∧
    planOps (Value.boolean true) Value.null ["[a]"] =
      some [⟨OpType.DELETE, "", Value.boolean true, Value.null⟩] ∧
    planOps Value.null (Value.boolean true) ["", "[a]"] =
      some [⟨OpType.CREATE, "", Value.null, Value.boolean true⟩] ∧
    planOps (Value.boolean true) Value.null ["", "[a]"] =
      some [⟨OpType.DELETE, "", Value.boolean true, Value.null⟩]) :=
  ⟨by simp, absence_laws ["[a]"] (Value.boolean true) (by simp)⟩

/-- C2. Stop-path opacity: when the walk reaches a prefix that is a stop path
with both values present, on whatever queue the earlier part of the walk has
built, it enqueues exactly one operation at that prefix carrying the whole old
and new values, READ when `IsEqual` holds and UPDATE otherwise, and nothing
for the positions beneath.  In particular, when the empty path is a stop path
the plan of two present values is a queue of length 1 whose operation has the
empty path. -/
theorem stop_path_opacity (old new : Value) (pfx : String) (paths : List String)
    (hold : old ≠ Value.null) (hnew : new ≠ Value.null) (hstop : pfx ∈ paths) :
    (∀ (l : List Operation) (q : OpQueue), enqueueAll NewOpQueue l = some q →
      ∃ q', genOperationRecursive old new q pfx paths = some q' ∧
        q'.contents = some (l ++
          [⟨if IsEqual old new then OpType.READ else OpType.UPDATE, pfx, old, new⟩])) ∧
    ("" ∈ paths → ∃ q, CreateOpQueue old new paths = some q ∧ q.Len = 1 ∧
      q.contents = some
        [⟨if IsEqual old new then OpType.READ else OpType.UPDATE, "", old, new⟩]) := by
  constructor
  · intro l q hq
    obtain ⟨q', h1, h2⟩ := genOperationRecursive_spec paths old new q pfx l (enqueueAll_holds hq)
    refine ⟨q', h1, ?_⟩
    rw [holds_contents h2, walk_stop hold hnew hstop]
  · intro h0
    obtain ⟨q', h1, h2⟩ := genOperationRecursive_spec paths old new NewOpQueue "" []
      holds_new
    refine ⟨q', h1, ?_, ?_⟩
    · rw [OpQueue.Len, h2.1, walk_stop hold hnew h0]; simp
    · rw [holds_contents h2, walk_stop hold hnew h0]; simp

theorem stop_path_opacity_witness :
    Value.object [("there", Value.string "g1")] ≠ Value.null ∧
    Value.object [("there", Value.string "g2")] ≠ Value.null ∧
    "" ∈ ["", "[hello]"] ∧
    ∃ q, CreateOpQueue (Value.object [("there", Value.string "g1")])
        (Value.object [("there", Value.string "g2")]) ["", "[hello]"] = some q ∧ q.Len = 1 ∧
      q.contents = some
        [⟨if IsEqual (Value.object [("there", Value.string "g1")])
              (Value.object [("there", Value.string "g2")]) then OpType.READ else OpType.UPDATE,
          "", Value.object [("there", Value.string "g1")],
          Value.object [("there", Value.string "g2")]⟩] :=
  ⟨by simp, by simp, by simp,
    (stop_path_opacity (Value.object [("there", Value.string "g1")])
      (Value.object [("there", Value.string "g2")]) "" ["", "[hello]"]
      (by simp) (by simp) (by simp)).2 (by simp)⟩

/-- C5, as stated, fails for Floats, whose payloads the code compares with the
float64 `==`.  A NaN planned against the same NaN, the same scalar variant
with the same payload, yields one UPDATE; `+0` planned against `-0`, the same
scalar variant with different payloads, yields one READ. -/
theorem scalar_and_mismatch_counterexample :
    planOps (Value.float 9221120237041090560) (Value.float 9221120237041090560) [] =
      some [⟨OpType.UPDATE, "", Value.float 9221120237041090560,
        Value.float 9221120237041090560⟩] ∧
    planOps (Value.float 0) (Value.float 9223372036854775808) [] =
      some [⟨OpType.READ, "", Value.float 0, Value.float 9223372036854775808⟩] ∧
    Value.float 0 ≠ Value.float 9223372036854775808 := by
  have hnan : f64Eq 9221120237041090560 9221120237041090560 = false := by decide
  have hzero : f64Eq 0 9223372036854775808 = true := by decide
  refine ⟨?_, ?_, fun h => absurd (Value.float.inj h) (by decide)⟩
  · rw [planOps_eq_walk]
    simp [walk, Value.isNil, contains, primitiveOp, IsEqual, Value.isFloat, hnan]
  · rw [planOps_eq_walk]
    simp [walk, Value.isNil, contains, primitiveOp, IsEqual, Value.isFloat, hzero]

/-- C5, amended. Scalar comparison and type-mismatch replacement: for present
values `old` and `new`, `old` of a recognised variant, such that `old` is a
scalar or the two are of different variants, the plan is exactly one
operation, at the empty path, carrying the whole old and new values: READ when
they are the same scalar variant with equal payload, two Float payloads being
equal when the float64 comparison `==` holds of them (a NaN equals no Float,
`+0` equals `-0`), UPDATE otherwise; this for every stop-path set. -/
theorem scalar_and_mismatch (old new : Value) (paths : List String)
    (hold : old ≠ Value.null) (hnew : new ≠ Value.null) (hrec : old.variant ≠ 7)
    (h : old.isScalar = true ∨ old.variant ≠ new.variant) :
    planOps old new paths =
      some [⟨if sameScalar old new then OpType.READ else OpType.UPDATE, "", old, new⟩] := by
  rw [planOps_eq_walk]
  have hEq : IsEqual old new = sameScalar old new := by
    cases old <;> cases new <;>
      simp [IsEqual, sameScalar, Value.isNil, Value.variant, Value.isScalar] at *
  by_cases hs : "" ∈ paths
  · rw [walk_stop hold hnew hs, hEq]
  · have hc : contains paths "" = false := by
      rw [← Bool.not_eq_true, contains_iff]; exact hs
    cases old <;> cases new <;>
      simp [walk, primitiveOp, hc, Value.isNil, Value.variant, Value.isScalar, IsEqual,
        sameScalar, Value.isBoolean, Value.isFloat, Value.isInteger, Value.isString] at * <;>
      split_ifs <;> simp_all

theorem scalar_and_mismatch_witness :
    (Value.float 4607182418800017408 ≠ Value.null ∧
      (Value.float 4607182418800017408).variant ≠ 7 ∧
      ((Value.float 4607182418800017408).isScalar = true ∨
        (Value.float 4607182418800017408).variant ≠ (Value.float 4607182418800017408).variant) ∧
      planOps (Value.float 4607182418800017408) (Value.float 4607182418800017408) [] =
        some [⟨OpType.READ, "", Value.float 4607182418800017408,
          Value.float 4607182418800017408⟩]) ∧
    (Value.integer 1 ≠ Value.null ∧ Value.integer 2 ≠ Value.null ∧
      (Value.integer 1).variant ≠ 7 ∧
      ((Value.integer 1).isScalar = true ∨
        (Value.integer 1).variant ≠ (Value.integer 2).variant) ∧
      planOps (Value.integer 1) (Value.integer 2) [] =
        some [⟨OpType.UPDATE, "", Value.integer 1, Value.integer 2⟩]) ∧
    (Value.array [Value.integer 1] ≠ Value.null ∧ Value.string "hello" ≠ Value.null ∧
      (Value.array [Value.integer 1]).variant ≠ 7 ∧
      ((Value.array [Value.integer 1]).isScalar = true ∨
        (Value.array [Value.integer 1]).variant ≠ (Value.string "hello").variant) ∧
      planOps (Value.array [Value.integer 1]) (Value.string "hello") [] =
        some [⟨OpType.UPDATE, "", Value.array [Value.integer 1], Value.string "hello"⟩]) :=
  ⟨⟨by simp, by decide, Or.inl rfl,
      scalar_and_mismatch (Value.float 4607182418800017408) (Value.float 4607182418800017408) []
        (by simp) (by simp) (by decide) (Or.inl rfl)⟩,
    ⟨by simp, by simp, by decide, Or.inl rfl,
      scalar_and_mismatch (Value.integer 1) (Value.integer 2) []
        (by simp) (by simp) (by decide) (Or.inl rfl)⟩,
    ⟨by simp, by simp, by decide, Or.inr (by decide),
      scalar_and_mismatch (Value.array [Value.integer 1]) (Value.string "hello") []
        (by simp) (by simp) (by decide) (Or.inr (by decide))⟩⟩

/-- C7. Well-formedness of every emitted operation: for all old and new values
and stop paths the plan is produced, and each of its operations is well
formed: a CREATE has no old value, a DELETE has no new value, a READ has both
values and `IsEqual` holds of them, an UPDATE has both values and `IsEqual`
fails of them. -/
theorem emitted_operations_wellFormed (old new : Value) (paths : List String) :
    ∃ L, planOps old new paths = some L ∧ ∀ op ∈ L, op.WellFormed :=
  ⟨walk old new "" paths, planOps_eq_walk old new paths, walk_wellFormed paths old new ""⟩

/-- C10. Totality of the diff: for every pair of value trees, absent ones
included, and every stop-path set, `CreateOpQueue` returns a queue without a
panic and the queue can be read; the walk returns a queue from every prefix
and on every queue that was built by `Enqueue`; and the depth of its recursion
is at most the depth of the old tree and at most the depth of the new tree. -/
theorem plan_total (old new : Value) (paths : List String) :
    (∃ q L, CreateOpQueue old new paths = some q ∧ q.contents = some L) ∧
    (∀ (l : List Operation) (q : OpQueue) (pfx : String), enqueueAll NewOpQueue l = some q →
      ∃ q', genOperationRecursive old new q pfx paths = some q') ∧
    callDepth old new "" paths ≤ old.depth ∧ callDepth old new "" paths ≤ new.depth := by
  refine ⟨?_, ?_, (callDepth_le paths old new "").1, (callDepth_le paths old new "").2⟩
  · obtain ⟨q, hq, hh⟩ := genOperationRecursive_spec paths old new NewOpQueue "" [] holds_new
    exact ⟨q, _, hq, holds_contents hh⟩
  · intro l q pfx hq
    obtain ⟨q', h1, _⟩ := genOperationRecursive_spec paths old new q pfx l (enqueueAll_holds hq)
    exact ⟨q', h1⟩

/-- C4. Array length handling: for Arrays `oldArr` and `newArr`, the empty path
not being a stop path, the plan is, in this order: for each index shared by
the two, in increasing order, the operations that the recursive diff of the two
elements at that index puts out at prefix `[i]`; then one DELETE at `[i]`
carrying the old element for each surplus index of the old array, then one
CREATE at `[i]` carrying the new element for each surplus index of the new
array, each in increasing index order.  The index in the path is the canonical
decimal numeral of `i`: digits only, no sign, no leading zero. -/
theorem array_length_handling (oldArr newArr : List Value) (paths : List String)
    (h : "" ∉ paths) :
    ∃ rec : Nat → Value → Value → List Operation,
      (∀ (i : Nat) (a b : Value), emitted a b (childPath "" (Itoa (i : Int))) paths = some (rec i a b)) ∧
      planOps (Value.array oldArr) (Value.array newArr) paths = some (
        ((oldArr.zip newArr).enum.flatMap fun p => rec p.1 p.2.1 p.2.2) ++
        (((oldArr.drop newArr.length).enumFrom newArr.length).map fun p =>
          ⟨OpType.DELETE, childPath "" (Itoa (p.1 : Int)), p.2, Value.null⟩) ++
        (((newArr.drop oldArr.length).enumFrom oldArr.length).map fun p =>
          ⟨OpType.CREATE, childPath "" (Itoa (p.1 : Int)), Value.null, p.2⟩)) ∧
      ∀ i : Nat, childPath "" (Itoa (i : Int)) = "[" ++ Itoa (i : Int) ++ "]" ∧
        (Itoa (i : Int)).data ≠ [] ∧
        (∀ c ∈ (Itoa (i : Int)).data, 48 ≤ c.toNat ∧ c.toNat ≤ 57) ∧
        ((Itoa (i : Int)).data.head? = some '0' → Itoa (i : Int) = "0") ∧
        parseDigits (Itoa (i : Int)).data 0 = some i := by
  refine ⟨fun i a b => walk a b (childPath "" (Itoa (i : Int))) paths, ?_, ?_, ?_⟩
  · intro i a b
    exact emitted_eq_walk _ _ _ _
  · rw [planOps_eq_walk, walk_array_array _ _ _ _ h]
    rfl
  · intro i
    refine ⟨?_, Itoa_nat_decimal i⟩
    simp [childPath]

theorem array_length_handling_witness :
    "" ∉ ["[9]"] ∧
    ∃ rec : Nat → Value → Value → List Operation,
      (∀ (i : Nat) (a b : Value), emitted a b (childPath "" (Itoa (i : Int))) ["[9]"] = some (rec i a b)) ∧
      planOps (Value.array [Value.integer 1, Value.integer 2])
          (Value.array [Value.integer 1, Value.integer 2, Value.integer 3]) ["[9]"] = some (
        (([Value.integer 1, Value.integer 2].zip
            [Value.integer 1, Value.integer 2, Value.integer 3]).enum.flatMap
          fun p => rec p.1 p.2.1 p.2.2) ++
        ((([Value.integer 1, Value.integer 2].drop
            [Value.integer 1, Value.integer 2, Value.integer 3].length).enumFrom
            [Value.integer 1, Value.integer 2, Value.integer 3].length).map fun p =>
          ⟨OpType.DELETE, childPath "" (Itoa (p.1 : Int)), p.2, Value.null⟩) ++
        ((([Value.integer 1, Value.integer 2, Value.integer 3].drop
            [Value.integer 1, Value.integer 2].length).enumFrom
            [Value.integer 1, Value.integer 2].length).map fun p =>
          ⟨OpType.CREATE, childPath "" (Itoa (p.1 : Int)), Value.null, p.2⟩)) ∧
      ∀ i : Nat, childPath "" (Itoa (i : Int)) = "[" ++ Itoa (i : Int) ++ "]" ∧
        (Itoa (i : Int)).data ≠ [] ∧
        (∀ c ∈ (Itoa (i : Int)).data, 48 ≤ c.toNat ∧ c.toNat ≤ 57) ∧
        ((Itoa (i : Int)).data.head? = some '0' → Itoa (i : Int) = "0") ∧
        parseDigits (Itoa (i : Int)).data 0 = some i :=
  ⟨by decide, array_length_handling [Value.integer 1, Value.integer 2]
    [Value.integer 1, Value.integer 2, Value.integer 3] ["[9]"] (by decide)⟩

/-- C3. Object key partition: for Objects `oldObj` and `newObj` (maps: their
keys are distinct), the empty path not being a stop path, the operations of the
plan are, as a multiset: for every key in both, the operations that the
recursive diff of the two values at that key puts out at prefix `[k]`; one
DELETE at `[k]` carrying the old value, with no new value, for every key only
in the old Object; one CREATE at `[k]` carrying the new value, with no old
value, for every key only in the new Object.  An unshared key yields that one
operation only. -/
theorem object_key_partition (oldObj newObj : List (String × Value)) (paths : List String)
    (h : "" ∉ paths) (ho : (mapKeys oldObj).Nodup) (hn : (mapKeys newObj).Nodup) :
    ∃ rec : String → Value → Value → List Operation,
      (∀ (k : String) (a b : Value), emitted a b (childPath "" k) paths = some (rec k a b)) ∧
      ∃ L, planOps (Value.object oldObj) (Value.object newObj) paths = some L ∧
        L.Perm (
          ((oldObj.filter fun kv => decide (kv.1 ∈ mapKeys newObj)).flatMap fun kv =>
            rec kv.1 kv.2 (mapIndex newObj kv.1)) ++
          ((oldObj.filter fun kv => decide (kv.1 ∉ mapKeys newObj)).map fun kv =>
            ⟨OpType.DELETE, childPath "" kv.1, kv.2, Value.null⟩) ++
          ((newObj.filter fun kv => decide (kv.1 ∉ mapKeys oldObj)).map fun kv =>
            ⟨OpType.CREATE, childPath "" kv.1, Value.null, kv.2⟩)) := by
  refine ⟨fun k a b => walk a b (childPath "" k) paths, ?_, _, planOps_eq_walk _ _ _, ?_⟩
  · intro k a b
    exact emitted_eq_walk _ _ _ _
  · rw [walk_object_object _ _ _ _ h ho hn]

theorem object_key_partition_witness :
    "" ∉ ["[z]"] ∧
    (mapKeys [("a", Value.integer 1), ("b", Value.integer 2)]).Nodup ∧
    (mapKeys [("a", Value.integer 1)]).Nodup ∧
    ∃ rec : String → Value → Value → List Operation,
      (∀ (k : String) (a b : Value),
        emitted a b (childPath "" k) ["[z]"] = some (rec k a b)) ∧
      ∃ L, planOps (Value.object [("a", Value.integer 1), ("b", Value.integer 2)])
          (Value.object [("a", Value.integer 1)]) ["[z]"] = some L ∧
        L.Perm (
          (([("a", Value.integer 1), ("b", Value.integer 2)].filter fun kv =>
              decide (kv.1 ∈ mapKeys [("a", Value.integer 1)])).flatMap fun kv =>
            rec kv.1 kv.2 (mapIndex [("a", Value.integer 1)] kv.1)) ++
          (([("a", Value.integer 1), ("b", Value.integer 2)].filter fun kv =>
              decide (kv.1 ∉ mapKeys [("a", Value.integer 1)])).map fun kv =>
            ⟨OpType.DELETE, childPath "" kv.1, kv.2, Value.null⟩) ++
          (([("a", Value.integer 1)].filter fun kv =>
              decide (kv.1 ∉ mapKeys [("a", Value.integer 1), ("b", Value.integer 2)])).map
            fun kv => ⟨OpType.CREATE, childPath "" kv.1, Value.null, kv.2⟩)) :=
  ⟨by decide, by decide, by decide,
    object_key_partition [("a", Value.integer 1), ("b", Value.integer 2)]
      [("a", Value.integer 1)] ["[z]"] (by decide) (by decide) (by decide)⟩

/-- C6, as stated, fails: the plan of a Float NaN against itself is one
UPDATE, because the float64 comparison finds a NaN unequal to itself; and with
the empty path as a stop path the plan of a value of an unrecognised dynamic
type against itself is one UPDATE, because `IsEqual` is false on such a
value. -/
theorem reflexivity_counterexample :
    (∃ L, planOps (Value.float 9221120237041090560) (Value.float 9221120237041090560) [] =
        some L ∧ ¬ ∀ op ∈ L, op.Op = OpType.READ) ∧
    (∃ L, planOps (Value.other 0) (Value.other 0) [""] = some L ∧
        ¬ ∀ op ∈ L, op.Op = OpType.READ) := by
  constructor
  · refine ⟨_, planOps_eq_walk _ _ _, ?_⟩
    have hnan : f64Eq 9221120237041090560 9221120237041090560 = false := by decide
    simp [walk, Value.isNil, contains, primitiveOp, IsEqual, Value.isFloat, hnan]
  · refine ⟨_, planOps_eq_walk _ _ _, ?_⟩
    simp [walk, Value.isNil, contains, IsEqual]

/-- C6, amended. Reflexivity of the diff for a value built from the seven
variants in which no Float is a NaN: for every stop-path set the plan of the
value against itself is produced and contains READ operations only; with no
stop paths it is exactly one READ for each scalar position of the value, at
the bracketed address of that position, with that scalar as old and as new
value. -/
theorem reflexivity_of_plain (X : Value) (hw : X.WF) (hp : X.plain = true) :
    (∀ paths : List String, ∃ L, planOps X X paths = some L ∧
      ∀ op ∈ L, op.Op = OpType.READ) ∧
    ∃ L, planOps X X [] = some L ∧
      L.Perm ((scalarPositions X "").map fun s => ⟨OpType.READ, s.1, s.2, s.2⟩) := by
  constructor
  · intro paths
    exact ⟨_, planOps_eq_walk _ _ _, walk_self_read paths X hw hp ""⟩
  · refine ⟨_, planOps_eq_walk _ _ _, ?_⟩
    rw [walk_self_scalars X hw hp ""]

theorem reflexivity_of_plain_witness :
    (Value.object [("a", Value.array [Value.integer 1, Value.null]),
      ("b", Value.string "x")]).WF ∧
    (Value.object [("a", Value.array [Value.integer 1, Value.null]),
      ("b", Value.string "x")]).plain = true ∧
    ((∀ paths : List String, ∃ L,
        planOps (Value.object [("a", Value.array [Value.integer 1, Value.null]),
            ("b", Value.string "x")])
          (Value.object [("a", Value.array [Value.integer 1, Value.null]),
            ("b", Value.string "x")]) paths = some L ∧
        ∀ op ∈ L, op.Op = OpType.READ) ∧
      ∃ L, planOps (Value.object [("a", Value.array [Value.integer 1, Value.null]),
            ("b", Value.string "x")])
          (Value.object [("a", Value.array [Value.integer 1, Value.null]),
            ("b", Value.string "x")]) [] = some L ∧
        L.Perm ((scalarPositions (Value.object [("a", Value.array [Value.integer 1, Value.null]),
            ("b", Value.string "x")]) "").map fun s => ⟨OpType.READ, s.1, s.2, s.2⟩)) :=
  ⟨by simp [Value.WF, Value.WFList, Value.WFEntries, mapKeys], by decide,
    reflexivity_of_plain _ (by simp [Value.WF, Value.WFList, Value.WFEntries, mapKeys])
      (by decide)⟩

/-- C8, as stated, fails: an Object key may hold a closing bracket.  The plan
of the Object with the one key `a]` against itself is a READ whose path is
`[a]]`; `Get` takes the segment up to the first `]`, finds no key `a`, and
returns the error "Not an object: cannot index on a field" for the rest. -/
theorem paths_resolve_counterexample :
    ∃ L, planOps (Value.object [("a]", Value.integer 1)])
        (Value.object [("a]", Value.integer 1)]) [] = some L ∧
      ∃ op ∈ L, op.Op = OpType.READ ∧ op.Path = "[a]]" ∧
        Get (Value.object [("a]", Value.integer 1)]) op.Path =
          some (GetOutcome.err GetError.notObjectField) := by
  refine ⟨_, planOps_eq_walk _ _ _, ⟨OpType.READ, "[a]]", Value.integer 1, Value.integer 1⟩,
    ?_, rfl, rfl, ?_⟩
  · simp [walk, walkKeys, Value.isNil, contains, mapKeys, mapIndex, mapLookup, primitiveOp,
      IsEqual, Value.isInteger, restOldKeys, restNewKeys, keyDeleteOps, keyCreateOps, childPath]
  · rfl

/-- C8, amended. Paths emitted by the diff resolve back through `Get` when no
Object key of the two trees holds a closing bracket: for such value trees and
every stop-path set the plan is produced, and for each of its operations, if
it is a READ, UPDATE or DELETE then `Get` on the old tree and the path of the
operation returns its old value with no error, and if it is a READ, UPDATE or
CREATE then `Get` on the new tree and the path returns its new value with no
error. -/
theorem emitted_paths_resolve (old new : Value) (paths : List String)
    (hwo : old.WF) (hwn : new.WF) (hko : ∀ k ∈ old.allKeys, ']' ∉ k.data)
    (hkn : ∀ k ∈ new.allKeys, ']' ∉ k.data) :
    ∃ L, planOps old new paths = some L ∧ ∀ op ∈ L,
      (op.Op = OpType.READ ∨ op.Op = OpType.UPDATE ∨ op.Op = OpType.DELETE →
        Get old op.Path = some (GetOutcome.ok op.Old)) ∧
      (op.Op = OpType.READ ∨ op.Op = OpType.UPDATE ∨ op.Op = OpType.CREATE →
        Get new op.Path = some (GetOutcome.ok op.New)) := by
  refine ⟨_, planOps_eq_walk _ _ _, ?_⟩
  intro op hop
  obtain ⟨rel, hp, h1, h2⟩ := walk_pathOK paths old new "" hwo hwn hko hkn op hop
  have hpath : op.Path = ⟨rel⟩ := by
    rw [hp]; apply String.ext; simp [String.data_append]
  constructor
  · intro hk
    have hne : op.Op ≠ OpType.CREATE := by
      rcases hk with h | h | h <;> rw [h] <;> decide
    rw [hpath]
    exact h1 hne _ (Nat.lt_succ_self _)
  · intro hk
    have hne : op.Op ≠ OpType.DELETE := by
      rcases hk with h | h | h <;> rw [h] <;> decide
    rw [hpath]
    exact h2 hne _ (Nat.lt_succ_self _)

theorem emitted_paths_resolve_witness :
    (Value.object [("a", Value.array [Value.integer 1, Value.integer 2])]).WF ∧
    (Value.object [("a", Value.array [Value.integer 1]), ("b", Value.null)]).WF ∧
    (∀ k ∈ (Value.object [("a", Value.array [Value.integer 1, Value.integer 2])]).allKeys,
      ']' ∉ k.data) ∧
    (∀ k ∈ (Value.object [("a", Value.array [Value.integer 1]), ("b", Value.null)]).allKeys,
      ']' ∉ k.data) ∧
    ∃ L, planOps (Value.object [("a", Value.array [Value.integer 1, Value.integer 2])])
        (Value.object [("a", Value.array [Value.integer 1]), ("b", Value.null)]) [] = some L ∧
      ∀ op ∈ L,
        (op.Op = OpType.READ ∨ op.Op = OpType.UPDATE ∨ op.Op = OpType.DELETE →
          Get (Value.object [("a", Value.array [Value.integer 1, Value.integer 2])]) op.Path =
            some (GetOutcome.ok op.Old)) ∧
        (op.Op = OpType.READ ∨ op.Op = OpType.UPDATE ∨ op.Op = OpType.CREATE →
          Get (Value.object [("a", Value.array [Value.integer 1]), ("b", Value.null)]) op.Path =
            some (GetOutcome.ok op.New)) :=
  ⟨by simp [Value.WF, Value.WFList, Value.WFEntries, mapKeys],
    by simp [Value.WF, Value.WFList, Value.WFEntries, mapKeys],
    by decide, by decide,
    emitted_paths_resolve _ _ []
      (by simp [Value.WF, Value.WFList, Value.WFEntries, mapKeys])
      (by simp [Value.WF, Value.WFList, Value.WFEntries, mapKeys])
      (by decide) (by decide)⟩

/-- C9, as stated, fails: a key mapped to null is a key of the map.  Against
the empty Object, the Object with the one key `a` mapped to null yields a
DELETE at `[a]` while the empty Object yields no operation, and `IsEqual`
finds the two Objects unequal, their lengths being different. -/
theorem null_conflation_counterexample :
    ∃ L1 L2, planOps (Value.object [("a", Value.null)]) (Value.object []) [] = some L1 ∧
      planOps (Value.object []) (Value.object []) [] = some L2 ∧
      L1 = [⟨OpType.DELETE, "[a]", Value.null, Value.null⟩] ∧ L2 = [] ∧ ¬ L1.Perm L2 ∧
      IsEqual (Value.object [("a", Value.null)]) (Value.object []) = false := by
  refine ⟨_, _, planOps_eq_walk _ _ _, planOps_eq_walk _ _ _, ?_, ?_, ?_, ?_⟩
  · simp [walk, walkKeys, Value.isNil, contains, mapKeys, restOldKeys, restNewKeys,
      keyDeleteOps, keyCreateOps, childPath, mapIndex, mapLookup]
  · simp [walk, walkKeys, Value.isNil, contains, mapKeys, restOldKeys, restNewKeys,
      keyDeleteOps, keyCreateOps]
  · intro h
    have := h.length_eq
    simp [walk, walkKeys, Value.isNil, contains, mapKeys, restOldKeys, restNewKeys,
      keyDeleteOps, keyCreateOps] at this
  · exact IsEqual_length_ne (by simp)

/-- C9, amended. A key mapped to null in the old Object is treated as a missing
key when the new Object gives that key a present value: for every Object with
entries `m1 ++ m2`, every key `k` not in it, every Object `w` that maps `k` to
a value that is not null, and stop paths without the empty path, the plan from
the Object with `k` mapped to null (at any place in the iteration order) to `w`
has the same operations, as a multiset, as the plan from the Object without
`k` to `w`.  `IsEqual` finds the Object with `k` mapped to null and the Object
without `k` unequal. -/
theorem null_key_conflation (m1 m2 w : List (String × Value)) (k : String)
    (paths : List String) (hm : (mapKeys (m1 ++ m2)).Nodup) (hk : k ∉ mapKeys (m1 ++ m2))
    (hw : (mapKeys w).Nodup) (hwk : mapIndex w k ≠ Value.null) (hs : "" ∉ paths) :
    (∃ L1 L2, planOps (Value.object (m1 ++ (k, Value.null) :: m2)) (Value.object w) paths =
        some L1 ∧
      planOps (Value.object (m1 ++ m2)) (Value.object w) paths = some L2 ∧ L1.Perm L2) ∧
    IsEqual (Value.object (m1 ++ (k, Value.null) :: m2)) (Value.object (m1 ++ m2)) = false := by
  refine ⟨⟨_, _, planOps_eq_walk _ _ _, planOps_eq_walk _ _ _, ?_⟩,
    IsEqual_length_ne (by simp)⟩
  have hm' : (mapKeys (m1 ++ (k, Value.null) :: m2)).Nodup := by
    rw [mapKeys_append] at hm hk ⊢
    simp only [mapKeys, List.map_cons] at hm hk ⊢
    exact List.Nodup.append (List.nodup_append.1 hm).1
      (List.nodup_cons.2 ⟨fun h => hk (List.mem_append_right _ h), (List.nodup_append.1 hm).2.1⟩)
      (by
        intro a ha hb
        rcases List.mem_cons.1 hb with rfl | hb
        · exact hk (List.mem_append_left _ ha)
        · exact (List.nodup_append.1 hm).2.2 ha hb)
  have hkw : (k, mapIndex w k) ∈ w := by
    rcases mapIndex_cases w k with h | h
    · exact absurd h hwk
    · exact h
  obtain ⟨w1, w2, hw12⟩ := List.append_of_mem hkw
  have hkw1 : k ∉ mapKeys (w1 ++ w2) := by
    rw [hw12, mapKeys_append] at hw
    simp only [mapKeys, List.map_cons] at hw
    rw [mapKeys_append]
    intro hmem
    rcases List.mem_append.1 hmem with h | h
    · exact (List.nodup_append.1 hw).2.2 h (List.mem_cons_self _ _) 
    · exact (List.nodup_cons.1 (List.nodup_append.1 hw).2.1).1 h
  rw [walk_object_object _ _ _ _ hs hm' hw, walk_object_object _ _ _ _ hs hm hw]
  have hkin : k ∈ mapKeys w := mem_mapKeys_of_mem hkw
  have eS : ((m1 ++ (k, Value.null) :: m2).filter fun kv => decide (kv.1 ∈ mapKeys w)) =
      (m1.filter fun kv => decide (kv.1 ∈ mapKeys w)) ++
        (k, Value.null) :: (m2.filter fun kv => decide (kv.1 ∈ mapKeys w)) := by
    simp [List.filter_append, List.filter_cons, hkin]
  have eD : ((m1 ++ (k, Value.null) :: m2).filter fun kv => decide (kv.1 ∉ mapKeys w)) =
      (m1 ++ m2).filter fun kv => decide (kv.1 ∉ mapKeys w) := by
    simp [List.filter_append, List.filter_cons, hkin]
  have hk1 : k ∉ mapKeys w1 := fun h => hkw1 (by rw [mapKeys_append]; exact List.mem_append_left _ h)
  have hk2 : k ∉ mapKeys w2 := fun h => hkw1 (by rw [mapKeys_append]; exact List.mem_append_right _ h)
  have eC1 : (w.filter fun kv => decide (kv.1 ∉ mapKeys (m1 ++ (k, Value.null) :: m2))) =
      (w1.filter fun kv => decide (kv.1 ∉ mapKeys (m1 ++ m2))) ++
        (w2.filter fun kv => decide (kv.1 ∉ mapKeys (m1 ++ m2))) := by
    rw [hw12, List.filter_append, List.filter_cons, filter_notin_insert m1 m2 hk1,
      filter_notin_insert m1 m2 hk2]
    simp [mapKeys]
  have eC2 : (w.filter fun kv => decide (kv.1 ∉ mapKeys (m1 ++ m2))) =
      (w1.filter fun kv => decide (kv.1 ∉ mapKeys (m1 ++ m2))) ++
        (k, mapIndex w k) :: (w2.filter fun kv => decide (kv.1 ∉ mapKeys (m1 ++ m2))) := by
    conv_lhs => rw [hw12]
    rw [List.filter_append, List.filter_cons]
    simp [hk]
  rw [eS, eD, eC1, eC2]
  simp only [List.flatMap_append, List.flatMap_cons, walk_null_present hwk, List.map_append,
    List.map_cons, List.filter_append, List.append_assoc, List.singleton_append,
    List.cons_append, List.nil_append]
  exact perm_insert_middle _ _ _ _ _ _ _

theorem null_key_conflation_witness :
    (mapKeys ([("x", Value.integer 1)] ++ [("y", Value.integer 2)])).Nodup ∧
    "k" ∉ mapKeys ([("x", Value.integer 1)] ++ [("y", Value.integer 2)]) ∧
    (mapKeys [("k", Value.integer 3), ("x", Value.integer 1)]).Nodup ∧
    mapIndex [("k", Value.integer 3), ("x", Value.integer 1)] "k" ≠ Value.null ∧
    "" ∉ ["[x]"] ∧
    ((∃ L1 L2, planOps (Value.object ([("x", Value.integer 1)] ++
            ("k", Value.null) :: [("y", Value.integer 2)]))
          (Value.object [("k", Value.integer 3), ("x", Value.integer 1)]) ["[x]"] = some L1 ∧
        planOps (Value.object ([("x", Value.integer 1)] ++ [("y", Value.integer 2)]))
          (Value.object [("k", Value.integer 3), ("x", Value.integer 1)]) ["[x]"] = some L2 ∧
        L1.Perm L2) ∧
      IsEqual (Value.object ([("x", Value.integer 1)] ++
          ("k", Value.null) :: [("y", Value.integer 2)]))
        (Value.object ([("x", Value.integer 1)] ++ [("y", Value.integer 2)])) = false) :=
  ⟨by decide, by decide, by decide, by simp [mapIndex, mapLookup], by decide,
    null_key_conflation [("x", Value.integer 1)] [("y", Value.integer 2)]
      [("k", Value.integer 3), ("x", Value.integer 1)] "k" ["[x]"]
      (by decide) (by decide) (by decide) (by simp [mapIndex, mapLookup]) (by decide)⟩

/-! ## IsEqual and structural equality -/

theorem IsEqualElems_iff : ∀ (xs ys : List Value), xs.length = ys.length →
    (IsEqualElems xs ys = true ↔
      ∀ i, i < xs.length → IsEqual (xs.getD i Value.null) (ys.getD i Value.null) = true)
  | [], _, _ => by simp [IsEqualElems]
  | x :: xs, [], h => by simp at h
  | x :: xs, y :: ys, h => by
    have hl : xs.length = ys.length := by simpa using h
    have ih := IsEqualElems_iff xs ys hl
    simp only [IsEqualElems]
    constructor
    · intro he i hi
      cases hxy : IsEqual x y with
      | false => simp [hxy] at he
      | true =>
        simp only [hxy, Bool.not_true, Bool.false_eq_true, if_false] at he
        cases i with
        | zero => simpa using hxy
        | succ j =>
          have := ih.1 he j (by simpa using hi)
          simpa using this
    · intro hall
      have h0 : IsEqual x y = true := by simpa using hall 0 (by simp)
      simp only [h0, Bool.not_true, Bool.false_eq_true, if_false]
      refine ih.2 fun j hj => ?_
      have := hall (j + 1) (by simpa using hj)
      simpa using this

theorem IsEqualEntries_iff (m2 : List (String × Value)) : ∀ (es : List (String × Value)),
    (IsEqualEntries es m2 = true ↔
      ∀ kv ∈ es, ∃ w, mapLookup m2 kv.1 = some w ∧ IsEqual kv.2 w = true)
  | [] => by simp [IsEqualEntries]
  | (k, v) :: rest => by
    have ih := IsEqualEntries_iff m2 rest
    simp only [IsEqualEntries, List.mem_cons, forall_eq_or_imp]
    cases hl : mapLookup m2 k with
    | none => simp
    | some w =>
      cases hvw : IsEqual v w with
      | false => simp [hvw]
      | true => simpa [hvw] using ih

theorem mem_mapKeys_iff {k : String} {m : List (String × Value)} :
    k ∈ mapKeys m ↔ ∃ v, (k, v) ∈ m := by
  simp [mapKeys]

theorem mapIndex_perm {m m' : List (String × Value)} (hp : m.Perm m')
    (hnd : (mapKeys m).Nodup) (k : String) : mapIndex m k = mapIndex m' k := by
  have hnd' : (mapKeys m').Nodup := (hp.map Prod.fst).nodup_iff.1 hnd
  by_cases hk : k ∈ mapKeys m
  · obtain ⟨v, hv⟩ := mem_mapKeys_iff.1 hk
    rw [mapIndex_of_mem hnd hv, mapIndex_of_mem hnd' (hp.subset hv)]
  · have hk' : k ∉ mapKeys m' := fun h => hk ((hp.map Prod.fst).symm.subset h)
    simp [mapIndex, mapLookup_eq_none hk, mapLookup_eq_none hk']

/-- `IsEqual` on two Objects with distinct keys: same key set and `IsEqual`
values at every key. -/
theorem IsEqual_object_iff {m1 m2 : List (String × Value)} (h1 : (mapKeys m1).Nodup)
    (h2 : (mapKeys m2).Nodup) :
    IsEqual (Value.object m1) (Value.object m2) = true ↔
      (∀ k, k ∈ mapKeys m1 ↔ k ∈ mapKeys m2) ∧
        ∀ k, k ∈ mapKeys m1 → IsEqual (mapIndex m1 k) (mapIndex m2 k) = true := by
  simp only [IsEqual, Value.isNil, Bool.false_and, Bool.false_or, Bool.false_eq_true, if_false]
  constructor
  · intro h
    by_cases hl : m1.length = m2.length
    · simp only [hl, bne_self_eq_false, Bool.false_eq_true, if_false] at h
      have hall := (IsEqualEntries_iff m2 m1).1 h
      have hsub : mapKeys m1 ⊆ mapKeys m2 := by
        intro k hk
        obtain ⟨v, hv⟩ := mem_mapKeys_iff.1 hk
        obtain ⟨w, hw, _⟩ := hall (k, v) hv
        exact mem_mapKeys_of_mem (mapLookup_mem hw)
      have hperm : (mapKeys m1).Perm (mapKeys m2) :=
        (List.subperm_of_subset h1 hsub).perm_of_length_le (by simp [mapKeys, hl])
      refine ⟨fun k => hperm.mem_iff, fun k hk => ?_⟩
      obtain ⟨v, hv⟩ := mem_mapKeys_iff.1 hk
      obtain ⟨w, hw, hvw⟩ := hall (k, v) hv
      rw [mapIndex_of_mem h1 hv]
      simpa [mapIndex, hw] using hvw
    · simp [hl] at h
  · rintro ⟨hkeys, hvals⟩
    have hperm : (mapKeys m1).Perm (mapKeys m2) := (List.perm_ext_iff_of_nodup h1 h2).2 hkeys
    have hl : m1.length = m2.length := by simpa [mapKeys] using hperm.length_eq
    simp only [hl, bne_self_eq_false, Bool.false_eq_true, if_false]
    refine (IsEqualEntries_iff m2 m1).2 fun kv hkv => ?_
    have hk : kv.1 ∈ mapKeys m1 := mem_mapKeys_of_mem hkv
    obtain ⟨w, hw⟩ := mapLookup_isSome ((hkeys kv.1).1 hk)
    refine ⟨w, hw, ?_⟩
    have := hvals kv.1 hk
    rw [mapIndex_of_mem h1 hkv] at this
    simpa [mapIndex, hw] using this

/-- C11, as stated, fails on Floats: `IsEqual` compares two Floats with the
float64 `==`, so a Float NaN, which is of the same variant and has the same
payload as itself, is not `IsEqual` to itself. -/
theorem isEqual_structural_counterexample :
    (Value.float 9221120237041090560).variant = (Value.float 9221120237041090560).variant ∧
    (9221120237041090560 : Nat) = 9221120237041090560 ∧
    IsEqual (Value.float 9221120237041090560) (Value.float 9221120237041090560) = false := by
  refine ⟨rfl, rfl, ?_⟩
  have hnan : f64Eq 9221120237041090560 9221120237041090560 = false := by decide
  simp [IsEqual, Value.isNil, hnan]

/-- C11, amended. `IsEqual` coincides with structural equality on present
values of the recognised variants (Objects being maps, with distinct keys),
two Floats being compared with the float64 `==`: it is true exactly when the
two values are of the same variant and, for scalars, have the same payload
(for Floats: `==` holds, so a NaN equals no Float and `+0` equals `-0`), for
Arrays, have equal length and `IsEqual` elements at every index, for Objects,
have the same key set and `IsEqual` values at every key.  In particular an
Integer is never equal to a Float, and the result for two Objects does not
depend on the order in which their entries are enumerated. -/
theorem isEqual_structural (a b : Value) (ha : a ≠ Value.null) (hb : b ≠ Value.null)
    (hra : a.variant ≠ 7) (hrb : b.variant ≠ 7) (hwa : a.WF) (hwb : b.WF) :
    (IsEqual a b = true ↔ a.variant = b.variant ∧ SameStructure a b) ∧
    (∀ (i : Int) (f : Nat), IsEqual (Value.integer i) (Value.float f) = false ∧
      IsEqual (Value.float f) (Value.integer i) = false) ∧
    (∀ m1 m1' m2 m2' : List (String × Value), (mapKeys m1).Nodup → (mapKeys m2).Nodup →
      m1.Perm m1' → m2.Perm m2' →
      IsEqual (Value.object m1') (Value.object m2') =
        IsEqual (Value.object m1) (Value.object m2)) := by
  refine ⟨?_, ?_, ?_⟩
  · cases a <;> cases b <;>
      first
      | exact absurd rfl ha
      | exact absurd rfl hb
      | exact absurd rfl hra
      | exact absurd rfl hrb
      | skip
    all_goals
      first
      | (simp only [Value.WF] at hwa hwb
         rw [IsEqual_object_iff hwa.1 hwb.1]
         simp [SameStructure, Value.variant])
      | (rename_i xs ys
         simp only [SameStructure, Value.variant, true_and]
         by_cases hl : xs.length = ys.length
         · simp only [IsEqual, Value.isNil, Bool.false_and, Bool.false_or, Bool.false_eq_true,
             if_false, hl, bne_self_eq_false]
           rw [IsEqualElems_iff xs ys hl, hl]
           simp
         · simp [IsEqual, Value.isNil, hl])
      | simp [IsEqual, Value.isNil, SameStructure, sameScalar, Value.variant]
  · intro i f
    simp [IsEqual, Value.isNil]
  · intro m1 m1' m2 m2' h1 h2 hp1 hp2
    have h1' : (mapKeys m1').Nodup := (hp1.map Prod.fst).nodup_iff.1 h1
    have h2' : (mapKeys m2').Nodup := (hp2.map Prod.fst).nodup_iff.1 h2
    have hk1 : ∀ k, k ∈ mapKeys m1' ↔ k ∈ mapKeys m1 := fun k => (hp1.map Prod.fst).symm.mem_iff
    have hk2 : ∀ k, k ∈ mapKeys m2' ↔ k ∈ mapKeys m2 := fun k => (hp2.map Prod.fst).symm.mem_iff
    rw [Bool.eq_iff_iff, IsEqual_object_iff h1' h2', IsEqual_object_iff h1 h2]
    constructor
    · rintro ⟨hk, hv⟩
      refine ⟨fun k => by rw [← hk1, ← hk2]; exact hk k, fun k hkm => ?_⟩
      have := hv k ((hk1 k).2 hkm)
      rwa [← mapIndex_perm hp1 h1, ← mapIndex_perm hp2 h2] at this
    · rintro ⟨hk, hv⟩
      refine ⟨fun k => by rw [hk1, hk2]; exact hk k, fun k hkm => ?_⟩
      have := hv k ((hk1 k).1 hkm)
      rwa [mapIndex_perm hp1 h1, mapIndex_perm hp2 h2] at this

theorem isEqual_structural_witness :
    Value.object [("a", Value.integer 1), ("b", Value.null)] ≠ Value.null ∧
    Value.object [("b", Value.null), ("a", Value.integer 1)] ≠ Value.null ∧
    (Value.object [("a", Value.integer 1), ("b", Value.null)]).variant ≠ 7 ∧
    (Value.object [("b", Value.null), ("a", Value.integer 1)]).variant ≠ 7 ∧
    (Value.object [("a", Value.integer 1), ("b", Value.null)]).WF ∧
    (Value.object [("b", Value.null), ("a", Value.integer 1)]).WF ∧
    (IsEqual (Value.object [("a", Value.integer 1), ("b", Value.null)])
        (Value.object [("b", Value.null), ("a", Value.integer 1)]) = true ↔
      (Value.object [("a", Value.integer 1), ("b", Value.null)]).variant =
          (Value.object [("b", Value.null), ("a", Value.integer 1)]).variant ∧
        SameStructure (Value.object [("a", Value.integer 1), ("b", Value.null)])
          (Value.object [("b", Value.null), ("a", Value.integer 1)])) :=
  ⟨by simp, by simp, by decide, by decide,
    by simp [Value.WF, Value.WFEntries, mapKeys],
    by simp [Value.WF, Value.WFEntries, mapKeys],
    (isEqual_structural _ _ (by simp) (by simp) (by decide) (by decide)
      (by simp [Value.WF, Value.WFEntries, mapKeys])
      (by simp [Value.WF, Value.WFEntries, mapKeys])).1⟩

/-- C12. Absent and unrecognised operands of `IsEqual`: two absent values are
equal; a present value and an absent one are not, in either order; and
`IsEqual` is false whenever one operand is of an unrecognised dynamic type,
whatever the other is, the same unrecognised value included.  `IsEqual` is a
total function: it compares two interface values with `==` only after both
were found to be of one scalar type, so the comparison cannot panic. -/
theorem isEqual_absent_unrecognised (a : Value) (t : Nat) (ha : a ≠ Value.null) :
    IsEqual Value.null Value.null = true ∧
    IsEqual a Value.null = false ∧ IsEqual Value.null a = false ∧
    (∀ b : Value, IsEqual (Value.other t) b = false ∧ IsEqual b (Value.other t) = false) ∧
    IsEqual (Value.other t) (Value.other t) = false := by
  have hn := isNil_eq_false ha
  refine ⟨by simp [IsEqual, Value.isNil], ?_, ?_, ?_, by simp [IsEqual, Value.isNil]⟩
  · cases a <;> first | exact absurd rfl ha | simp [IsEqual, Value.isNil]
  · simp [IsEqual, Value.isNil, hn]
  · intro b
    constructor
    · cases b <;> simp [IsEqual, Value.isNil]
    · cases b <;> simp [IsEqual, Value.isNil]

theorem isEqual_absent_unrecognised_witness :
    Value.string "x" ≠ Value.null ∧
    (IsEqual Value.null Value.null = true ∧
    IsEqual (Value.string "x") Value.null = false ∧
    IsEqual Value.null (Value.string "x") = false ∧
    (∀ b : Value, IsEqual (Value.other 5) b = false ∧ IsEqual b (Value.other 5) = false) ∧
    IsEqual (Value.other 5) (Value.other 5) = false) :=
  ⟨by simp, isEqual_absent_unrecognised (Value.string "x") 5 (by simp)⟩

/-! ## The steps of Get -/

theorem span_append_of (p : Char → Bool) : ∀ (seg rest : List Char),
    (∀ c ∈ seg, p c = true) → (∀ c ∈ rest.head?, p c = false) →
    (seg ++ rest).span p = (seg, rest)
  | [], [], _, _ => by simp [List.span_eq_take_drop]
  | [], c :: rest, _, hr => by
    have hc : p c = false := hr c (by simp)
    simp [List.span_eq_take_drop, List.takeWhile_cons, List.dropWhile_cons, hc]
  | c :: seg, rest, hs, hr => by
    have hc : p c = true := hs c (List.mem_cons_self _ _)
    have ih := span_append_of p seg rest (fun d hd => hs d (List.mem_cons_of_mem _ hd)) hr
    simp only [List.span_eq_take_drop, Prod.mk.injEq] at ih
    simp [List.span_eq_take_drop, List.takeWhile_cons, List.dropWhile_cons, hc, ih.1, ih.2]

theorem span_length (p : Char → Bool) (l : List Char) :
    (l.span p).1.length + (l.span p).2.length = l.length := by
  rw [List.span_eq_take_drop]
  rw [← List.length_append, List.takeWhile_append_dropWhile]

/-- `Get(v, p)` that makes the recursive call `Get(v', p')` returns what that
call returns, and the path passed on is shorter. -/
theorem GetCall_spec {v v' : Value} {p p' : List Char} (h : GetCall v p = some (v', p')) :
    p'.length < p.length ∧ ∀ f, GetFuel (f + 1) v p = GetFuel f v' p' := by
  cases p with
  | nil => simp [GetCall] at h
  | cons curr rest =>
    by_cases hb : curr = '['
    · subst hb
      have hlen := span_length (fun c => c != ']') rest
      simp only [GetCall, if_true] at h
      simp only [GetFuel, if_true]
      rcases hsp : rest.span (fun c => c != ']') with ⟨seg, tail⟩
      rw [hsp] at h hlen
      cases tail with
      | nil => simp at h
      | cons d after =>
        simp only [] at h ⊢
        simp only [List.length_cons] at hlen
        cases v with
        | array vArr =>
          simp only [] at h ⊢
          cases hpi : ParseInt seg with
          | none => simp [hpi] at h
          | some i =>
            simp only [hpi] at h ⊢
            split_ifs at h with hr ha
            obtain ⟨rfl, rfl⟩ := Prod.mk.inj (Option.some.inj h)
            refine ⟨by simp only [List.length_cons]; omega, fun f => ?_⟩
            simp [hr, ha]
        | object vObj =>
          simp only [] at h ⊢
          split_ifs at h with ha
          obtain ⟨rfl, rfl⟩ := Prod.mk.inj (Option.some.inj h)
          refine ⟨by simp only [List.length_cons]; omega, fun f => ?_⟩
          simp [ha]
        | _ => simp at h
    · by_cases hd : curr = '.'
      · subst hd
        simp only [GetCall, hb, if_false, if_true] at h
        simp only [GetFuel, hb, if_false, if_true]
        split_ifs at h with hr
        obtain ⟨rfl, rfl⟩ := Prod.mk.inj (Option.some.inj h)
        exact ⟨by simp, fun f => by simp [hr]⟩
      · have hlen := span_length (fun c => c != '.' && c != '[') (curr :: rest)
        simp only [GetCall, hb, hd, if_false] at h
        simp only [GetFuel, hb, hd, if_false]
        rcases hsp : (curr :: rest).span (fun c => c != '.' && c != '[') with ⟨seg, tail⟩
        rw [hsp] at h hlen
        cases tail with
        | nil => simp at h
        | cons c after =>
          simp only [] at h ⊢
          simp only [List.length_cons] at hlen
          have hpc : (curr != '.' && curr != '[') = true := by simp [hb, hd]
          have hseg : seg ≠ [] := by
            intro e
            subst e
            simp [List.span_eq_take_drop, List.takeWhile_cons, hpc] at hsp
          have hsl : 0 < seg.length := List.length_pos.2 hseg
          cases v with
          | object vObj =>
            simp only [] at h ⊢
            split_ifs at h with hc
            · obtain ⟨rfl, rfl⟩ := Prod.mk.inj (Option.some.inj h)
              exact ⟨by simp only [List.length_cons]; omega, fun f => by simp [hc]⟩
            · obtain ⟨rfl, rfl⟩ := Prod.mk.inj (Option.some.inj h)
              exact ⟨by simp only [List.length_cons]; omega, fun f => by simp [hc]⟩
          | _ => simp at h

theorem resolves_of_call {v v' : Value} {p p' : List Char} {r : Value}
    (h : GetCall v p = some (v', p')) (hy : Resolves v' p' r) : Resolves v p r := by
  obtain ⟨hlt, heq⟩ := GetCall_spec h
  intro f hf
  cases f with
  | zero => simp at hf
  | succ f =>
    rw [heq f]
    exact hy f (by omega)

theorem errs_of_call {v v' : Value} {p p' : List Char}
    (h : GetCall v p = some (v', p'))
    (hy : ∀ f, p'.length < f → ∃ e, GetFuel f v' p' = some (GetOutcome.err e)) :
    ∀ f, p.length < f → ∃ e, GetFuel f v p = some (GetOutcome.err e) := by
  obtain ⟨hlt, heq⟩ := GetCall_spec h
  intro f hf
  cases f with
  | zero => simp at hf
  | succ f =>
    rw [heq f]
    exact hy f (by omega)

theorem errs_of_reaches {v x : Value} {p rest : List Char} (h : Reaches v p x rest)
    (hy : ∀ f, rest.length < f → ∃ e, GetFuel f x rest = some (GetOutcome.err e)) :
    ∀ f, p.length < f → ∃ e, GetFuel f v p = some (GetOutcome.err e) := by
  induction h with
  | here v p => exact hy
  | call hc _ ih => exact errs_of_call hc (ih hy)

theorem exists_span_close : ∀ (l : List Char), ']' ∈ l →
    ∃ seg after, l.span (fun c => c != ']') = (seg, ']' :: after)
  | [], h => by simp at h
  | c :: l, h => by
    by_cases hc : c = ']'
    · subst hc
      exact ⟨[], l, by simp [List.span_eq_take_drop, List.takeWhile_cons, List.dropWhile_cons]⟩
    · have hm : ']' ∈ l := by
        rcases List.mem_cons.1 h with h | h
        · exact absurd h.symm hc
        · exact h
      obtain ⟨seg, after, hs⟩ := exists_span_close l hm
      simp only [List.span_eq_take_drop, Prod.mk.injEq] at hs
      refine ⟨c :: seg, after, ?_⟩
      simp [List.span_eq_take_drop, List.takeWhile_cons, List.dropWhile_cons, hc, hs.1, hs.2]

/-- From a value that cannot be indexed, every path that is not empty and
whose brackets are closed yields an error. -/
theorem nonIndexable_err : ∀ (f : Nat) (x : Value) (rest : List Char),
    x.isIndexable = false → rest ≠ [] → bracketsClosed rest = true → rest.length < f →
    ∃ e, GetFuel f x rest = some (GetOutcome.err e)
  | 0, _, _, _, _, _, hf => by simp at hf
  | f + 1, x, [], _, hne, _, _ => absurd rfl hne
  | f + 1, x, curr :: rest, hx, _, hcl, hf => by
    simp only [bracketsClosed, Bool.and_eq_true, Bool.or_eq_true, bne_iff_ne, ne_eq,
      List.elem_iff] at hcl
    by_cases hb : curr = '['
    · subst hb
      have hm : ']' ∈ rest := by
        rcases hcl.1 with h | h
        · exact absurd rfl h
        · simpa using h
      obtain ⟨seg, after, hs⟩ := exists_span_close rest hm
      simp only [GetFuel, if_true, hs]
      cases x <;> simp [Value.isIndexable] at hx ⊢
    · by_cases hd : curr = '.'
      · subst hd
        simp only [GetFuel, hb, if_false, if_true]
        cases rest with
        | nil => exact ⟨GetError.pathEndsInPeriod, by simp⟩
        | cons c r =>
          simp only [List.length_cons, gt_iff_lt, Nat.lt_add_left_iff_pos, Nat.zero_lt_succ,
            if_true]
          exact nonIndexable_err f x (c :: r) hx (by simp) hcl.2
            (by simp only [List.length_cons] at hf ⊢; omega)
      · simp only [GetFuel, hb, hd, if_false]
        rcases (curr :: rest).span (fun c => c != '.' && c != '[') with ⟨seg, tail⟩
        cases tail <;> cases x <;> simp [Value.isIndexable] at hx ⊢


/-- C13. `Get` can panic, so the property that it never crashes fails on the
code: with the Array index `0` on an empty Array, an index equal to the
length, and a negative index, the index expression `vArr[i]` is out of range;
with an unterminated bracket, `[` or `[abc`, the scan for `]` reads the path
beyond its end. -/
theorem get_panics :
    Get (Value.array []) "[0]" = some GetOutcome.panic ∧
    Get (Value.array [Value.integer 1]) "[1]" = some GetOutcome.panic ∧
    Get (Value.array [Value.integer 1]) "[-1]" = some GetOutcome.panic ∧
    Get Value.null "[" = some GetOutcome.panic ∧
    Get (Value.object [("abc", Value.integer 1)]) "[abc" = some GetOutcome.panic :=
  ⟨rfl, rfl, rfl, rfl, rfl⟩

/-- C14. Indexing a value that cannot be indexed fails: from a root that is
absent or a scalar (or of an unrecognised type), for every path that is not
empty and in which each `[` is followed later by a `]`, `Get` returns an
error; so does `Get` from any value on any path whose resolution reaches such
a value with such a path still to resolve.  On the empty path `Get` returns
the root unchanged with no error. -/
theorem get_non_indexable (root : Value) (hroot : root.isIndexable = false) :
    (∀ p : String, p.data ≠ [] → bracketsClosed p.data = true →
      ∃ e, Get root p = some (GetOutcome.err e)) ∧
    (∀ (v : Value) (p rest : List Char), Reaches v p root rest → rest ≠ [] →
      bracketsClosed rest = true → ∃ e, Get v ⟨p⟩ = some (GetOutcome.err e)) ∧
    (∀ v : Value, Get v "" = some (GetOutcome.ok v)) := by
  refine ⟨?_, ?_, ?_⟩
  · intro p hne hcl
    exact nonIndexable_err _ root p.data hroot hne hcl (Nat.lt_succ_self _)
  · intro v p rest hr hne hcl
    exact errs_of_reaches hr (fun f hf => nonIndexable_err f root rest hroot hne hcl hf) _
      (Nat.lt_succ_self _)
  · intro v
    rfl

theorem get_non_indexable_witness :
    (Value.integer 1).isIndexable = false ∧
    "[0].b".data ≠ [] ∧ bracketsClosed "[0].b".data = true ∧
    (∃ e, Get (Value.integer 1) "[0].b" = some (GetOutcome.err e)) ∧
    (∃ e, Get (Value.object [("a", Value.integer 1)]) "a.b" = some (GetOutcome.err e)) ∧
    Get (Value.integer 1) "" = some (GetOutcome.ok (Value.integer 1)) :=
  ⟨rfl, by decide, by decide,
    (get_non_indexable (Value.integer 1) rfl).1 "[0].b" (by decide) (by decide),
    (get_non_indexable (Value.integer 1) rfl).2.1 (Value.object [("a", Value.integer 1)])
      "a.b".data "b".data (Reaches.call rfl (Reaches.here _ _)) (by decide) (by decide),
    (get_non_indexable (Value.integer 1) rfl).2.2 (Value.integer 1)⟩

theorem resolves_field {m : List (String × Value)} {b : String} (hb : b.data ≠ [])
    (hbc : ∀ c ∈ b.data, c ≠ '.' ∧ c ≠ '[' ∧ c ≠ ']') :
    Resolves (Value.object m) b.data (mapIndex m b) := by
  intro f hf
  cases f with
  | zero => simp at hf
  | succ f =>
    cases hd : b.data with
    | nil => exact absurd hd hb
    | cons c rest =>
      have hc := hbc c (by rw [hd]; exact List.mem_cons_self _ _)
      have hsp : (c :: rest).span (fun c => c != '.' && c != '[') = (c :: rest, []) := by
        have := span_append_of (fun c => c != '.' && c != '[') (c :: rest) []
          (fun d hdm => by
            have := hbc d (by rw [hd]; exact hdm)
            simp [this.1, this.2.1])
          (by simp)
        simpa using this
      simp only [GetFuel, hc.1, hc.2.1, if_false, hsp]
      rw [← hd]

/-- C15. Dotted and bracketed field access are interchangeable: for an Object
whose field `a` is itself an Object, and key names `a` and `b` that are not
empty and hold none of `.`, `[` and `]`, the paths `a.b`, `a[b]` and `[a][b]`
all make `Get` return the value stored at `v[a][b]` with no error. -/
theorem dotted_bracketed_interchangeable (m ma : List (String × Value)) (a b : String)
    (ha : a.data ≠ []) (hb : b.data ≠ [])
    (hac : ∀ c ∈ a.data, c ≠ '.' ∧ c ≠ '[' ∧ c ≠ ']')
    (hbc : ∀ c ∈ b.data, c ≠ '.' ∧ c ≠ '[' ∧ c ≠ ']')
    (hm : mapIndex m a = Value.object ma) :
    Get (Value.object m) (a ++ "." ++ b) = some (GetOutcome.ok (mapIndex ma b)) ∧
    Get (Value.object m) (a ++ "[" ++ b ++ "]") = some (GetOutcome.ok (mapIndex ma b)) ∧
    Get (Value.object m) ("[" ++ a ++ "][" ++ b ++ "]") =
      some (GetOutcome.ok (mapIndex ma b)) := by
  have hpa : ∀ c ∈ a.data, (c != '.' && c != '[') = true := fun c hc => by
    have := hac c hc
    simp [this.1, this.2.1]
  have hka : ']' ∉ a.data := fun h => (hac _ h).2.2 rfl
  have hkb : ']' ∉ b.data := fun h => (hbc _ h).2.2 rfl
  obtain ⟨c0, r0, hd0⟩ : ∃ c r, a.data = c :: r := by
    cases hd : a.data with
    | nil => exact absurd hd ha
    | cons c r => exact ⟨c, r, rfl⟩
  have hc0 := hac c0 (by rw [hd0]; exact List.mem_cons_self _ _)
  have hfield := resolves_field (m := ma) hb hbc
  have hbr : Resolves (Value.object ma) ('[' :: b.data ++ [']']) (mapIndex ma b) :=
    resolves_object hkb (resolves_nil _)
  refine ⟨?_, ?_, ?_⟩
  · have hcall : GetCall (Value.object m) (a.data ++ '.' :: b.data) =
        some (Value.object ma, b.data) := by
      have hsp := span_append_of (fun c => c != '.' && c != '[') a.data ('.' :: b.data) hpa
        (by simp)
      rw [hd0] at hsp ⊢
      simp only [List.cons_append] at hsp ⊢
      simp only [GetCall, hc0.1, hc0.2.1, if_false, hsp, if_true]
      rw [← hd0, ← hm]
    have hres := resolves_of_call hcall hfield
    have hp : (a ++ "." ++ b) = ⟨a.data ++ '.' :: b.data⟩ := by
      apply String.ext; simp [String.data_append]
    rw [hp]
    exact hres _ (Nat.lt_succ_self _)
  · have hcall : GetCall (Value.object m) (a.data ++ '[' :: (b.data ++ [']'])) =
        some (Value.object ma, '[' :: b.data ++ [']']) := by
      have hsp := span_append_of (fun c => c != '.' && c != '[') a.data
        ('[' :: (b.data ++ [']'])) hpa (by simp)
      rw [hd0] at hsp ⊢
      simp only [List.cons_append] at hsp ⊢
      have hne : ¬ ('[' = '.') := by decide
      simp only [GetCall, hc0.1, hc0.2.1, if_false, hsp, hne]
      rw [← hd0, ← hm]
    have hres := resolves_of_call hcall hbr
    have hp : (a ++ "[" ++ b ++ "]") = ⟨a.data ++ '[' :: (b.data ++ [']'])⟩ := by
      apply String.ext; simp [String.data_append]
    rw [hp]
    exact hres _ (Nat.lt_succ_self _)
  · have hres : Resolves (Value.object m) ('[' :: a.data ++ ']' :: ('[' :: b.data ++ [']']))
        (mapIndex ma b) := resolves_object hka (by rw [hm]; exact hbr)
    have hp : ("[" ++ a ++ "][" ++ b ++ "]") =
        ⟨'[' :: a.data ++ ']' :: ('[' :: b.data ++ [']'])⟩ := by
      apply String.ext; simp [String.data_append]
    rw [hp]
    exact hres _ (Nat.lt_succ_self _)

theorem dotted_bracketed_interchangeable_witness :
    "foo".data ≠ [] ∧ "bar".data ≠ [] ∧
    (∀ c ∈ "foo".data, c ≠ '.' ∧ c ≠ '[' ∧ c ≠ ']') ∧
    (∀ c ∈ "bar".data, c ≠ '.' ∧ c ≠ '[' ∧ c ≠ ']') ∧
    mapIndex [("foo", Value.object [("bar", Value.integer 1)])] "foo" =
      Value.object [("bar", Value.integer 1)] ∧
    (Get (Value.object [("foo", Value.object [("bar", Value.integer 1)])])
        ("foo" ++ "." ++ "bar") =
      some (GetOutcome.ok (mapIndex [("bar", Value.integer 1)] "bar")) ∧
    Get (Value.object [("foo", Value.object [("bar", Value.integer 1)])])
        ("foo" ++ "[" ++ "bar" ++ "]") =
      some (GetOutcome.ok (mapIndex [("bar", Value.integer 1)] "bar")) ∧
    Get (Value.object [("foo", Value.object [("bar", Value.integer 1)])])
        ("[" ++ "foo" ++ "][" ++ "bar" ++ "]") =
      some (GetOutcome.ok (mapIndex [("bar", Value.integer 1)] "bar"))) :=
  ⟨by decide, by decide, by decide, by decide, rfl,
    dotted_bracketed_interchangeable [("foo", Value.object [("bar", Value.integer 1)])]
      [("bar", Value.integer 1)] "foo" "bar" (by decide) (by decide) (by decide) (by decide)
      rfl⟩

/-! ## The tree of queues -/

/-- C16. `Prune` can remove pending work.  In the tree whose root has the
children 1 (empty queue), 2 (pending queue) and 3 (empty queue), the children
1 and 3 are to be removed; `removeChildren` overwrites both places with the
last child and keeps the first place only, so the root is left with node 3,
and node 2, which holds a queue of length 1, is no longer in the tree. -/
theorem prune_removes_pending_node :
    threeChildren.map childrenOf = some [[1, 2, 3], [], [], []] ∧
    threeChildren.map queueLens = some [some 1, some 0, some 1, some 0] ∧
    (threeChildren.map fun s => treeNodes s ⟨some 0⟩) = some [0, 1, 2, 3] ∧
    ((threeChildren.bind fun s => Prune s ⟨some 0⟩).map fun s => treeNodes s ⟨some 0⟩) =
      some [0, 3] := by
  decide

/-- C17. `Prune` is not idempotent on the code.  On the tree of three children
the first call leaves the root with node 3, an empty leaf that it should have
removed; the second call removes it. -/
theorem prune_twice_differs :
    ((threeChildren.bind fun s => Prune s ⟨some 0⟩).map childrenOf) =
      some [[3], [], [], []] ∧
    (((threeChildren.bind fun s => Prune s ⟨some 0⟩).bind fun s => Prune s ⟨some 0⟩).map
      childrenOf) = some [[], [], [], []] := by
  decide

/-- C18. `Prune` can leave an empty leaf.  After `Prune` on the tree of three
children the nodes of the tree are the root and node 3, and node 3 has no
children and holds a queue of length 0. -/
theorem prune_leaves_empty_leaf :
    ((threeChildren.bind fun s => Prune s ⟨some 0⟩).map fun s => treeNodes s ⟨some 0⟩) =
      some [0, 3] ∧
    ((threeChildren.bind fun s => Prune s ⟨some 0⟩).map fun s =>
      ((childrenOf s)[3]?, (queueLens s)[3]?)) = some (some [], some (some 0)) := by
  decide

/-- C19. `Prune` can duplicate a child.  In the tree whose root has the
children 1 and 2 (empty queues) and 3 and 4 (pending queues) every node occurs
once; after `Prune` the children of the root are node 4 twice, and node 3 is
gone. -/
theorem prune_duplicates_child :
    (fourChildren.map fun s => treeNodes s ⟨some 0⟩) = some [0, 1, 2, 3, 4] ∧
    ((fourChildren.bind fun s => Prune s ⟨some 0⟩).map childrenOf) =
      some [[4, 4], [], [], [], []] ∧
    ((fourChildren.bind fun s => Prune s ⟨some 0⟩).map fun s =>
      decide (treeNodes s ⟨some 0⟩).Nodup) = some false := by
  decide

/-! ## The bound of GetNLeaves -/

theorem leavesOfChildren_bound {call : Nat → List Nat → Option (List Nat)} {n : Int} :
    ∀ (cs : List Nat),
      (∀ c ∈ cs, ∀ cur L, call c cur = some L → (cur.length : Int) < n →
        (L.length : Int) ≤ n) →
      ∀ cur L, leavesOfChildren call n cs cur = some L → (cur.length : Int) < n →
        (L.length : Int) ≤ n
  | [], _, cur, L, h, hlt => by
    simp only [leavesOfChildren, Option.some.injEq] at h
    subst h
    exact le_of_lt hlt
  | c :: cs, hc, cur, L, h, hlt => by
    simp only [leavesOfChildren] at h
    cases hcall : call c cur with
    | none => simp [hcall] at h
    | some cur' =>
      have hb := hc c (List.mem_cons_self _ _) cur cur' hcall hlt
      simp only [hcall] at h
      split_ifs at h with heq
      · simp only [Option.some.injEq] at h
        subst h
        exact hb
      · have hne : (cur'.length : Int) ≠ n := by simpa using heq
        exact leavesOfChildren_bound cs (fun d hd => hc d (List.mem_cons_of_mem _ hd)) cur' L h
          (lt_of_le_of_ne hb hne)

theorem getNLeavesRecursive_bound (store : List TreeNode) (n : Int) :
    ∀ (fuel node : Nat) (cur L : List Nat),
      getNLeavesRecursive fuel store n node cur = some L → (cur.length : Int) < n →
      (L.length : Int) ≤ n
  | 0, _, _, _, h, _ => by simp [getNLeavesRecursive] at h
  | fuel + 1, node, cur, L, h, hlt => by
    simp only [getNLeavesRecursive] at h
    cases hnd : store[node]? with
    | none => simp [hnd] at h
    | some nd =>
      simp only [hnd] at h
      split_ifs at h with hleaf
      · simp only [Option.some.injEq] at h
        subst h
        simp only [List.length_append, List.length_singleton, Nat.cast_add, Nat.cast_one]
        omega
      · exact leavesOfChildren_bound nd.children
          (fun c _ cur' L' hc hl => getNLeavesRecursive_bound store n fuel c cur' L' hc hl)
          cur L h hlt

theorem leavesOfChildren_total {call : Nat → List Nat → Option (List Nat)} (n : Int) :
    ∀ (cs : List Nat), (∀ c ∈ cs, ∀ cur, ∃ L, call c cur = some L) →
      ∀ cur, ∃ L, leavesOfChildren call n cs cur = some L
  | [], _, cur => ⟨cur, rfl⟩
  | c :: cs, hc, cur => by
    obtain ⟨cur', hcall⟩ := hc c (List.mem_cons_self _ _) cur
    simp only [leavesOfChildren, hcall]
    split_ifs
    · exact ⟨cur', rfl⟩
    · exact leavesOfChildren_total n cs (fun d hd => hc d (List.mem_cons_of_mem _ hd)) cur'

theorem getNLeavesRecursive_total {store : List TreeNode} (hs : StoreOK store) (n : Int) :
    ∀ (fuel node : Nat) (cur : List Nat), node < store.length → store.length ≤ fuel + node →
      ∃ L, getNLeavesRecursive fuel store n node cur = some L
  | 0, node, _, hlt, hle => by omega
  | fuel + 1, node, cur, hlt, hle => by
    have hnd : store[node]? = some store[node] := List.getElem?_eq_getElem hlt
    simp only [getNLeavesRecursive, hnd]
    split_ifs with hleaf
    · exact ⟨_, rfl⟩
    · refine leavesOfChildren_total n _ (fun c hc cur' => ?_) cur
      have := hs node _ hnd c hc
      exact getNLeavesRecursive_total hs n fuel c cur' this.2 (by omega)

theorem storeOK_single (parent : Option Nat) (s : Option OpQueue) :
    StoreOK [⟨[], parent, s⟩] := by
  intro p nd h c hc
  match p, h with
  | 0, h =>
    simp only [List.getElem?_cons_zero, Option.some.injEq] at h
    subst h
    simp at hc
  | p + 1, h => simp at h

/-- `AddChild` keeps the store in the shape of trees. -/
theorem storeOK_addChild {store store' : List TreeNode} {s : Option OpQueue}
    {parent : Option Nat} {child : Nat} (hs : StoreOK store)
    (h : AddChild store s parent = some (child, store')) : StoreOK store' := by
  unfold AddChild at h
  cases parent with
  | none => simp at h
  | some p =>
    cases hp : store[p]? with
    | none => simp [hp] at h
    | some nd =>
      simp only [hp, Option.some.injEq, Prod.mk.injEq] at h
      obtain ⟨_, rfl⟩ := h
      have hpl : p < store.length := (List.getElem?_eq_some.1 hp).1
      intro q ndq hq c hc
      have hlen : (store.set p { nd with children := nd.children ++ [store.length] } ++
          [(⟨[], some p, s⟩ : TreeNode)]).length = store.length + 1 := by simp
      rw [hlen]
      by_cases hql : q < store.length
      · rw [List.getElem?_append_left (by simpa using hql)] at hq
        by_cases hqp : p = q
        · subst hqp
          rw [List.getElem?_set_self hpl] at hq
          cases hq
          rcases List.mem_append.1 hc with hc | hc
          · have := hs p nd hp c hc
            exact ⟨this.1, by omega⟩
          · simp only [List.mem_singleton] at hc
            subst hc
            exact ⟨hpl, Nat.lt_succ_self _⟩
        · rw [List.getElem?_set_ne hqp] at hq
          have := hs q ndq hq c hc
          exact ⟨this.1, by omega⟩
      · have hge : store.length ≤ q := Nat.le_of_not_lt hql
        rw [List.getElem?_append_right (by simpa using hge)] at hq
        simp only [List.length_set] at hq
        cases hq0 : q - store.length with
        | zero =>
          rw [hq0] at hq
          simp only [List.getElem?_cons_zero, Option.some.injEq] at hq
          subst hq
          simp at hc
        | succ k =>
          rw [hq0] at hq
          simp at hq

theorem storeOK_two :
    StoreOK [⟨[1], none, emptyQueue⟩, ⟨[], some 0, pendingQueue⟩] := by
  intro p nd h c hc
  match p, h with
  | 0, h =>
    simp only [List.getElem?_cons_zero, Option.some.injEq] at h
    subst h
    simp only [List.mem_singleton] at hc
    subst hc
    decide
  | 1, h =>
    simp only [List.getElem?_cons_succ, List.getElem?_cons_zero, Option.some.injEq] at h
    subst h
    simp at hc
  | p + 2, h => simp at h

/-- C20. `GetNLeaves(0)` returns more than 0 nodes: on the tree of one node it
returns that node, and on the tree of a root with four leaf children it
returns all four leaves.  The only test that ends the walk of
`getNLeavesRecursive`, `len(currNodes) == n`, is made after a leaf has been
appended, so with `n = 0` it is never met, against the comment of
`GetNLeaves`, "returns at most n leaves of the tree".  With `n = 2` the same
tree yields its first two leaves. -/
theorem getNLeaves_zero_exceeds_bound :
    GetNLeaves rootOnly ⟨some 0⟩ 0 = some [0] ∧
    ¬ ((([0] : List Nat).length : Int) ≤ 0) ∧
    (fourChildren.bind fun s => GetNLeaves s ⟨some 0⟩ 0) = some [1, 2, 3, 4] ∧
    ¬ ((([1, 2, 3, 4] : List Nat).length : Int) ≤ 0) ∧
    (fourChildren.bind fun s => GetNLeaves s ⟨some 0⟩ 2) = some [1, 2] := by
  decide

/-- The leaf bound for `n` of at least 1: for every tree (of a store built by
allocation and `AddChild`, the root being an allocated node or nil) and every
integer `n ≥ 1`, `GetNLeaves(n)` returns a list of at most `n` nodes. -/
theorem leaf_bound (store : List TreeNode) (t : OpQueueTree) (n : Int) (hs : StoreOK store)
    (hr : ∀ r, t.Root = some r → r < store.length) (hn : 1 ≤ n) :
    ∃ L, GetNLeaves store t n = some L ∧ (L.length : Int) ≤ n := by
  unfold GetNLeaves
  cases hroot : t.Root with
  | none => exact ⟨[], rfl, by simp; omega⟩
  | some r =>
    obtain ⟨L, hL⟩ := getNLeavesRecursive_total hs n (store.length + 1) r [] (hr r hroot)
      (by omega)
    refine ⟨L, hL, getNLeavesRecursive_bound store n _ r [] L hL ?_⟩
    simp only [List.length_nil, Nat.cast_zero]
    omega

theorem leaf_bound_witness :
    StoreOK [⟨[1], none, emptyQueue⟩, ⟨[], some 0, pendingQueue⟩] ∧
    (∀ r, (⟨some 0⟩ : OpQueueTree).Root = some r →
      r < [(⟨[1], none, emptyQueue⟩ : TreeNode), ⟨[], some 0, pendingQueue⟩].length) ∧
    (1 : Int) ≤ 1 ∧
    ∃ L, GetNLeaves [⟨[1], none, emptyQueue⟩, ⟨[], some 0, pendingQueue⟩] ⟨some 0⟩ 1 = some L ∧
      (L.length : Int) ≤ 1 :=
  ⟨storeOK_two, by intro r h; cases h; decide, by decide,
    leaf_bound _ ⟨some 0⟩ 1 storeOK_two (by intro r h; cases h; decide) (by decide)⟩

/-! ## Operations: equality and canonical key; AddChild -/

/-- C29. Operation equality: for all operations `op1` and `op2`,
`op1.IsEqual(op2)` is true if and only if their kinds are equal, their paths
are equal, and their old values and their new values are equal under the
value comparison `IsEqual`. -/
theorem operation_isEqual_iff (op1 op2 : Operation) :
    op1.IsEqual op2 = true ↔
      op1.Op = op2.Op ∧ op1.Path = op2.Path ∧ IsEqual op1.Old op2.Old = true ∧
        IsEqual op1.New op2.New = true := by
  simp only [Operation.IsEqual, Bool.and_eq_true, beq_iff_eq]
  tauto

/-- C30. Canonical key: for every operation, `ToString()` is the decimal
ordinal of its kind (CREATE = 0, READ = 1, UPDATE = 2, DELETE = 3), then `:`,
then its path; it is the same whatever the old and new values are; an UPDATE
at the path `[example]` gives `2:[example]`. -/
theorem toString_canonical (op : Operation) :
    op.ToString = Itoa op.Op.toInt ++ ":" ++ op.Path ∧
    op.ToString =
      (match op.Op with
        | .CREATE => "0"
        | .READ => "1"
        | .UPDATE => "2"
        | .DELETE => "3") ++ ":" ++ op.Path ∧
    (OpType.CREATE.toInt = 0 ∧ OpType.READ.toInt = 1 ∧ OpType.UPDATE.toInt = 2 ∧
      OpType.DELETE.toInt = 3) ∧
    (∀ old new : Value, (Operation.mk op.Op op.Path old new).ToString = op.ToString) ∧
    (∀ old new : Value,
      (Operation.mk OpType.UPDATE "[example]" old new).ToString = "2:[example]") := by
  refine ⟨rfl, ?_, ⟨rfl, rfl, rfl, rfl⟩, fun _ _ => rfl, fun _ _ => ?_⟩
  · cases op with
    | mk o p a b =>
      cases o <;>
        simp only [Operation.ToString, OpType.toInt] <;>
        congr 1
  · simp only [Operation.ToString, OpType.toInt]
    decide

/-- C23. `AddChild` appends one new leaf and changes nothing else: for every
store, allocated node `p` and queue `s`, `AddChild(s, p)` returns a newly
allocated node that holds `s`, has no children and has `p` as parent;
afterwards the children of `p` are its previous children in the same order
followed by the new node, the queue and the parent of `p` are as before, and
every other node that existed before is unchanged. -/
theorem addChild_frame (store : List TreeNode) (s : Option OpQueue) (p : Nat) (nd : TreeNode)
    (hp : store[p]? = some nd) :
    ∃ store', AddChild store s (some p) = some (store.length, store') ∧
      store'.length = store.length + 1 ∧
      store'[store.length]? = some ⟨[], some p, s⟩ ∧
      store'[p]? = some ⟨nd.children ++ [store.length], nd.parent, nd.val⟩ ∧
      ∀ q, q ≠ p → q < store.length → store'[q]? = store[q]? := by
  have hpl : p < store.length := (List.getElem?_eq_some.1 hp).1
  simp only [AddChild, hp, Option.some.injEq, Prod.mk.injEq, true_and, exists_eq_left']
  refine ⟨by simp, ?_, ?_, ?_⟩
  · rw [List.getElem?_append_right (by simp)]
    simp
  · rw [List.getElem?_append_left (by simpa using hpl), List.getElem?_set_self hpl]
  · intro q hq hql
    rw [List.getElem?_append_left (by simpa using hql), List.getElem?_set_ne (Ne.symm hq)]

theorem addChild_frame_witness :
    rootOnly[0]? = some ⟨[], none, pendingQueue⟩ ∧
    ∃ store', AddChild rootOnly emptyQueue (some 0) = some (rootOnly.length, store') ∧
      store'.length = rootOnly.length + 1 ∧
      store'[rootOnly.length]? = some ⟨[], some 0, emptyQueue⟩ ∧
      store'[0]? = some ⟨([] : List Nat) ++ [rootOnly.length], none, pendingQueue⟩ ∧
      ∀ q, q ≠ 0 → q < rootOnly.length → store'[q]? = rootOnly[q]? :=
  ⟨rfl, addChild_frame rootOnly emptyQueue 0 ⟨[], none, pendingQueue⟩ rfl⟩

/-! ## Queue and stack against their list models -/

theorem holds_peek {q : OpQueue} {x : Operation} {l : List Operation}
    (h : q.Holds (x :: l)) : q.Peek = some (some x) := by
  obtain ⟨hlen, ptrs, _, _, hch, hends⟩ := h
  obtain ⟨hfront, _⟩ := hends (by simp)
  have he : q.IsEmpty = false := by simp [OpQueue.IsEmpty, hlen]
  cases ptrs with
  | nil => simp [Chain] at hch
  | cons p ps =>
    simp only [Chain] at hch
    obtain ⟨⟨nd, hnd, hval, _⟩, _⟩ := hch
    simp only [List.head?_cons] at hfront
    simp [OpQueue.Peek, he, hfront, hnd, hval]

theorem holds_nil_of_isEmpty {q : OpQueue} (h : q.IsEmpty = true) : q.Holds [] := by
  refine ⟨by simpa [OpQueue.IsEmpty] using h, [], List.nodup_nil, ?_, ?_, ?_⟩
  · intro p hp; cases hp
  · simp [Chain]
  · intro h; exact absurd rfl h

theorem holds_isEmpty {q : OpQueue} {l : List Operation} (h : q.Holds l) :
    q.IsEmpty = true ↔ l = [] := by
  simp [OpQueue.IsEmpty, h.1]

/-- A run of calls on a queue that holds `l` does not panic, returns what the
first-in-first-out list returns and ends on a queue that holds the list at
the end. -/
theorem runQueue_refines : ∀ (cs : List Call) (q : OpQueue) (l : List Operation), q.Holds l →
    ∃ q', runQueue cs q = some ((queueModel cs l).1, q') ∧ q'.Holds (queueModel cs l).2
  | [], q, l, h => ⟨q, rfl, h⟩
  | .insert op :: cs, q, l, h => by
    obtain ⟨q1, h1, hq1⟩ := holds_enqueue op h
    obtain ⟨q2, h2, hq2⟩ := runQueue_refines cs q1 (l ++ [op]) hq1
    exact ⟨q2, by simp [runQueue, queueModel, h1, h2], by simpa [queueModel] using hq2⟩
  | .remove :: cs, q, l, h => by
    cases l with
    | nil =>
      have he : q.IsEmpty = true := (holds_isEmpty h).2 rfl
      obtain ⟨q2, h2, hq2⟩ := runQueue_refines cs q [] h
      exact ⟨q2, by simp [runQueue, queueModel, OpQueue.Dequeue, he, h2],
        by simpa [queueModel] using hq2⟩
    | cons x xs =>
      obtain ⟨q1, h1, hq1⟩ := holds_dequeue h
      obtain ⟨q2, h2, hq2⟩ := runQueue_refines cs q1 xs hq1
      exact ⟨q2, by simp [runQueue, queueModel, h1, h2], by simpa [queueModel] using hq2⟩
  | .peek :: cs, q, l, h => by
    obtain ⟨q2, h2, hq2⟩ := runQueue_refines cs q l h
    cases l with
    | nil =>
      have he : q.IsEmpty = true := (holds_isEmpty h).2 rfl
      exact ⟨q2, by simp [runQueue, queueModel, OpQueue.Peek, he, h2],
        by simpa [queueModel] using hq2⟩
    | cons x xs =>
      exact ⟨q2, by simp [runQueue, queueModel, holds_peek h, h2],
        by simpa [queueModel] using hq2⟩

theorem stackChain_append {nodes : List stackNode} (extra : List stackNode) :
    ∀ (l : List Operation) (top : Option Nat), StackChain nodes top l →
      StackChain (nodes ++ extra) top l
  | [], _, _ => by simp [StackChain]
  | x :: xs, top, h => by
    simp only [StackChain] at h ⊢
    obtain ⟨p, nd, htop, hnd, hval, hrest⟩ := h
    refine ⟨p, nd, htop, ?_, hval, stackChain_append extra xs nd.prev hrest⟩
    rw [List.getElem?_append_left (List.getElem?_eq_some.1 hnd).1]
    exact hnd

theorem stack_holds_new : NewOpStack.Holds [] := ⟨rfl, by simp [StackChain]⟩

theorem stack_holds_nil_of_isEmpty {s : OpStack} (h : s.IsEmpty = true) : s.Holds [] :=
  ⟨by simpa [OpStack.IsEmpty] using h, by simp [StackChain]⟩

theorem stack_holds_isEmpty {s : OpStack} {l : List Operation} (h : s.Holds l) :
    s.IsEmpty = true ↔ l = [] := by
  simp [OpStack.IsEmpty, h.1]

theorem stack_holds_push {s : OpStack} {l : List Operation} (op : Operation) (h : s.Holds l) :
    (s.Push op).Holds (op :: l) := by
  refine ⟨by simp [OpStack.Push, h.1], ?_⟩
  simp only [OpStack.Push, StackChain]
  refine ⟨s.nodes.length, ⟨op, s.top⟩, rfl, by simp, rfl, ?_⟩
  exact stackChain_append _ l s.top h.2

theorem stack_holds_pop {s : OpStack} {x : Operation} {l : List Operation}
    (h : s.Holds (x :: l)) : ∃ s', s.Pop = some (some x, s') ∧ s'.Holds l := by
  obtain ⟨hlen, hch⟩ := h
  have he : s.IsEmpty = false := by simp [OpStack.IsEmpty, hlen]
  simp only [StackChain] at hch
  obtain ⟨p, nd, htop, hnd, hval, hrest⟩ := hch
  refine ⟨⟨s.nodes, nd.prev, s.length - 1⟩, by simp [OpStack.Pop, he, htop, hnd, hval], ?_, hrest⟩
  simp [hlen]

theorem stack_holds_peek {s : OpStack} {x : Operation} {l : List Operation}
    (h : s.Holds (x :: l)) : s.Peek = some (some x) := by
  obtain ⟨hlen, hch⟩ := h
  have he : s.IsEmpty = false := by simp [OpStack.IsEmpty, hlen]
  simp only [StackChain] at hch
  obtain ⟨p, nd, htop, hnd, hval, _⟩ := hch
  simp [OpStack.Peek, he, htop, hnd, hval]

/-- A run of calls on a stack that holds `l` does not panic, returns what the
last-in-first-out list returns and ends on a stack that holds the list at the
end. -/
theorem runStack_refines : ∀ (cs : List Call) (s : OpStack) (l : List Operation), s.Holds l →
    ∃ s', runStack cs s = some ((stackModel cs l).1, s') ∧ s'.Holds (stackModel cs l).2
  | [], s, l, h => ⟨s, rfl, h⟩
  | .insert op :: cs, s, l, h => by
    obtain ⟨s2, h2, hs2⟩ := runStack_refines cs (s.Push op) (op :: l) (stack_holds_push op h)
    exact ⟨s2, by simp [runStack, stackModel, h2], by simpa [stackModel] using hs2⟩
  | .remove :: cs, s, l, h => by
    cases l with
    | nil =>
      have he : s.IsEmpty = true := (stack_holds_isEmpty h).2 rfl
      obtain ⟨s2, h2, hs2⟩ := runStack_refines cs s [] h
      exact ⟨s2, by simp [runStack, stackModel, OpStack.Pop, he, h2],
        by simpa [stackModel] using hs2⟩
    | cons x xs =>
      obtain ⟨s1, h1, hs1⟩ := stack_holds_pop h
      obtain ⟨s2, h2, hs2⟩ := runStack_refines cs s1 xs hs1
      exact ⟨s2, by simp [runStack, stackModel, h1, h2], by simpa [stackModel] using hs2⟩
  | .peek :: cs, s, l, h => by
    obtain ⟨s2, h2, hs2⟩ := runStack_refines cs s l h
    cases l with
    | nil =>
      have he : s.IsEmpty = true := (stack_holds_isEmpty h).2 rfl
      exact ⟨s2, by simp [runStack, stackModel, OpStack.Peek, he, h2],
        by simpa [stackModel] using hs2⟩
    | cons x xs =>
      exact ⟨s2, by simp [runStack, stackModel, stack_holds_peek h, h2],
        by simpa [stackModel] using hs2⟩

/-! ### The list models on the call sequences of the laws -/

theorem queueModel_append : ∀ (a b : List Call) (l : List Operation),
    queueModel (a ++ b) l =
      ((queueModel a l).1 ++ (queueModel b (queueModel a l).2).1,
        (queueModel b (queueModel a l).2).2)
  | [], b, l => by simp [queueModel]
  | .insert op :: a, b, l => by simp [queueModel, queueModel_append a b]
  | .remove :: a, b, l => by simp [queueModel, queueModel_append a b]
  | .peek :: a, b, l => by simp [queueModel, queueModel_append a b]

theorem stackModel_append : ∀ (a b : List Call) (l : List Operation),
    stackModel (a ++ b) l =
      ((stackModel a l).1 ++ (stackModel b (stackModel a l).2).1,
        (stackModel b (stackModel a l).2).2)
  | [], b, l => by simp [stackModel]
  | .insert op :: a, b, l => by simp [stackModel, stackModel_append a b]
  | .remove :: a, b, l => by simp [stackModel, stackModel_append a b]
  | .peek :: a, b, l => by simp [stackModel, stackModel_append a b]

theorem queueModel_inserts : ∀ (ops l : List Operation),
    queueModel (ops.map Call.insert) l = ([], l ++ ops)
  | [], l => by simp [queueModel]
  | op :: ops, l => by simp [queueModel, queueModel_inserts ops]

theorem stackModel_inserts : ∀ (ops l : List Operation),
    stackModel (ops.map Call.insert) l = ([], ops.reverse ++ l)
  | [], l => by simp [stackModel]
  | op :: ops, l => by simp [stackModel, stackModel_inserts ops]

theorem queueModel_removes : ∀ (l : List Operation),
    queueModel (List.replicate l.length Call.remove) l = (l.map some, [])
  | [] => by simp [queueModel]
  | x :: xs => by simp [List.replicate_succ, queueModel, queueModel_removes xs]

theorem stackModel_removes : ∀ (l : List Operation),
    stackModel (List.replicate l.length Call.remove) l = (l.map some, [])
  | [] => by simp [stackModel]
  | x :: xs => by simp [List.replicate_succ, stackModel, stackModel_removes xs]

theorem queueModel_length : ∀ (cs : List Call) (l : List Operation),
    noUnderflow cs l.length = true →
      (((queueModel cs l).2.length : Nat) : Int) = l.length + countInsert cs - countRemove cs
  | [], l, _ => by simp [queueModel, countInsert, countRemove]
  | .insert op :: cs, l, h => by
    simp only [noUnderflow] at h
    have := queueModel_length cs (l ++ [op]) (by simpa using h)
    simp only [queueModel, countInsert, countRemove, this, List.length_append,
      List.length_singleton]
    push_cast
    ring
  | .remove :: cs, l, h => by
    simp only [noUnderflow, Bool.and_eq_true, bne_iff_ne, ne_eq] at h
    have := queueModel_length cs l.tail (by simpa using h.2)
    simp only [queueModel, countInsert, countRemove, this, List.length_tail]
    have h0 : 1 ≤ l.length := Nat.one_le_iff_ne_zero.2 h.1
    push_cast [h0]
    ring
  | .peek :: cs, l, h => by
    simp only [noUnderflow] at h
    simpa [queueModel, countInsert, countRemove] using queueModel_length cs l h

theorem stackModel_length : ∀ (cs : List Call) (l : List Operation),
    noUnderflow cs l.length = true →
      (((stackModel cs l).2.length : Nat) : Int) = l.length + countInsert cs - countRemove cs
  | [], l, _ => by simp [stackModel, countInsert, countRemove]
  | .insert op :: cs, l, h => by
    simp only [noUnderflow] at h
    have := stackModel_length cs (op :: l) (by simpa using h)
    simp only [stackModel, countInsert, countRemove, this, List.length_cons]
    push_cast
    ring
  | .remove :: cs, l, h => by
    simp only [noUnderflow, Bool.and_eq_true, bne_iff_ne, ne_eq] at h
    have := stackModel_length cs l.tail (by simpa using h.2)
    simp only [stackModel, countInsert, countRemove, this, List.length_tail]
    have h0 : 1 ≤ l.length := Nat.one_le_iff_ne_zero.2 h.1
    push_cast [h0]
    ring
  | .peek :: cs, l, h => by
    simp only [noUnderflow] at h
    simpa [stackModel, countInsert, countRemove] using stackModel_length cs l h

theorem stackModel_peekThenRemove : ∀ (l : List Operation),
    stackModel (peekThenRemove l.length) l = (l.flatMap fun op => [some op, some op], [])
  | [] => by simp [peekThenRemove, stackModel]
  | x :: xs => by
    simp [peekThenRemove, stackModel, stackModel_peekThenRemove xs]

/-! ## The laws of the queue and of the stack -/

/-- C24. FIFO law: for every sequence of operations `op1..opN`, the calls
`Enqueue(op1) .. Enqueue(opN)` on `NewOpQueue()` followed by `N` calls of
`Dequeue` do not panic, the `Dequeue` calls return `op1, .., opN` in exactly
that order, and the queue is empty at the end. -/
theorem fifo_law (ops : List Operation) :
    ∃ q, runQueue (ops.map Call.insert ++ List.replicate ops.length Call.remove) NewOpQueue =
        some (ops.map some, q) ∧ q.IsEmpty = true ∧ q.Len = 0 := by
  obtain ⟨q, hrun, hq⟩ := runQueue_refines
    (ops.map Call.insert ++ List.replicate ops.length Call.remove) NewOpQueue [] holds_new
  have hm : queueModel (ops.map Call.insert ++ List.replicate ops.length Call.remove) [] =
      (ops.map some, []) := by
    rw [queueModel_append, queueModel_inserts]
    simp [queueModel_removes]
  rw [hm] at hrun hq
  exact ⟨q, hrun, (holds_isEmpty hq).2 rfl, hq.1⟩

/-- C25. LIFO law: for every sequence of operations `op1..opN`, after the
calls `Push(op1) .. Push(opN)` on `NewOpStack()`, `N` calls of `Pop` return
`opN, .., op1` and leave the stack empty; and when each `Pop` is preceded by a
`Peek`, each `Peek` returns the operation that the `Pop` after it returns. -/
theorem lifo_law (ops : List Operation) :
    (∃ s, runStack (ops.map Call.insert ++ List.replicate ops.length Call.remove) NewOpStack =
        some (ops.reverse.map some, s) ∧ s.IsEmpty = true ∧ s.Len = 0) ∧
    (∃ s, runStack (ops.map Call.insert ++ peekThenRemove ops.length) NewOpStack =
        some (ops.reverse.flatMap (fun op => [some op, some op]), s) ∧
        s.IsEmpty = true ∧ s.Len = 0) := by
  constructor
  · obtain ⟨s, hrun, hs⟩ := runStack_refines
      (ops.map Call.insert ++ List.replicate ops.length Call.remove) NewOpStack []
      stack_holds_new
    have hm : stackModel (ops.map Call.insert ++ List.replicate ops.length Call.remove) [] =
        (ops.reverse.map some, []) := by
      rw [stackModel_append, stackModel_inserts]
      have := stackModel_removes ops.reverse
      simp only [List.length_reverse] at this
      simp [this]
    rw [hm] at hrun hs
    exact ⟨s, hrun, (stack_holds_isEmpty hs).2 rfl, hs.1⟩
  · obtain ⟨s, hrun, hs⟩ := runStack_refines
      (ops.map Call.insert ++ peekThenRemove ops.length) NewOpStack [] stack_holds_new
    have hm : stackModel (ops.map Call.insert ++ peekThenRemove ops.length) [] =
        (ops.reverse.flatMap (fun op => [some op, some op]), []) := by
      rw [stackModel_append, stackModel_inserts]
      have := stackModel_peekThenRemove ops.reverse
      simp only [List.length_reverse] at this
      simp [this]
    rw [hm] at hrun hs
    exact ⟨s, hrun, (stack_holds_isEmpty hs).2 rfl, hs.1⟩

/-- C26, as stated, fails when a removal is called on an empty container:
the call returns nil and the length stays 0.  After `Dequeue` then
`Enqueue(op)` on a new queue there have been one insertion and one removal
and `Len()` is 1, not 0; after a lone `Dequeue` it is 0, not -1.  The same
holds for `Pop` and `Push` on a new stack. -/
theorem length_law_counterexample :
    (runQueue [Call.remove, Call.insert opHello] NewOpQueue).map (fun r => (r.2.Len : Int)) =
      some 1 ∧
    (runStack [Call.remove, Call.insert opHello] NewOpStack).map (fun r => (r.2.Len : Int)) =
      some 1 ∧
    (countInsert [Call.remove, Call.insert opHello] : Int) -
      countRemove [Call.remove, Call.insert opHello] = 0 ∧
    (runQueue [Call.remove] NewOpQueue).map (fun r => (r.2.Len : Int)) = some 0 ∧
    (runStack [Call.remove] NewOpStack).map (fun r => (r.2.Len : Int)) = some 0 ∧
    (countInsert [Call.remove] : Int) - countRemove [Call.remove] = -1 := by
  decide

/-- C26, amended. Length law: for an `OpQueue`, and likewise an `OpStack`,
created empty, after any sequence of calls with `N` insertions and `K`
removals in which no removal is called on an empty container, `Len()` equals
`N - K`; and `IsEmpty()` is true exactly when `Len()` is 0. -/
theorem length_law (calls : List Call) (h : noUnderflow calls 0 = true) :
    (∃ outs q, runQueue calls NewOpQueue = some (outs, q) ∧
      (q.Len : Int) = (countInsert calls : Int) - countRemove calls ∧
      (q.IsEmpty = true ↔ q.Len = 0)) ∧
    (∃ outs s, runStack calls NewOpStack = some (outs, s) ∧
      (s.Len : Int) = (countInsert calls : Int) - countRemove calls ∧
      (s.IsEmpty = true ↔ s.Len = 0)) := by
  constructor
  · obtain ⟨q, hrun, hq⟩ := runQueue_refines calls NewOpQueue [] holds_new
    refine ⟨_, q, hrun, ?_, by simp [OpQueue.IsEmpty, OpQueue.Len]⟩
    have := queueModel_length calls [] (by simpa using h)
    simp only [OpQueue.Len, hq.1, this]
    simp
  · obtain ⟨s, hrun, hs⟩ := runStack_refines calls NewOpStack [] stack_holds_new
    refine ⟨_, s, hrun, ?_, by simp [OpStack.IsEmpty, OpStack.Len]⟩
    have := stackModel_length calls [] (by simpa using h)
    simp only [OpStack.Len, hs.1, this]
    simp

theorem length_law_witness :
    noUnderflow [Call.insert opHello, Call.insert opWorld, Call.peek, Call.remove] 0 = true ∧
    (∃ outs q,
      runQueue [Call.insert opHello, Call.insert opWorld, Call.peek, Call.remove] NewOpQueue =
        some (outs, q) ∧
      (q.Len : Int) =
        (countInsert [Call.insert opHello, Call.insert opWorld, Call.peek, Call.remove] : Int) -
          countRemove [Call.insert opHello, Call.insert opWorld, Call.peek, Call.remove] ∧
      (q.IsEmpty = true ↔ q.Len = 0)) ∧
    (∃ outs s,
      runStack [Call.insert opHello, Call.insert opWorld, Call.peek, Call.remove] NewOpStack =
        some (outs, s) ∧
      (s.Len : Int) =
        (countInsert [Call.insert opHello, Call.insert opWorld, Call.peek, Call.remove] : Int) -
          countRemove [Call.insert opHello, Call.insert opWorld, Call.peek, Call.remove] ∧
      (s.IsEmpty = true ↔ s.Len = 0)) :=
  ⟨by decide,
    length_law [Call.insert opHello, Call.insert opWorld, Call.peek, Call.remove] (by decide)⟩

/-- C27. Underflow is not an error: on an empty `OpQueue`, `Dequeue` and
`Peek` return nil without a panic, and on an empty `OpStack` so do `Pop` and
`Peek`; the container afterwards is the one before (still empty, `Len()` 0);
and every later sequence of calls returns the same values and ends with the
same length as on a freshly created container. -/
theorem underflow_not_error (q : OpQueue) (s : OpStack) (hq : q.IsEmpty = true)
    (hs : s.IsEmpty = true) :
    (q.Dequeue = some (none, q) ∧ q.Peek = some none ∧ q.Len = 0) ∧
    (s.Pop = some (none, s) ∧ s.Peek = some none ∧ s.Len = 0) ∧
    (∀ calls : List Call,
      (runQueue calls q).map (fun r => (r.1, r.2.Len)) =
        (runQueue calls NewOpQueue).map (fun r => (r.1, r.2.Len)) ∧
      (runQueue (Call.remove :: Call.peek :: calls) q).map (fun r => (r.1, r.2.Len)) =
        (runQueue calls NewOpQueue).map (fun r => (none :: none :: r.1, r.2.Len))) ∧
    (∀ calls : List Call,
      (runStack calls s).map (fun r => (r.1, r.2.Len)) =
        (runStack calls NewOpStack).map (fun r => (r.1, r.2.Len)) ∧
      (runStack (Call.remove :: Call.peek :: calls) s).map (fun r => (r.1, r.2.Len)) =
        (runStack calls NewOpStack).map (fun r => (none :: none :: r.1, r.2.Len))) := by
  have hqd : q.Dequeue = some (none, q) := by simp [OpQueue.Dequeue, hq]
  have hqp : q.Peek = some none := by simp [OpQueue.Peek, hq]
  have hsd : s.Pop = some (none, s) := by simp [OpStack.Pop, hs]
  have hsp : s.Peek = some none := by simp [OpStack.Peek, hs]
  have hqrun : ∀ calls : List Call,
      (runQueue calls q).map (fun r => (r.1, r.2.Len)) =
        (runQueue calls NewOpQueue).map (fun r => (r.1, r.2.Len)) := by
    intro calls
    obtain ⟨q1, h1, hq1⟩ := runQueue_refines calls q [] (holds_nil_of_isEmpty hq)
    obtain ⟨q2, h2, hq2⟩ := runQueue_refines calls NewOpQueue [] holds_new
    simp [h1, h2, OpQueue.Len, hq1.1, hq2.1]
  have hsrun : ∀ calls : List Call,
      (runStack calls s).map (fun r => (r.1, r.2.Len)) =
        (runStack calls NewOpStack).map (fun r => (r.1, r.2.Len)) := by
    intro calls
    obtain ⟨s1, h1, hs1⟩ := runStack_refines calls s [] (stack_holds_nil_of_isEmpty hs)
    obtain ⟨s2, h2, hs2⟩ := runStack_refines calls NewOpStack [] stack_holds_new
    simp [h1, h2, OpStack.Len, hs1.1, hs2.1]
  refine ⟨⟨hqd, hqp, by simpa [OpQueue.IsEmpty, OpQueue.Len] using hq⟩,
    ⟨hsd, hsp, by simpa [OpStack.IsEmpty, OpStack.Len] using hs⟩, ?_, ?_⟩
  · intro calls
    refine ⟨hqrun calls, ?_⟩
    have := hqrun calls
    obtain ⟨q1, h1, hq1⟩ := runQueue_refines calls q [] (holds_nil_of_isEmpty hq)
    obtain ⟨q2, h2, hq2⟩ := runQueue_refines calls NewOpQueue [] holds_new
    simp [runQueue, hqd, hqp, h1, h2, OpQueue.Len, hq1.1, hq2.1]
  · intro calls
    refine ⟨hsrun calls, ?_⟩
    obtain ⟨s1, h1, hs1⟩ := runStack_refines calls s [] (stack_holds_nil_of_isEmpty hs)
    obtain ⟨s2, h2, hs2⟩ := runStack_refines calls NewOpStack [] stack_holds_new
    simp [runStack, hsd, hsp, h1, h2, OpStack.Len, hs1.1, hs2.1]

theorem underflow_not_error_witness :
    drainedQueue.IsEmpty = true ∧ drainedStack.IsEmpty = true ∧
    (drainedQueue.Dequeue = some (none, drainedQueue) ∧ drainedQueue.Peek = some none ∧
      drainedQueue.Len = 0) ∧
    (drainedStack.Pop = some (none, drainedStack) ∧ drainedStack.Peek = some none ∧
      drainedStack.Len = 0) ∧
    (∀ calls : List Call,
      (runQueue calls drainedQueue).map (fun r => (r.1, r.2.Len)) =
        (runQueue calls NewOpQueue).map (fun r => (r.1, r.2.Len)) ∧
      (runQueue (Call.remove :: Call.peek :: calls) drainedQueue).map
          (fun r => (r.1, r.2.Len)) =
        (runQueue calls NewOpQueue).map (fun r => (none :: none :: r.1, r.2.Len))) ∧
    (∀ calls : List Call,
      (runStack calls drainedStack).map (fun r => (r.1, r.2.Len)) =
        (runStack calls NewOpStack).map (fun r => (r.1, r.2.Len)) ∧
      (runStack (Call.remove :: Call.peek :: calls) drainedStack).map
          (fun r => (r.1, r.2.Len)) =
        (runStack calls NewOpStack).map (fun r => (none :: none :: r.1, r.2.Len))) :=
  ⟨rfl, rfl, underflow_not_error drainedQueue drainedStack rfl rfl⟩

/-- C28. `Peek` does not remove: for every queue `q` that a sequence of calls
on `NewOpQueue()` has produced and that is not empty, `Peek` returns the
oldest operation still in the queue, which is the one that the next `Dequeue`
returns; `Peek` writes nothing, so the queue after it is `q` itself, with the
same contents, order and `Len()`, and a `Dequeue` after the `Peek` returns the
same operation. -/
theorem peek_does_not_remove (calls : List Call) (outs : List (Option Operation))
    (q : OpQueue) (hrun : runQueue calls NewOpQueue = some (outs, q))
    (hne : q.IsEmpty = false) :
    ∃ x l q', q.contents = some (x :: l) ∧ q.Len = (x :: l).length ∧
      q.Peek = some (some x) ∧
      runQueue [Call.peek] q = some ([some x], q) ∧
      q.Dequeue = some (some x, q') ∧ q'.contents = some l ∧ q'.Len = l.length ∧
      runQueue [Call.peek, Call.remove] q = some ([some x, some x], q') := by
  obtain ⟨q0, h0, hq0⟩ := runQueue_refines calls NewOpQueue [] holds_new
  rw [hrun] at h0
  simp only [Option.some.injEq, Prod.mk.injEq] at h0
  obtain ⟨_, rfl⟩ := h0
  cases hl : (queueModel calls []).2 with
  | nil =>
    rw [hl] at hq0
    have := (holds_isEmpty hq0).2 rfl
    rw [hne] at this
    cases this
  | cons x l =>
    rw [hl] at hq0
    obtain ⟨q', hd, hq'⟩ := holds_dequeue hq0
    have hp := holds_peek hq0
    refine ⟨x, l, q', holds_contents hq0, hq0.1, hp, ?_, hd, holds_contents hq', hq'.1, ?_⟩
    · simp [runQueue, hp]
    · simp [runQueue, hp, hd]

theorem peek_does_not_remove_witness :
    runQueue [Call.insert opHello, Call.insert opWorld] NewOpQueue = some ([], twoQueue) ∧
    twoQueue.IsEmpty = false ∧
    ∃ x l q', twoQueue.contents = some (x :: l) ∧ twoQueue.Len = (x :: l).length ∧
      twoQueue.Peek = some (some x) ∧
      runQueue [Call.peek] twoQueue = some ([some x], twoQueue) ∧
      twoQueue.Dequeue = some (some x, q') ∧ q'.contents = some l ∧ q'.Len = l.length ∧
      runQueue [Call.peek, Call.remove] twoQueue = some ([some x, some x], q') :=
  ⟨rfl, rfl,
    peek_does_not_remove [Call.insert opHello, Call.insert opWorld] [] twoQueue rfl rfl⟩

/-! ## The leaves that GetNLeaves returns -/

theorem storeOK_of_check {store : List TreeNode} (h : checkStore store = true) :
    StoreOK store := by
  intro p nd hp c hc
  have hpl : p < store.length := (List.getElem?_eq_some.1 hp).1
  simp only [checkStore, List.all_eq_true, List.mem_range] at h
  have h1 := h p hpl
  rw [hp] at h1
  simp only [List.all_eq_true, Bool.and_eq_true, decide_eq_true_eq] at h1
  exact h1 c hc

theorem leavesOfChildren_take {call : Nat → List Nat → Option (List Nat)} {n : Int}
    {leaves : Nat → List Nat} :
    ∀ (cs : List Nat),
      (∀ c ∈ cs, ∀ cur : List Nat, (cur.length : Int) < n →
        call c cur = some (cur ++ (leaves c).take (n.toNat - cur.length))) →
      ∀ cur : List Nat, (cur.length : Int) < n →
        leavesOfChildren call n cs cur =
          some (cur ++ (cs.flatMap leaves).take (n.toNat - cur.length))
  | [], _, cur, _ => by simp [leavesOfChildren]
  | c :: cs, hc, cur, hlt => by
    have hcall := hc c (List.mem_cons_self _ _) cur hlt
    have hn : ((n.toNat : Nat) : Int) = n := Int.toNat_of_nonneg (by omega)
    simp only [leavesOfChildren, hcall, List.flatMap_cons]
    split_ifs with heq
    · have heq' : ((cur ++ (leaves c).take (n.toNat - cur.length)).length : Int) = n := by
        simpa using heq
      simp only [List.length_append, List.length_take, Nat.cast_add] at heq'
      have hle : n.toNat - cur.length ≤ (leaves c).length := by omega
      rw [List.take_append_of_le_length hle]
    · have hne : ((cur ++ (leaves c).take (n.toNat - cur.length)).length : Int) ≠ n := by
        simpa using heq
      simp only [List.length_append, List.length_take, Nat.cast_add] at hne
      have hlt2 : (leaves c).length < n.toNat - cur.length := by omega
      have htake : (leaves c).take (n.toNat - cur.length) = leaves c :=
        List.take_of_length_le (le_of_lt hlt2)
      rw [htake]
      have hlt3 : (((cur ++ leaves c).length : Nat) : Int) < n := by
        simp only [List.length_append, Nat.cast_add]
        omega
      rw [leavesOfChildren_take cs (fun d hd => hc d (List.mem_cons_of_mem _ hd))
        (cur ++ leaves c) hlt3]
      rw [List.take_append_eq_append_take, htake, List.append_assoc]
      have hk : n.toNat - (cur ++ leaves c).length = n.toNat - cur.length - (leaves c).length := by
        simp only [List.length_append]
        omega
      rw [hk]

theorem getNLeavesRecursive_take {store : List TreeNode} (hs : StoreOK store) (n : Int) :
    ∀ (fuel node : Nat) (cur : List Nat), node < store.length → store.length ≤ fuel + node →
      (cur.length : Int) < n →
      getNLeavesRecursive fuel store n node cur =
        some (cur ++ (subtreeLeaves fuel store node).take (n.toNat - cur.length))
  | 0, node, _, hlt, hle, _ => by omega
  | fuel + 1, node, cur, hlt, hle, hn => by
    have hnd : store[node]? = some store[node] := List.getElem?_eq_getElem hlt
    simp only [getNLeavesRecursive, subtreeLeaves, hnd]
    split_ifs with hleaf
    · have hk : 1 ≤ n.toNat - cur.length := by omega
      rw [List.take_of_length_le (by simpa using hk)]
    · refine leavesOfChildren_take _ (fun c hc cur' hn' => ?_) cur hn
      have := hs node _ hnd c hc
      exact getNLeavesRecursive_take hs n fuel c cur' this.2 (by omega) hn'

theorem leavesOfChildren_mem {call : Nat → List Nat → Option (List Nat)} {n : Int}
    {P : Nat → Prop} :
    ∀ (cs : List Nat),
      (∀ c ∈ cs, ∀ cur L, call c cur = some L → ∀ x ∈ L, x ∈ cur ∨ P x) →
      ∀ cur L, leavesOfChildren call n cs cur = some L → ∀ x ∈ L, x ∈ cur ∨ P x
  | [], _, cur, L, h, x, hx => by
    simp only [leavesOfChildren, Option.some.injEq] at h
    subst h
    exact Or.inl hx
  | c :: cs, hc, cur, L, h, x, hx => by
    simp only [leavesOfChildren] at h
    cases hcall : call c cur with
    | none => simp [hcall] at h
    | some cur' =>
      have hb := hc c (List.mem_cons_self _ _) cur cur' hcall
      simp only [hcall] at h
      split_ifs at h with heq
      · simp only [Option.some.injEq] at h
        subst h
        exact hb x hx
      · rcases leavesOfChildren_mem cs (fun d hd => hc d (List.mem_cons_of_mem _ hd)) cur' L h
          x hx with h1 | h1
        · exact hb x h1
        · exact Or.inr h1

theorem getNLeavesRecursive_mem (store : List TreeNode) (n : Int) :
    ∀ (fuel node : Nat) (cur L : List Nat),
      getNLeavesRecursive fuel store n node cur = some L →
      ∀ x ∈ L, x ∈ cur ∨ isLeaf store x = true
  | 0, _, _, _, h, _, _ => by simp [getNLeavesRecursive] at h
  | fuel + 1, node, cur, L, h, x, hx => by
    simp only [getNLeavesRecursive] at h
    cases hnd : store[node]? with
    | none => simp [hnd] at h
    | some nd =>
      simp only [hnd] at h
      split_ifs at h with hleaf
      · simp only [Option.some.injEq] at h
        subst h
        rcases List.mem_append.1 hx with h1 | h1
        · exact Or.inl h1
        · simp only [List.mem_singleton] at h1
          subst h1
          exact Or.inr (by simp only [isLeaf, hnd]; exact hleaf)
      · exact leavesOfChildren_mem nd.children
          (fun c _ cur' L' hc => getNLeavesRecursive_mem store n fuel c cur' L' hc) cur L h x hx

theorem flatMap_filter_congr {f g : Nat → List Nat} {p : Nat → Bool} :
    ∀ (cs : List Nat), (∀ c ∈ cs, f c = (g c).filter p) →
      cs.flatMap f = (cs.flatMap g).filter p
  | [], _ => by simp
  | c :: cs, h => by
    simp only [List.flatMap_cons, List.filter_append]
    rw [h c (List.mem_cons_self _ _),
      flatMap_filter_congr cs (fun d hd => h d (List.mem_cons_of_mem _ hd))]

theorem subtreeLeaves_eq_filter (store : List TreeNode) :
    ∀ (fuel node : Nat),
      subtreeLeaves fuel store node = (subtreeNodes fuel store node).filter (isLeaf store)
  | 0, _ => by simp [subtreeLeaves, subtreeNodes]
  | fuel + 1, node => by
    cases hnd : store[node]? with
    | none => simp [subtreeLeaves, subtreeNodes, hnd]
    | some nd =>
      have hl : isLeaf store node = (nd.children.length == 0) := by simp only [isLeaf, hnd]
      simp only [subtreeLeaves, subtreeNodes, hnd, List.filter_cons, hl]
      split_ifs with hleaf
      · have : nd.children = [] := by simpa using hleaf
        simp [this]
      · exact flatMap_filter_congr nd.children
          (fun c _ => subtreeLeaves_eq_filter store fuel c)

theorem treeLeaves_eq_filter (store : List TreeNode) (t : OpQueueTree) :
    treeLeaves store t = (treeNodes store t).filter (isLeaf store) := by
  unfold treeLeaves treeNodes
  cases t.Root with
  | none => simp
  | some r => exact subtreeLeaves_eq_filter store _ r

theorem subtreeLeaves_ne_nil {store : List TreeNode} (hs : StoreOK store) :
    ∀ (fuel node : Nat), node < store.length → store.length ≤ fuel + node →
      subtreeLeaves fuel store node ≠ []
  | 0, node, hlt, hle => by omega
  | fuel + 1, node, hlt, hle => by
    have hnd : store[node]? = some store[node] := List.getElem?_eq_getElem hlt
    simp only [subtreeLeaves, hnd]
    split_ifs with hleaf
    · simp
    · cases hch : (store[node]).children with
      | nil => simp [hch] at hleaf
      | cons c cs =>
        have := hs node _ hnd c (by simp [hch])
        have ih := subtreeLeaves_ne_nil hs fuel c this.2 (by omega)
        simp [List.flatMap_cons, ih]

/-- For `n` of at least 1, `GetNLeaves(n)` returns the first `n` leaves of the
tree in depth-first order, all of them if there are fewer. -/
theorem getNLeaves_take {store : List TreeNode} (hs : StoreOK store) (t : OpQueueTree)
    (hr : ∀ r, t.Root = some r → r < store.length) {n : Int} (hn : 1 ≤ n) :
    GetNLeaves store t n = some ((treeLeaves store t).take n.toNat) := by
  unfold GetNLeaves treeLeaves
  cases hroot : t.Root with
  | none => simp
  | some r =>
    have := getNLeavesRecursive_take hs n (store.length + 1) r [] (hr r hroot) (by omega)
      (by simp only [List.length_nil, Nat.cast_zero]; omega)
    simpa using this

/-- C21. `GetNLeaves` returns only leaves, and all of them when `n` is large
enough: for every tree (of a store built by allocation and `AddChild`, the
root being an allocated node or nil) and every `n`, `GetNLeaves(n)` returns
and every node it returns has no children; when `n` is at least the number of
leaves, it returns exactly the leaves of the tree in depth-first order, which
are the nodes of the tree without children, each once when the nodes of the
tree are distinct.  On an empty tree (nil root) it returns the empty list and
`Prune` leaves the store as it is. -/
theorem getNLeaves_only_and_all_leaves (store : List TreeNode) (t : OpQueueTree) (n : Int)
    (hs : StoreOK store) (hr : ∀ r, t.Root = some r → r < store.length) :
    (∃ L, GetNLeaves store t n = some L ∧ ∀ x ∈ L, isLeaf store x = true) ∧
    (((treeLeaves store t).length : Int) ≤ n →
      GetNLeaves store t n = some (treeLeaves store t)) ∧
    (∀ x, x ∈ treeLeaves store t ↔ x ∈ treeNodes store t ∧ isLeaf store x = true) ∧
    ((treeNodes store t).Nodup → (treeLeaves store t).Nodup) ∧
    (∀ (store' : List TreeNode) (n' : Int),
      GetNLeaves store' NewOpQueueTree n' = some [] ∧
        Prune store' NewOpQueueTree = some store') := by
  refine ⟨?_, ?_, ?_, ?_, fun _ _ => ⟨rfl, rfl⟩⟩
  · unfold GetNLeaves
    cases hroot : t.Root with
    | none => exact ⟨[], rfl, by simp⟩
    | some r =>
      obtain ⟨L, hL⟩ := getNLeavesRecursive_total hs n (store.length + 1) r [] (hr r hroot)
        (by omega)
      refine ⟨L, hL, fun x hx => ?_⟩
      rcases getNLeavesRecursive_mem store n _ r [] L hL x hx with h | h
      · cases h
      · exact h
  · intro hle
    cases hroot : t.Root with
    | none => simp [GetNLeaves, treeLeaves, hroot]
    | some r =>
      have hne : treeLeaves store t ≠ [] := by
        simp only [treeLeaves, hroot]
        exact subtreeLeaves_ne_nil hs _ r (hr r hroot) (by omega)
      have hpos : 1 ≤ (treeLeaves store t).length :=
        Nat.one_le_iff_ne_zero.2 (by simpa using hne)
      have hn : 1 ≤ n := by omega
      rw [getNLeaves_take hs t hr hn, List.take_of_length_le (by omega)]
  · intro x
    rw [treeLeaves_eq_filter, List.mem_filter]
  · intro hnd
    rw [treeLeaves_eq_filter]
    exact hnd.filter _

theorem getNLeaves_only_and_all_leaves_witness :
    StoreOK complexTree ∧
    (∀ r, (⟨some 0⟩ : OpQueueTree).Root = some r → r < complexTree.length) ∧
    (∃ L, GetNLeaves complexTree ⟨some 0⟩ 5 = some L ∧ ∀ x ∈ L, isLeaf complexTree x = true) ∧
    (((treeLeaves complexTree ⟨some 0⟩).length : Int) ≤ 5 →
      GetNLeaves complexTree ⟨some 0⟩ 5 = some (treeLeaves complexTree ⟨some 0⟩)) ∧
    (∀ x, x ∈ treeLeaves complexTree ⟨some 0⟩ ↔
      x ∈ treeNodes complexTree ⟨some 0⟩ ∧ isLeaf complexTree x = true) ∧
    ((treeNodes complexTree ⟨some 0⟩).Nodup → (treeLeaves complexTree ⟨some 0⟩).Nodup) ∧
    (∀ (store' : List TreeNode) (n' : Int),
      GetNLeaves store' NewOpQueueTree n' = some [] ∧
        Prune store' NewOpQueueTree = some store') :=
  ⟨storeOK_of_check (by decide), by intro r h; cases h; decide,
    getNLeaves_only_and_all_leaves complexTree ⟨some 0⟩ 5 (storeOK_of_check (by decide))
      (by intro r h; cases h; decide)⟩

/-- C22. `GetNLeaves` is a prefix of the depth-first leaf order: for every
tree (of a store built by allocation and `AddChild`, the root being an
allocated node or nil) with `L` leaves and every `n ≥ 1`, `GetNLeaves(n)`
returns the first `min(n, L)` leaves of the tree in depth-first,
left-to-right order.  The function only reads the nodes: its result is a list
of nodes and the store is the same afterwards. -/
theorem getNLeaves_prefix (store : List TreeNode) (t : OpQueueTree) (n : Int)
    (hs : StoreOK store) (hr : ∀ r, t.Root = some r → r < store.length) (hn : 1 ≤ n) :
    GetNLeaves store t n =
      some ((treeLeaves store t).take (min n.toNat (treeLeaves store t).length)) := by
  rw [getNLeaves_take hs t hr hn]
  congr 1
  rcases Nat.le_total n.toNat (treeLeaves store t).length with h | h
  · rw [Nat.min_eq_left h]
  · rw [Nat.min_eq_right h, List.take_of_length_le h, List.take_of_length_le (le_refl _)]

theorem getNLeaves_prefix_witness :
    StoreOK complexTree ∧
    (∀ r, (⟨some 0⟩ : OpQueueTree).Root = some r → r < complexTree.length) ∧
    (1 : Int) ≤ 3 ∧
    GetNLeaves complexTree ⟨some 0⟩ 3 =
      some ((treeLeaves complexTree ⟨some 0⟩).take
        (min (3 : Int).toNat (treeLeaves complexTree ⟨some 0⟩).length)) :=
  ⟨storeOK_of_check (by decide), by intro r h; cases h; decide, by decide,
    getNLeaves_prefix complexTree ⟨some 0⟩ 3 (storeOK_of_check (by decide))
      (by intro r h; cases h; decide) (by decide)⟩

theorem complexTree_leaves :
    treeLeaves complexTree ⟨some 0⟩ = [3, 4, 5, 6] ∧
    GetNLeaves complexTree ⟨some 0⟩ 3 = some [3, 4, 5] ∧
    GetNLeaves complexTree ⟨some 0⟩ 4 = some [3, 4, 5, 6] ∧
    GetNLeaves complexTree ⟨some 0⟩ 5 = some [3, 4, 5, 6] := by
  decide

/-- The store `complexTree` is the one that the calls of `initComplexTree`
build from the root. -/
theorem complexTree_built :
    ((addChildren 0 [pendingQueue, pendingQueue] rootOnly).bind fun s =>
      (addChildren 1 [pendingQueue, pendingQueue] s).bind fun s =>
        addChildren 2 [pendingQueue, pendingQueue] s) = some complexTree := by
  rfl

/-! ## The queue under arbitrary interleavings; the canonical key; symmetry of IsEqual -/

/-- C39. The linked `OpQueue` refines a list under arbitrary interleavings:
for every finite sequence of `Enqueue`, `Dequeue` and `Peek` calls on a new
queue, in any order, no call panics, the `Dequeue` and `Peek` calls return in
order what the list model returns (`Enqueue` appends at the back, `Dequeue`
removes and returns the head or nil when empty, `Peek` returns the head or
nil), and at the end `Len()` is the length of the model list, `IsEmpty()`
says whether it is empty, and dequeuing the queue yields the model list. -/
theorem queue_refines_list (calls : List Call) :
    ∃ q, runQueue calls NewOpQueue = some ((queueModel calls []).1, q) ∧
      q.Len = (queueModel calls []).2.length ∧
      (q.IsEmpty = true ↔ (queueModel calls []).2 = []) ∧
      q.contents = some (queueModel calls []).2 := by
  obtain ⟨q, hrun, hq⟩ := runQueue_refines calls NewOpQueue [] holds_new
  exact ⟨q, hrun, hq.1, holds_isEmpty hq, holds_contents hq⟩

theorem toString_data (o : OpType) (p : String) (a b : Value) :
    (Operation.ToString ⟨o, p, a, b⟩).data =
      (match o with
        | .CREATE => '0'
        | .READ => '1'
        | .UPDATE => '2'
        | .DELETE => '3') :: ':' :: p.data := by
  cases o <;> simp only [Operation.ToString, OpType.toInt, String.data_append] <;> rfl

theorem toString_inj (op1 op2 : Operation) (h : op1.ToString = op2.ToString) :
    op1.Op = op2.Op ∧ op1.Path = op2.Path := by
  cases op1 with
  | mk o1 p1 a1 b1 =>
    cases op2 with
    | mk o2 p2 a2 b2 =>
      have hd := congrArg String.data h
      rw [toString_data, toString_data] at hd
      simp only [List.cons.injEq, true_and] at hd
      obtain ⟨hc, hp⟩ := hd
      have hp' : p1 = p2 := String.ext hp
      refine ⟨?_, hp'⟩
      cases o1 <;> cases o2 <;> first | rfl | (exact absurd hc (by decide))

/-- C37. The canonical key determines kind and path: for all operations `op1`
and `op2`, `op1.ToString() = op2.ToString()` implies that they have the same
kind and the same path, whatever characters the paths contain. -/
theorem toString_determines (op1 op2 : Operation) (h : op1.ToString = op2.ToString) :
    op1.Op = op2.Op ∧ op1.Path = op2.Path :=
  toString_inj op1 op2 h

theorem toString_determines_witness :
    (Operation.mk OpType.UPDATE "1:[3]" (Value.integer 1) (Value.integer 2)).ToString =
      (Operation.mk OpType.UPDATE "1:[3]" Value.null (Value.string "x")).ToString ∧
    (Operation.mk OpType.UPDATE "1:[3]" (Value.integer 1) (Value.integer 2)).Op =
      (Operation.mk OpType.UPDATE "1:[3]" Value.null (Value.string "x")).Op ∧
    (Operation.mk OpType.UPDATE "1:[3]" (Value.integer 1) (Value.integer 2)).Path =
      (Operation.mk OpType.UPDATE "1:[3]" Value.null (Value.string "x")).Path :=
  ⟨rfl, toString_determines _ _ rfl⟩

theorem f64Eq_comm (a b : Nat) : f64Eq a b = f64Eq b a := by
  simp only [f64Eq]
  rw [Bool.and_comm (!f64IsNaN a) (!f64IsNaN b), Bool.and_comm (f64IsZero a) (f64IsZero b)]
  congr 2
  rw [Bool.eq_iff_iff]
  simp only [beq_iff_eq]
  exact eq_comm

theorem IsEqualElems_comm : ∀ (xs ys : List Value), xs.length = ys.length →
    (∀ x ∈ xs, ∀ y ∈ ys, IsEqual x y = IsEqual y x) → IsEqualElems xs ys = IsEqualElems ys xs
  | [], [], _, _ => by simp [IsEqualElems]
  | [], _ :: _, h, _ => by simp at h
  | _ :: _, [], h, _ => by simp at h
  | x :: xs, y :: ys, h, hx => by
    simp only [IsEqualElems]
    rw [hx x (List.mem_cons_self _ _) y (List.mem_cons_self _ _),
      IsEqualElems_comm xs ys (by simpa using h)
        (fun z hz w hw => hx z (List.mem_cons_of_mem _ hz) w (List.mem_cons_of_mem _ hw))]

theorem IsEqual_symm_aux : ∀ (a : Value), a.WF → ∀ (b : Value), b.WF →
    IsEqual a b = IsEqual b a := by
  intro a
  induction a using Value.induct with
  | hnull => intro _ b _; cases b <;> simp [IsEqual, Value.isNil]
  | hbool x =>
    intro _ b _
    cases b <;> simp [IsEqual, Value.isNil]
    exact eq_comm
  | hint x =>
    intro _ b _
    cases b <;> simp [IsEqual, Value.isNil]
    exact eq_comm
  | hfloat x =>
    intro _ b _
    cases b <;> simp [IsEqual, Value.isNil]
    exact f64Eq_comm _ _
  | hstr x =>
    intro _ b _
    cases b <;> simp [IsEqual, Value.isNil]
    exact eq_comm
  | hother t => intro _ b _; cases b <;> simp [IsEqual, Value.isNil]
  | harr xs ih =>
    intro ha b hb
    cases b with
    | array ys =>
      simp only [Value.WF] at ha hb
      by_cases hlen : xs.length = ys.length
      · have h1 : IsEqualElems xs ys = IsEqualElems ys xs :=
          IsEqualElems_comm xs ys hlen fun x hx y hy =>
            ih x hx (WFList_iff.1 ha.2 x hx) y (WFList_iff.1 hb.2 y hy)
        simp [IsEqual, Value.isNil, hlen, h1]
      · have hlen' : ¬ ys.length = xs.length := fun h => hlen h.symm
        simp [IsEqual, Value.isNil, hlen, hlen']
    | _ => simp [IsEqual, Value.isNil]
  | hobj m1 ih =>
    intro ha b hb
    cases b with
    | object m2 =>
      simp only [Value.WF] at ha hb
      rw [Bool.eq_iff_iff, IsEqual_object_iff ha.1 hb.1, IsEqual_object_iff hb.1 ha.1]
      constructor
      · rintro ⟨hk, hv⟩
        refine ⟨fun k => (hk k).symm, fun k hk2 => ?_⟩
        have hk1 := (hk k).2 hk2
        obtain ⟨v, hmem⟩ := mem_mapKeys_iff.1 hk1
        have hv1 : mapIndex m1 k = v := mapIndex_of_mem ha.1 hmem
        have := ih (k, v) hmem (WFEntries_iff.1 ha.2 _ hmem) (mapIndex m2 k) (WF_mapIndex hb.2 k)
        simp only at this
        rw [hv1, ← this, ← hv1]
        exact hv k hk1
      · rintro ⟨hk, hv⟩
        refine ⟨fun k => (hk k).symm, fun k hk1 => ?_⟩
        have hk2 := (hk k).2 hk1
        obtain ⟨v, hmem⟩ := mem_mapKeys_iff.1 hk1
        have hv1 : mapIndex m1 k = v := mapIndex_of_mem ha.1 hmem
        have := ih (k, v) hmem (WFEntries_iff.1 ha.2 _ hmem) (mapIndex m2 k) (WF_mapIndex hb.2 k)
        simp only at this
        rw [hv1, this, ← hv1]
        exact hv k hk2
    | _ => simp [IsEqual, Value.isNil]

/-- C38. `IsEqual` is symmetric: for all values `a` and `b` (absent, of any
of the seven variants or unrecognised, at every depth; the keys of each
Object pairwise distinct, as in every Go map), `IsEqual(a, b) = IsEqual(b, a)`,
although for Objects the code iterates only over the keys of its first
argument. -/
theorem isEqual_symmetric (a b : Value) (ha : a.WF) (hb : b.WF) :
    IsEqual a b = IsEqual b a :=
  IsEqual_symm_aux a ha b hb

theorem isEqual_symmetric_witness :
    (Value.object [("a", Value.array [Value.float 0, Value.other 1]), ("b", Value.null)]).WF ∧
    (Value.object [("b", Value.null), ("a", Value.array [Value.float (2 ^ 63), Value.other 1])]).WF ∧
    IsEqual (Value.object [("a", Value.array [Value.float 0, Value.other 1]), ("b", Value.null)])
        (Value.object [("b", Value.null), ("a", Value.array [Value.float (2 ^ 63), Value.other 1])]) =
      IsEqual (Value.object [("b", Value.null), ("a", Value.array [Value.float (2 ^ 63), Value.other 1])])
        (Value.object [("a", Value.array [Value.float 0, Value.other 1]), ("b", Value.null)]) :=
  ⟨by simp [Value.WF, Value.WFEntries, Value.WFList, mapKeys],
    by simp [Value.WF, Value.WFEntries, Value.WFList, mapKeys],
    isEqual_symmetric _ _ (by simp [Value.WF, Value.WFEntries, Value.WFList, mapKeys])
      (by simp [Value.WF, Value.WFEntries, Value.WFList, mapKeys])⟩

/-! ## The diff reports a change exactly when the values differ -/

theorem recognisedList_iff : ∀ {xs : List Value},
    Value.recognisedList xs = true ↔ ∀ x ∈ xs, x.recognised = true
  | [] => by simp [Value.recognisedList]
  | x :: xs => by simp [Value.recognisedList, @recognisedList_iff xs]

theorem recognisedEntries_iff : ∀ {kvs : List (String × Value)},
    Value.recognisedEntries kvs = true ↔ ∀ kv ∈ kvs, kv.2.recognised = true
  | [] => by simp [Value.recognisedEntries]
  | (k, v) :: rest => by simp [Value.recognisedEntries, @recognisedEntries_iff rest]

theorem isChange_iff (op : Operation) : op.isChange = false ↔ op.Op = OpType.READ := by
  cases op with
  | mk o p a b => cases o <;> simp [Operation.isChange]

theorem walkIndices_read_iff (paths : List String) (pfx : String) :
    ∀ (os ns : List Value) (i : Nat), os.length = ns.length →
      (∀ o ∈ os, ∀ n ∈ ns, ∀ p,
        ((∀ op ∈ walk o n p paths, op.Op = OpType.READ) ↔ IsEqual o n = true)) →
      ((∀ op ∈ walkIndices os ns i pfx paths, op.Op = OpType.READ) ↔
        IsEqualElems os ns = true)
  | [], [], _, _, _ => by simp [walkIndices, IsEqualElems]
  | [], _ :: _, _, h, _ => by simp at h
  | _ :: _, [], _, h, _ => by simp at h
  | o :: os, n :: ns, i, h, ih => by
    have h1 := ih o (List.mem_cons_self _ _) n (List.mem_cons_self _ _)
      (childPath pfx (Itoa (i : Int)))
    have h2 := walkIndices_read_iff paths pfx os ns (i + 1) (by simpa using h)
      (fun a ha b hb => ih a (List.mem_cons_of_mem _ ha) b (List.mem_cons_of_mem _ hb))
    simp only [walkIndices, IsEqualElems, List.mem_append]
    constructor
    · intro hall
      have e1 := h1.1 (fun op hop => hall op (Or.inl hop))
      have e2 := h2.1 (fun op hop => hall op (Or.inr hop))
      simp [e1, e2]
    · intro heq op hop
      cases e1 : IsEqual o n with
      | false => simp [e1] at heq
      | true =>
        simp only [e1, Bool.not_true, Bool.false_eq_true, if_false] at heq
        rcases hop with hop | hop
        · exact h1.2 e1 op hop
        · exact h2.2 heq op hop

theorem ite_read_iff (c : Bool) (pfx : String) (old new : Value) :
    (if c then (⟨OpType.UPDATE, pfx, old, new⟩ : Operation)
      else ⟨OpType.READ, pfx, old, new⟩).Op = OpType.READ ↔ c = false := by
  cases c <;> simp

theorem primitive_read_iff (ok : Bool) (old new : Value) (pfx : String) :
    (primitiveOp ok old new pfx).Op = OpType.READ ↔ (ok = true ∧ IsEqual old new = true) := by
  unfold primitiveOp
  rw [ite_read_iff]
  cases ok <;> cases IsEqual old new <;> simp

theorem walk_read_iff_of_stop {old new : Value} {pfx : String} {paths : List String}
    (hold : old ≠ Value.null) (hnew : new ≠ Value.null) (hstop : pfx ∈ paths) :
    (∀ op ∈ walk old new pfx paths, op.Op = OpType.READ) ↔ IsEqual old new = true := by
  rw [walk_stop hold hnew hstop]
  cases IsEqual old new <;> simp

theorem walk_read_iff (paths : List String) : ∀ (old : Value), old.WF →
    old.recognised = true → ∀ (new : Value) (pfx : String), new.WF →
      ((∀ op ∈ walk old new pfx paths, op.Op = OpType.READ) ↔ IsEqual old new = true) := by
  intro old
  induction old using Value.induct with
  | hnull =>
    intro _ _ new pfx _
    cases new <;> simp [walk, Value.isNil, IsEqual]
  | hother t => intro _ h; simp [Value.recognised] at h
  | hbool b =>
    intro _ _ new pfx _
    by_cases hn : new = Value.null
    · subst hn; simp [walk, Value.isNil, IsEqual]
    by_cases hs : pfx ∈ paths
    · exact walk_read_iff_of_stop (by simp) hn hs
    have hc := contains_eq_false hs
    cases new <;>
      simp [walk, Value.isNil, hc, primitive_read_iff, Value.isBoolean, IsEqual]
  | hint b =>
    intro _ _ new pfx _
    by_cases hn : new = Value.null
    · subst hn; simp [walk, Value.isNil, IsEqual]
    by_cases hs : pfx ∈ paths
    · exact walk_read_iff_of_stop (by simp) hn hs
    have hc := contains_eq_false hs
    cases new <;>
      simp [walk, Value.isNil, hc, primitive_read_iff, Value.isInteger, IsEqual]
  | hfloat b =>
    intro _ _ new pfx _
    by_cases hn : new = Value.null
    · subst hn; simp [walk, Value.isNil, IsEqual]
    by_cases hs : pfx ∈ paths
    · exact walk_read_iff_of_stop (by simp) hn hs
    have hc := contains_eq_false hs
    cases new <;>
      simp [walk, Value.isNil, hc, primitive_read_iff, Value.isFloat, IsEqual]
  | hstr b =>
    intro _ _ new pfx _
    by_cases hn : new = Value.null
    · subst hn; simp [walk, Value.isNil, IsEqual]
    by_cases hs : pfx ∈ paths
    · exact walk_read_iff_of_stop (by simp) hn hs
    have hc := contains_eq_false hs
    cases new <;>
      simp [walk, Value.isNil, hc, primitive_read_iff, Value.isString, IsEqual]
  | harr xs ih =>
    intro hw hr new pfx hwn
    by_cases hn : new = Value.null
    · subst hn; simp [walk, Value.isNil, IsEqual]
    by_cases hs : pfx ∈ paths
    · exact walk_read_iff_of_stop (by simp) hn hs
    have hc := contains_eq_false hs
    cases new with
    | array ys =>
      simp only [Value.WF] at hw hwn
      simp only [Value.recognised] at hr
      by_cases hlen : xs.length = ys.length
      · have hw1 : walk (Value.array xs) (Value.array ys) pfx paths =
            walkIndices xs ys 0 pfx paths := by
          simp [walk, Value.isNil, hc, hlen]
        have he : IsEqual (Value.array xs) (Value.array ys) = IsEqualElems xs ys := by
          simp [IsEqual, Value.isNil, hlen]
        rw [hw1, he]
        exact walkIndices_read_iff paths pfx xs ys 0 hlen fun o ho n hnm p =>
          ih o ho (WFList_iff.1 hw.2 o ho) (recognisedList_iff.1 hr o ho) n p
            (WFList_iff.1 hwn.2 n hnm)
      · have he : IsEqual (Value.array xs) (Value.array ys) = false := by
          simp [IsEqual, Value.isNil, hlen]
        rw [he]
        simp only [Bool.false_eq_true, iff_false, not_forall]
        rcases Nat.lt_or_gt_of_ne hlen with h | h
        · obtain ⟨y, rest, hd⟩ : ∃ y rest, ys.drop xs.length = y :: rest := by
            cases hd : ys.drop xs.length with
            | nil => rw [List.drop_eq_nil_iff] at hd; omega
            | cons y rest => exact ⟨y, rest, rfl⟩
          refine ⟨⟨OpType.CREATE, childPath pfx (Itoa (xs.length : Int)), Value.null, y⟩, ?_,
            by simp⟩
          simp [walk, Value.isNil, hc, h, Nat.not_lt_of_gt h, hd, createOps]
        · obtain ⟨x, rest, hd⟩ : ∃ x rest, xs.drop ys.length = x :: rest := by
            cases hd : xs.drop ys.length with
            | nil => rw [List.drop_eq_nil_iff] at hd; omega
            | cons x rest => exact ⟨x, rest, rfl⟩
          refine ⟨⟨OpType.DELETE, childPath pfx (Itoa (ys.length : Int)), x, Value.null⟩, ?_,
            by simp⟩
          simp [walk, Value.isNil, hc, h, hd, deleteOps]
    | _ => simp [walk, Value.isNil, hc, primitive_read_iff, IsEqual]
  | hobj m1 ih =>
    intro hw hr new pfx hwn
    by_cases hn : new = Value.null
    · subst hn; simp [walk, Value.isNil, IsEqual]
    by_cases hs : pfx ∈ paths
    · exact walk_read_iff_of_stop (by simp) hn hs
    have hc := contains_eq_false hs
    cases new with
    | object m2 =>
      simp only [Value.WF] at hw hwn
      simp only [Value.recognised] at hr
      have hih : ∀ kv ∈ m1, ((∀ op ∈ walk kv.2 (mapIndex m2 kv.1) (childPath pfx kv.1) paths,
          op.Op = OpType.READ) ↔ IsEqual (mapIndex m1 kv.1) (mapIndex m2 kv.1) = true) := by
        intro kv hkv
        have hv : mapIndex m1 kv.1 = kv.2 := mapIndex_of_mem hw.1 hkv
        rw [hv]
        exact ih kv hkv (WFEntries_iff.1 hw.2 kv hkv) (recognisedEntries_iff.1 hr kv hkv) _ _
          (WF_mapIndex hwn.2 kv.1)
      rw [walk_object_object m1 m2 pfx paths hs hw.1 hwn.1, IsEqual_object_iff hw.1 hwn.1]
      simp only [List.mem_append, List.mem_flatMap, List.mem_map, List.mem_filter,
        decide_eq_true_eq]
      constructor
      · intro hall
        have h12 : ∀ k, k ∈ mapKeys m1 → k ∈ mapKeys m2 := by
          intro k hk
          by_contra hnk
          obtain ⟨v, hmem⟩ := mem_mapKeys_iff.1 hk
          have := hall ⟨OpType.DELETE, childPath pfx k, v, Value.null⟩
            (Or.inl (Or.inr ⟨(k, v), ⟨hmem, hnk⟩, rfl⟩))
          simp at this
        have h21 : ∀ k, k ∈ mapKeys m2 → k ∈ mapKeys m1 := by
          intro k hk
          by_contra hnk
          obtain ⟨v, hmem⟩ := mem_mapKeys_iff.1 hk
          have := hall ⟨OpType.CREATE, childPath pfx k, Value.null, v⟩
            (Or.inr ⟨(k, v), ⟨hmem, hnk⟩, rfl⟩)
          simp at this
        refine ⟨fun k => ⟨h12 k, h21 k⟩, fun k hk => ?_⟩
        obtain ⟨v, hmem⟩ := mem_mapKeys_iff.1 hk
        exact (hih (k, v) hmem).1 fun op hop =>
          hall op (Or.inl (Or.inl ⟨(k, v), ⟨hmem, h12 k hk⟩, hop⟩))
      · rintro ⟨hk, hv⟩ op hop
        rcases hop with (⟨kv, ⟨hmem, _⟩, hop⟩ | ⟨kv, ⟨hmem, hnk⟩, _⟩) | ⟨kv, ⟨hmem, hnk⟩, _⟩
        · exact (hih kv hmem).2 (hv kv.1 (mem_mapKeys_iff.2 ⟨kv.2, hmem⟩)) op hop
        · exact absurd ((hk kv.1).1 (mem_mapKeys_iff.2 ⟨kv.2, hmem⟩)) hnk
        · exact absurd ((hk kv.1).2 (mem_mapKeys_iff.2 ⟨kv.2, hmem⟩)) hnk
    | _ => simp [walk, Value.isNil, hc, primitive_read_iff, IsEqual]

/-- C35. The diff reports a change exactly when the values differ: for all
values `old` and `new` (either may be absent; the keys of each Object pairwise
distinct, as in every Go map; no value in `old` of an unrecognised dynamic
type) and every stop-path set, the plan `CreateOpQueue(old, new, stopPaths)`
is produced and contains no CREATE, UPDATE or DELETE operation if and only if
`IsEqual(old, new)` is true. -/
theorem diff_reports_change_iff (old new : Value) (paths : List String) (hwo : old.WF)
    (hwn : new.WF) (hro : old.recognised = true) :
    ∃ L, planOps old new paths = some L ∧
      ((∀ op ∈ L, op.isChange = false) ↔ IsEqual old new = true) := by
  refine ⟨_, planOps_eq_walk old new paths, ?_⟩
  rw [← walk_read_iff paths old hwo hro new "" hwn]
  simp only [isChange_iff]

theorem diff_reports_change_iff_witness :
    (Value.object [("a", Value.array [Value.integer 1, Value.null]), ("b", Value.float 0)]).WF ∧
    (Value.object [("b", Value.float (2 ^ 63)),
      ("a", Value.array [Value.integer 1, Value.null])]).WF ∧
    (Value.object [("a", Value.array [Value.integer 1, Value.null]),
      ("b", Value.float 0)]).recognised = true ∧
    ∃ L, planOps
        (Value.object [("a", Value.array [Value.integer 1, Value.null]), ("b", Value.float 0)])
        (Value.object [("b", Value.float (2 ^ 63)),
          ("a", Value.array [Value.integer 1, Value.null])]) ["[a][0]"] = some L ∧
      ((∀ op ∈ L, op.isChange = false) ↔
        IsEqual
          (Value.object [("a", Value.array [Value.integer 1, Value.null]), ("b", Value.float 0)])
          (Value.object [("b", Value.float (2 ^ 63)),
            ("a", Value.array [Value.integer 1, Value.null])]) = true) :=
  ⟨by simp [Value.WF, Value.WFEntries, Value.WFList, mapKeys],
    by simp [Value.WF, Value.WFEntries, Value.WFList, mapKeys],
    by decide,
    diff_reports_change_iff _ _ _ (by simp [Value.WF, Value.WFEntries, Value.WFList, mapKeys])
      (by simp [Value.WF, Value.WFEntries, Value.WFList, mapKeys]) (by decide)⟩

/-! ## Addresses within one plan -/

theorem Itoa_nat_inj {i j : Nat} (h : Itoa (i : Int) = Itoa (j : Int)) : i = j := by
  have hi := (Itoa_nat_decimal i).2.2.2
  have hj := (Itoa_nat_decimal j).2.2.2
  rw [h, hj] at hi
  exact (Option.some.inj hi).symm

theorem seg_inj {k1 k2 r1 r2 : List Char} (h1 : ']' ∉ k1) (h2 : ']' ∉ k2)
    (h : k1 ++ ']' :: r1 = k2 ++ ']' :: r2) : k1 = k2 ∧ r1 = r2 := by
  have e1 := span_close k1 r1 h1
  have e2 := span_close k2 r2 h2
  rw [h, e2] at e1
  simp only [Prod.mk.injEq, List.cons.injEq, true_and] at e1
  exact ⟨e1.1.symm, e1.2.symm⟩

theorem childPath_rel_inj {pfx k1 k2 : String} {r1 r2 : List Char} (h1 : ']' ∉ k1.data)
    (h2 : ']' ∉ k2.data) (h : childPath pfx k1 ++ ⟨r1⟩ = childPath pfx k2 ++ ⟨r2⟩) :
    k1 = k2 ∧ r1 = r2 := by
  rw [childPath_append, childPath_append] at h
  have hd := congrArg String.data h
  simp only [String.data_append, List.append_cancel_left_eq, List.cons_append, List.cons.injEq,
    true_and] at hd
  have := seg_inj h1 h2 hd
  exact ⟨String.ext this.1, this.2⟩

/-- Paths grouped by their first segment after `pfx` are pairwise distinct
when the segments are, no segment holds a closing bracket, and the paths of
each group are pairwise distinct. -/
theorem nodup_groups (pfx : String) : ∀ (groups : List (String × List String)),
    (groups.map Prod.fst).Nodup → (∀ g ∈ groups, ']' ∉ g.1.data) →
    (∀ g ∈ groups, ∀ p ∈ g.2, ∃ rel : List Char, p = childPath pfx g.1 ++ ⟨rel⟩) →
    (∀ g ∈ groups, g.2.Nodup) → (groups.flatMap Prod.snd).Nodup
  | [], _, _, _, _ => by simp
  | g :: gs, hk, hc, hf, hn => by
    simp only [List.map_cons, List.nodup_cons] at hk
    simp only [List.flatMap_cons]
    rw [List.nodup_append]
    refine ⟨hn g (List.mem_cons_self _ _),
      nodup_groups pfx gs hk.2 (fun x hx => hc x (List.mem_cons_of_mem _ hx))
        (fun x hx => hf x (List.mem_cons_of_mem _ hx))
        (fun x hx => hn x (List.mem_cons_of_mem _ hx)), ?_⟩
    intro p hp1 hp2
    obtain ⟨g', hg', hp'⟩ := List.mem_flatMap.1 hp2
    obtain ⟨r1, e1⟩ := hf g (List.mem_cons_self _ _) p hp1
    obtain ⟨r2, e2⟩ := hf g' (List.mem_cons_of_mem _ hg') p hp'
    have := childPath_rel_inj (hc g (List.mem_cons_self _ _))
      (hc g' (List.mem_cons_of_mem _ hg')) (e1.symm.trans e2)
    exact hk.1 (List.mem_map.2 ⟨g', hg', this.1.symm⟩)

theorem map_flatMap_groups {α : Type} (key : α → String) (f : α → List Operation) :
    ∀ (l : List α), (l.flatMap f).map Operation.Path =
      (l.map fun x => (key x, (f x).map Operation.Path)).flatMap Prod.snd
  | [] => by simp
  | x :: xs => by
    simp only [List.flatMap_cons, List.map_append, List.map_cons, map_flatMap_groups key f xs]

theorem map_map_groups {α : Type} (key : α → String) (h : α → Operation) :
    ∀ (l : List α), (l.map h).map Operation.Path =
      (l.map fun x => (key x, [(h x).Path])).flatMap Prod.snd
  | [] => by simp
  | x :: xs => by
    simp only [List.flatMap_cons, List.map_cons, map_map_groups key h xs, List.singleton_append]

theorem indices_nodup (a b : Nat) :
    (List.range' 0 (min a b) ++ List.range' b (a - b) ++ List.range' a (b - a)).Nodup := by
  rw [List.nodup_append, List.nodup_append]
  refine ⟨⟨List.nodup_range' _ _, List.nodup_range' _ _, ?_⟩, List.nodup_range' _ _, ?_⟩
  · intro x hx hy
    simp only [List.mem_range'_1] at hx hy
    omega
  · intro x hx hy
    simp only [List.mem_append, List.mem_range'_1] at hx hy
    omega

theorem enum_keys {α : Type} : ∀ (l : List α) (n : Nat),
    (l.enumFrom n).map (fun (p : Nat × α) => Itoa (p.1 : Int)) =
      (List.range' n l.length).map fun (i : Nat) => Itoa (i : Int)
  | [], _ => by simp
  | x :: xs, n => by
    simp only [List.enumFrom_cons, List.map_cons, List.length_cons, List.range'_succ,
      enum_keys xs (n + 1)]

theorem walk_path_form {paths : List String} {old new : Value} {pfx : String} (hwo : old.WF)
    (hwn : new.WF) (hko : ∀ k ∈ old.allKeys, ']' ∉ k.data)
    (hkn : ∀ k ∈ new.allKeys, ']' ∉ k.data) :
    ∀ p ∈ (walk old new pfx paths).map Operation.Path, ∃ rel : List Char, p = pfx ++ ⟨rel⟩ := by
  intro p hp
  obtain ⟨op, hop, rfl⟩ := List.mem_map.1 hp
  obtain ⟨rel, h, _⟩ := walk_pathOK paths old new pfx hwo hwn hko hkn op hop
  exact ⟨rel, h⟩

theorem walk_paths_nodup (paths : List String) : ∀ (old : Value), old.WF →
    (∀ k ∈ old.allKeys, ']' ∉ k.data) → ∀ (new : Value) (pfx : String), new.WF →
    (∀ k ∈ new.allKeys, ']' ∉ k.data) →
      ((walk old new pfx paths).map Operation.Path).Nodup := by
  intro old
  induction old using Value.induct with
  | hnull =>
    intro _ _ new pfx _ _
    cases new <;> simp [walk, Value.isNil]
  | hother t =>
    intro _ _ new pfx _ _
    by_cases hn : new = Value.null
    · subst hn; simp [walk, Value.isNil]
    by_cases hs : pfx ∈ paths
    · rw [walk_stop (by simp) hn hs]; simp
    have hc := contains_eq_false hs
    cases new <;> simp [walk, Value.isNil, hc]
  | hbool b =>
    intro _ _ new pfx _ _
    by_cases hn : new = Value.null
    · subst hn; simp [walk, Value.isNil]
    by_cases hs : pfx ∈ paths
    · rw [walk_stop (by simp) hn hs]; simp
    have hc := contains_eq_false hs
    cases new <;> simp [walk, Value.isNil, hc]
  | hint b =>
    intro _ _ new pfx _ _
    by_cases hn : new = Value.null
    · subst hn; simp [walk, Value.isNil]
    by_cases hs : pfx ∈ paths
    · rw [walk_stop (by simp) hn hs]; simp
    have hc := contains_eq_false hs
    cases new <;> simp [walk, Value.isNil, hc]
  | hfloat b =>
    intro _ _ new pfx _ _
    by_cases hn : new = Value.null
    · subst hn; simp [walk, Value.isNil]
    by_cases hs : pfx ∈ paths
    · rw [walk_stop (by simp) hn hs]; simp
    have hc := contains_eq_false hs
    cases new <;> simp [walk, Value.isNil, hc]
  | hstr b =>
    intro _ _ new pfx _ _
    by_cases hn : new = Value.null
    · subst hn; simp [walk, Value.isNil]
    by_cases hs : pfx ∈ paths
    · rw [walk_stop (by simp) hn hs]; simp
    have hc := contains_eq_false hs
    cases new <;> simp [walk, Value.isNil, hc]
  | harr xs ih =>
    intro hw hk new pfx hwn hkn
    by_cases hn : new = Value.null
    · subst hn; simp [walk, Value.isNil]
    by_cases hs : pfx ∈ paths
    · rw [walk_stop (by simp) hn hs]; simp
    have hc := contains_eq_false hs
    cases new with
    | array ys =>
      simp only [Value.WF] at hw hwn
      simp only [Value.allKeys] at hk hkn
      rw [walk_array_array xs ys pfx paths hs, List.map_append, List.map_append,
        map_flatMap_groups (fun p => Itoa (p.1 : Int)),
        map_map_groups (fun p => Itoa (p.1 : Int)),
        map_map_groups (fun p => Itoa (p.1 : Int)), ← List.flatMap_append,
        ← List.flatMap_append]
      apply nodup_groups pfx
      · simp only [List.map_append, List.map_map, Function.comp_def]
        rw [enum_keys, enum_keys, enum_keys, ← List.map_append, ← List.map_append]
        refine List.Nodup.map (fun i j h => Itoa_nat_inj h) ?_
        simp only [List.length_zip, List.length_drop]
        exact indices_nodup xs.length ys.length
      · intro g hg
        simp only [List.mem_append, List.mem_map] at hg
        rcases hg with (⟨p, _, rfl⟩ | ⟨p, _, rfl⟩) | ⟨p, _, rfl⟩ <;> exact Itoa_no_close _
      · intro g hg
        simp only [List.mem_append, List.mem_map] at hg
        rcases hg with (⟨p, hp, rfl⟩ | ⟨p, _, rfl⟩) | ⟨p, _, rfl⟩
        · have hz := List.of_mem_zip (List.snd_mem_of_mem_enumFrom hp)
          exact walk_path_form (WFList_iff.1 hw.2 _ hz.1) (WFList_iff.1 hwn.2 _ hz.2)
            (fun k hk1 => hk k (allKeys_of_mem_list hz.1 k hk1))
            (fun k hk1 => hkn k (allKeys_of_mem_list hz.2 k hk1))
        · intro q hq
          simp only [List.mem_singleton] at hq
          exact ⟨[], by rw [hq, append_mk_nil]⟩
        · intro q hq
          simp only [List.mem_singleton] at hq
          exact ⟨[], by rw [hq, append_mk_nil]⟩
      · intro g hg
        simp only [List.mem_append, List.mem_map] at hg
        rcases hg with (⟨p, hp, rfl⟩ | ⟨p, _, rfl⟩) | ⟨p, _, rfl⟩
        · have hz := List.of_mem_zip (List.snd_mem_of_mem_enumFrom hp)
          exact ih _ hz.1 (WFList_iff.1 hw.2 _ hz.1)
            (fun k hk1 => hk k (allKeys_of_mem_list hz.1 k hk1)) _ _
            (WFList_iff.1 hwn.2 _ hz.2)
            (fun k hk1 => hkn k (allKeys_of_mem_list hz.2 k hk1))
        · exact List.nodup_singleton _
        · exact List.nodup_singleton _
    | _ => simp [walk, Value.isNil, hc]
  | hobj m1 ih =>
    intro hw hk new pfx hwn hkn
    by_cases hn : new = Value.null
    · subst hn; simp [walk, Value.isNil]
    by_cases hs : pfx ∈ paths
    · rw [walk_stop (by simp) hn hs]; simp
    have hc := contains_eq_false hs
    cases new with
    | object m2 =>
      simp only [Value.WF] at hw hwn
      simp only [Value.allKeys] at hk hkn
      rw [walk_object_object m1 m2 pfx paths hs hw.1 hwn.1, List.map_append, List.map_append,
        map_flatMap_groups (fun kv => kv.1), map_map_groups (fun kv => kv.1),
        map_map_groups (fun kv => kv.1), ← List.flatMap_append, ← List.flatMap_append]
      apply nodup_groups pfx
      · simp only [List.map_append, List.map_map, Function.comp_def]
        have h1 : ∀ (p : String × Value → Bool), ((m1.filter p).map fun kv => kv.1).Nodup :=
          fun p => List.Nodup.sublist (List.Sublist.map _ (List.filter_sublist _)) hw.1
        have h2 : ∀ (p : String × Value → Bool), ((m2.filter p).map fun kv => kv.1).Nodup :=
          fun p => List.Nodup.sublist (List.Sublist.map _ (List.filter_sublist _)) hwn.1
        rw [List.nodup_append, List.nodup_append]
        refine ⟨⟨h1 _, h1 _, ?_⟩, h2 _, ?_⟩
        · intro k ha hb
          simp only [List.mem_map, List.mem_filter, decide_eq_true_eq] at ha hb
          obtain ⟨kv, ⟨_, hin⟩, rfl⟩ := ha
          obtain ⟨kv', ⟨_, hnin⟩, he⟩ := hb
          exact hnin (he ▸ hin)
        · intro k ha hb
          simp only [List.mem_append, List.mem_map, List.mem_filter, decide_eq_true_eq] at ha hb
          obtain ⟨kv', ⟨_, hnin⟩, he⟩ := hb
          rcases ha with ⟨kv, ⟨hmem, _⟩, rfl⟩ | ⟨kv, ⟨hmem, _⟩, rfl⟩ <;>
            exact hnin (he ▸ mem_mapKeys_of_mem hmem)
      · intro g hg
        simp only [List.mem_append, List.mem_map, List.mem_filter] at hg
        rcases hg with (⟨kv, ⟨hmem, _⟩, rfl⟩ | ⟨kv, ⟨hmem, _⟩, rfl⟩) | ⟨kv, ⟨hmem, _⟩, rfl⟩
        · exact hk _ (allKeys_of_mem_entries hmem).1
        · exact hk _ (allKeys_of_mem_entries hmem).1
        · exact hkn _ (allKeys_of_mem_entries hmem).1
      · intro g hg
        simp only [List.mem_append, List.mem_map, List.mem_filter] at hg
        rcases hg with (⟨kv, ⟨hmem, _⟩, rfl⟩ | ⟨kv, ⟨hmem, _⟩, rfl⟩) | ⟨kv, ⟨hmem, _⟩, rfl⟩
        · exact walk_path_form (WFEntries_iff.1 hw.2 _ hmem) (WF_mapIndex hwn.2 _)
            (fun k hk1 => hk k ((allKeys_of_mem_entries hmem).2 k hk1))
            (fun k hk1 => hkn k (allKeys_mapIndex _ k hk1))
        · intro q hq
          simp only [List.mem_singleton] at hq
          exact ⟨[], by rw [hq, append_mk_nil]⟩
        · intro q hq
          simp only [List.mem_singleton] at hq
          exact ⟨[], by rw [hq, append_mk_nil]⟩
      · intro g hg
        simp only [List.mem_append, List.mem_map, List.mem_filter] at hg
        rcases hg with (⟨kv, ⟨hmem, _⟩, rfl⟩ | ⟨kv, ⟨hmem, _⟩, rfl⟩) | ⟨kv, ⟨hmem, _⟩, rfl⟩
        · exact ih kv hmem (WFEntries_iff.1 hw.2 _ hmem)
            (fun k hk1 => hk k ((allKeys_of_mem_entries hmem).2 k hk1)) _ _
            (WF_mapIndex hwn.2 _) (fun k hk1 => hkn k (allKeys_mapIndex _ k hk1))
        · exact List.nodup_singleton _
        · exact List.nodup_singleton _
    | _ => simp [walk, Value.isNil, hc]

/-- C36, as stated, fails: an Object key may hold brackets.  In the Object
with the key `a`, whose value is an Object with the key `b`, and the key
`a][b`, planned against itself, the two READ operations have the same path
`[a][b]` and the same key `1:[a][b]`. -/
theorem unique_paths_counterexample :
    ∃ L, planOps
        (Value.object [("a", Value.object [("b", Value.integer 1)]), ("a][b", Value.integer 2)])
        (Value.object [("a", Value.object [("b", Value.integer 1)]), ("a][b", Value.integer 2)])
        [] = some L ∧
      L.map Operation.Path = ["[a][b]", "[a][b]"] ∧
      L.map Operation.ToString = ["1:[a][b]", "1:[a][b]"] ∧
      ¬ (L.map Operation.Path).Nodup := by
  refine ⟨_, planOps_eq_walk _ _ _, ?_, ?_, ?_⟩
  · decide
  · decide
  · decide

/-- C36, amended. Addresses within one plan are unique when no Object key of
the two trees holds a closing bracket: for such value trees and every
stop-path set the plan is produced, no two of its operations have the same
path, and no two have the same key `ToString()`. -/
theorem unique_paths (old new : Value) (paths : List String) (hwo : old.WF) (hwn : new.WF)
    (hko : ∀ k ∈ old.allKeys, ']' ∉ k.data) (hkn : ∀ k ∈ new.allKeys, ']' ∉ k.data) :
    ∃ L, planOps old new paths = some L ∧ (L.map Operation.Path).Nodup ∧
      (L.map Operation.ToString).Nodup := by
  have h := walk_paths_nodup paths old hwo hko new "" hwn hkn
  refine ⟨_, planOps_eq_walk old new paths, h, ?_⟩
  rw [List.Nodup, List.pairwise_map] at h ⊢
  exact h.imp fun hne he => hne (toString_inj _ _ he).2

theorem unique_paths_witness :
    (Value.object [("a", Value.array [Value.integer 1, Value.integer 2])]).WF ∧
    (Value.object [("a", Value.array [Value.integer 1]), ("b", Value.null)]).WF ∧
    (∀ k ∈ (Value.object [("a", Value.array [Value.integer 1, Value.integer 2])]).allKeys,
      ']' ∉ k.data) ∧
    (∀ k ∈ (Value.object [("a", Value.array [Value.integer 1]), ("b", Value.null)]).allKeys,
      ']' ∉ k.data) ∧
    ∃ L, planOps (Value.object [("a", Value.array [Value.integer 1, Value.integer 2])])
        (Value.object [("a", Value.array [Value.integer 1]), ("b", Value.null)]) [] = some L ∧
      (L.map Operation.Path).Nodup ∧ (L.map Operation.ToString).Nodup :=
  ⟨by simp [Value.WF, Value.WFList, Value.WFEntries, mapKeys],
    by simp [Value.WF, Value.WFList, Value.WFEntries, mapKeys],
    by decide, by decide,
    unique_paths _ _ []
      (by simp [Value.WF, Value.WFList, Value.WFEntries, mapKeys])
      (by simp [Value.WF, Value.WFList, Value.WFEntries, mapKeys])
      (by decide) (by decide)⟩

/-! ## pkg/json: the parser on arrays, objects and injections -/

theorem Value.same_eq : ∀ (a b : Value), Value.same a b = true → a = b := by
  intro a
  induction a using Value.induct with
  | hnull => intro b h; cases b <;> simp [Value.same] at h ⊢
  | hbool x => intro b h; cases b <;> simp [Value.same] at h ⊢; exact h
  | hint x => intro b h; cases b <;> simp [Value.same] at h ⊢; exact h
  | hfloat x => intro b h; cases b <;> simp [Value.same] at h ⊢; exact h
  | hstr x => intro b h; cases b <;> simp [Value.same] at h ⊢; exact h
  | hother x => intro b h; cases b <;> simp [Value.same] at h ⊢; exact h
  | harr xs ih =>
    intro b h
    cases b with
    | array ys =>
      simp only [Value.same] at h
      have : ∀ (xs ys : List Value), (∀ x ∈ xs, ∀ b, Value.same x b = true → x = b) →
          Value.sameList xs ys = true → xs = ys := by
        intro xs
        induction xs with
        | nil => intro ys _ h; cases ys <;> simp [Value.sameList] at h ⊢
        | cons x xs ihx =>
          intro ys hx h
          cases ys with
          | nil => simp [Value.sameList] at h
          | cons y ys =>
            simp only [Value.sameList, Bool.and_eq_true] at h
            rw [hx x (List.mem_cons_self _ _) y h.1,
              ihx ys (fun z hz => hx z (List.mem_cons_of_mem _ hz)) h.2]
      rw [this xs ys ih h]
    | _ => simp [Value.same] at h
  | hobj xs ih =>
    intro b h
    cases b with
    | object ys =>
      simp only [Value.same] at h
      have : ∀ (xs ys : List (String × Value)),
          (∀ kv ∈ xs, ∀ b, Value.same kv.2 b = true → kv.2 = b) →
          Value.sameEntries xs ys = true → xs = ys := by
        intro xs
        induction xs with
        | nil => intro ys _ h; cases ys <;> simp [Value.sameEntries] at h ⊢
        | cons x xs ihx =>
          intro ys hx h
          obtain ⟨k, v⟩ := x
          cases ys with
          | nil => simp [Value.sameEntries] at h
          | cons y ys =>
            obtain ⟨k', v'⟩ := y
            simp only [Value.sameEntries, Bool.and_eq_true, beq_iff_eq] at h
            have hv := hx (k, v) (List.mem_cons_self _ _) v' h.1.2
            simp only at hv
            rw [h.1.1, hv, ihx ys (fun z hz => hx z (List.mem_cons_of_mem _ hz)) h.2]
      rw [this xs ys ih h]
    | _ => simp [Value.same] at h

theorem json.endsWith_eq {r : Option json.Outcome} {want : json.Outcome}
    (h : json.endsWith r want = true) : r = some want := by
  cases r with
  | none => simp [json.endsWith] at h
  | some o =>
    cases o with
    | ok v =>
      cases want with
      | ok w => simp only [json.endsWith] at h; rw [Value.same_eq v w h]
      | _ => simp [json.endsWith] at h
    | err e =>
      cases want with
      | err e' => simp only [json.endsWith, beq_iff_eq] at h; rw [h]
      | _ => simp [json.endsWith] at h
    | panic =>
      cases want with
      | panic => rfl
      | _ => simp [json.endsWith] at h

theorem json.Inject_eq (L : GoLib) (src : String) (v : List Value) (fuel k : Nat)
    (e : 3 * src.length + 6 = fuel + k) :
    json.Inject L src v = json.InjectFuel L (fuel + k) src.data v := by
  rw [json.Inject, e]
theorem json.objectLoop_member (L : GoLib) (fuel : Nat) (p p1 p2 p3 p4 : json.Parser)
    (obj : List (String × Value)) (prevTok : json.Token) (val : Value)
    (h1 : p.next L = some (p1, none)) (hk : p1.richTok.tok = json.Token.STRING)
    (h2 : p1.next L = some (p2, none)) (hc : p2.richTok.tok = json.Token.COLON)
    (h3 : p2.next L = some (p3, none))
    (hv : json.Parser.parseValue L fuel p3 = some (json.Res.ok p4 val)) :
    json.Parser.objectLoop L (fuel + 1) p obj prevTok =
      json.Parser.objectLoop L fuel p4 (mapSet obj ⟨p1.richTok.lit⟩ val) p4.richTok.tok := by
  rw [json.Parser.objectLoop]
  simp [h1, hk, h2, hc, h3, hv]

theorem json.objectLoop_close (L : GoLib) (fuel : Nat) (p p1 : json.Parser)
    (obj : List (String × Value)) (prevTok : json.Token)
    (h1 : p.next L = some (p1, none)) (ht : p1.richTok.tok = json.Token.RBRACE)
    (hp : prevTok ≠ json.Token.COMMA) :
    json.Parser.objectLoop L (fuel + 1) p obj prevTok =
      some (json.Res.ok p1 (Value.object obj)) := by
  rw [json.Parser.objectLoop]
  simp [h1, ht, hp]

theorem json.parseValue_object (L : GoLib) (fuel : Nat) (p : json.Parser)
    (h : p.richTok.tok = json.Token.LBRACE) :
    json.Parser.parseValue L (fuel + 2) p =
      json.Parser.objectLoop L fuel p [] json.Token.LBRACE := by
  rw [json.Parser.parseValue, json.Parser.parseObject]
  simp [h, json.Token.IsLiteral, json.Token.IsOperator, json.Token.toNat]

theorem json.parseValue_number (L : GoLib) (fuel : Nat) (p : json.Parser)
    (h : p.richTok.tok = json.Token.NUMBER) :
    json.Parser.parseValue L (fuel + 1) p = some (json.Parser.parseNumber L p) := by
  rw [json.Parser.parseValue]
  simp [h, json.Token.IsLiteral, json.Token.toNat]

theorem json.ParseFuel_ok (L : GoLib) (fuel : Nat) (p p1 p2 p3 : json.Parser) (val : Value)
    (e : Option json.Err) (h0 : p.next L = some (p1, none))
    (hv : json.Parser.parseValue L fuel p1 = some (json.Res.ok p2 val))
    (h2 : p2.next L = some (p3, e)) (ht : p3.richTok.tok = json.Token.EOF) :
    json.Parser.ParseFuel L fuel p = some (json.Outcome.ok val) := by
  simp [json.Parser.ParseFuel, h0, hv, h2, ht]

theorem json.ParseFuel_none (L : GoLib) (fuel : Nat) (p p1 : json.Parser)
    (h0 : p.next L = some (p1, none)) (hv : json.Parser.parseValue L fuel p1 = none) :
    json.Parser.ParseFuel L fuel p = none := by
  simp [json.Parser.ParseFuel, h0, hv]

theorem json.twoMembers_tokens (L : GoLib) :
    (json.parserAt json.twoMembers 0 ' ' 0 0 json.Token.SPECIALBEG []).next L =
      some (json.parserAt json.twoMembers 2 '"' 1 1 json.Token.LBRACE ['{'], none) ∧
    (json.parserAt json.twoMembers 2 '"' 1 1 json.Token.LBRACE ['{']).next L =
      some (json.parserAt json.twoMembers 5 ':' 4 1 json.Token.STRING ['a'], none) ∧
    (json.parserAt json.twoMembers 5 ':' 4 1 json.Token.STRING ['a']).next L =
      some (json.parserAt json.twoMembers 6 '1' 5 1 json.Token.COLON [':'], none) ∧
    (json.parserAt json.twoMembers 6 '1' 5 1 json.Token.COLON [':']).next L =
      some (json.parserAt json.twoMembers 7 ' ' 6 1 json.Token.NUMBER ['1'], none) ∧
    (json.parserAt json.twoMembers 7 ' ' 6 1 json.Token.NUMBER ['1']).next L =
      some (json.parserAt json.twoMembers 11 ':' 10 1 json.Token.STRING ['b'], none) ∧
    (json.parserAt json.twoMembers 11 ':' 10 1 json.Token.STRING ['b']).next L =
      some (json.parserAt json.twoMembers 12 '2' 11 1 json.Token.COLON [':'], none) ∧
    (json.parserAt json.twoMembers 12 '2' 11 1 json.Token.COLON [':']).next L =
      some (json.parserAt json.twoMembers 13 '}' 12 1 json.Token.NUMBER ['2'], none) ∧
    (json.parserAt json.twoMembers 13 '}' 12 1 json.Token.NUMBER ['2']).next L =
      some (json.parserAt json.twoMembers 13 '\x00' 13 0 json.Token.RBRACE ['}'], none) ∧
    (json.parserAt json.twoMembers 13 '\x00' 13 0 json.Token.RBRACE ['}']).next L =
      some (json.parserAt json.twoMembers 13 '\x00' 13 0 json.Token.EOF ['E', 'O', 'F'], none) :=
  ⟨rfl, rfl, rfl, rfl, rfl, rfl, rfl, rfl, rfl⟩

theorem json.twoMembers_accepted (L : GoLib) (fuel : Nat) :
    json.InjectFuel L (fuel + 5) json.twoMembers [] =
      some (json.Outcome.ok (Value.object [("a", Value.integer 1), ("b", Value.integer 2)])) := by
  obtain ⟨t0, t1, t2, t3, t4, t5, t6, t7, t8⟩ := json.twoMembers_tokens L
  refine json.ParseFuel_ok L (fuel + 5) _ _ _ _ _ _ t0 ?_ t8 rfl
  rw [json.parseValue_object L (fuel + 3) _ rfl,
    json.objectLoop_member L (fuel + 2) _ _ _ _ _ _ _ _ t1 rfl t2 rfl t3
      ((json.parseValue_number L (fuel + 1) _ rfl).trans rfl),
    json.objectLoop_member L (fuel + 1) _ _ _ _ _ _ _ _ t4 rfl t5 rfl t6
      ((json.parseValue_number L fuel _ rfl).trans rfl),
    json.objectLoop_close L fuel _ _ _ _ t7 rfl (by decide)]
  rfl

theorem json.stuck_next (L : GoLib) (vals : List Value) :
    (json.stuckParser vals).next L = some (json.stuckParser vals, some json.Err.illegalToken) :=
  rfl

theorem json.parseInjection_stuck (L : GoLib) (vals : List Value) :
    ∀ fuel, json.Parser.parseInjection L fuel (json.stuckParser vals) = none := by
  intro fuel
  induction fuel with
  | zero => rfl
  | succ n ih =>
    rw [json.Parser.parseInjection]
    simp only [json.stuck_next, ih]
    rfl

theorem json.inject_stuck (L : GoLib) (vals : List Value) :
    ∀ fuel, json.InjectFuel L fuel "\x7b\x7ba.b\x7d\x7d".data vals = none
  | 0 => rfl
  | 1 => rfl
  | 2 => rfl
  | n + 3 =>
    json.ParseFuel_none L (n + 3) _ _ rfl
      (Eq.trans rfl (json.parseInjection_stuck L vals n))

/-- C31. The round trip through JSON fails for an Array that holds an Array
followed by another element: `ToJSON` of the Array of the empty Array and null
is `[[],null]`, and `Inject` of that text with no injection values returns the
error "Must have a value between array elements", for every bound on the
depth of the parse from 6 on.  After the inner Array, `parseArray` sets
`prevTok` from its copy of the first token of the element, `[`, so the comma
that follows is taken for a comma at the start of an Array.  A flat Array does
come back: the Array of 1 and 2 is written as `[1,2]` and read as itself. -/
theorem json_round_trip_nested_array (L : GoLib) :
    json.ToJSON L (Value.array [Value.array [], Value.null]) = Except.ok "[[],null]" ∧
    (∀ fuel : Nat, json.InjectFuel L (fuel + 6) "[[],null]".data [] =
      some (json.Outcome.err json.Err.noValueBetween)) ∧
    json.Inject L "[[],null]" [] = some (json.Outcome.err json.Err.noValueBetween) ∧
    json.ToJSON L (Value.array [Value.integer 1, Value.integer 2]) = Except.ok "[1,2]" ∧
    json.Inject L "[1,2]" [] =
      some (json.Outcome.ok (Value.array [Value.integer 1, Value.integer 2])) := by
  have h : ∀ fuel : Nat, json.InjectFuel L (fuel + 6) "[[],null]".data [] =
      some (json.Outcome.err json.Err.noValueBetween) := fun _ => json.endsWith_eq rfl
  refine ⟨rfl, h, ?_, rfl, json.endsWith_eq rfl⟩
  rw [json.Inject_eq L "[[],null]" [] 27 6 (by decide)]
  exact h 27

/-- C32. Array elements need no comma after an element that is itself an
Array: `Parse` of `[[]1]` returns the Array of the empty Array and 1, and
`Parse` of `[[3][4]]` the Array of the Arrays of 3 and of 4, with no error.
After an element `parseArray` sets `prevTok` from its copy of the first token
of the element, which is `[` for an Array, and the test for a missing comma
lets every token pass after `[`.  The inputs `[1 true]` and `[3[4]]` of
`TestJSONFailArray` do give the error "Array values must be
comma-separated". -/
theorem array_elements_without_comma (L : GoLib) :
    json.Inject L "[[]1]" [] =
      some (json.Outcome.ok (Value.array [Value.array [], Value.integer 1])) ∧
    json.Inject L "[[3][4]]" [] =
      some (json.Outcome.ok
        (Value.array [Value.array [Value.integer 3], Value.array [Value.integer 4]])) ∧
    json.Inject L "[1 true]" [] = some (json.Outcome.err json.Err.valuesNotSeparated) ∧
    json.Inject L "[3[4]]" [] = some (json.Outcome.err json.Err.valuesNotSeparated) :=
  ⟨json.endsWith_eq rfl, json.endsWith_eq rfl, rfl, rfl⟩

/-- C33. Object members need no comma between them: `Parse` of
`{"a":1 "b":2}` returns the Object with `a` = 1 and `b` = 2 and no error, for
every bound on the depth of the parse from 5 on.  `parseObject` reads a member
whenever the token is a string and looks at `prevTok` only for `}` and `,`.
The input `{"a":"a" 123}` of `TestJSONFailObject`, where a number stands in
the place of the second key, does give the error "Left brace { not followed by
comma-separated string: value pairs or right brace }". -/
theorem object_members_without_comma (L : GoLib) :
    (∀ fuel : Nat, json.InjectFuel L (fuel + 5) json.twoMembers [] =
      some (json.Outcome.ok (Value.object [("a", Value.integer 1), ("b", Value.integer 2)]))) ∧
    json.Inject L "\x7b\"a\":1 \"b\":2\x7d" [] =
      some (json.Outcome.ok (Value.object [("a", Value.integer 1), ("b", Value.integer 2)])) ∧
    json.Inject L "\x7b\"a\":\"a\" 123\x7d" [] =
      some (json.Outcome.err json.Err.leftBraceNotFollowed) := by
  refine ⟨json.twoMembers_accepted L, ?_, rfl⟩
  rw [json.Inject_eq L "\x7b\"a\":1 \"b\":2\x7d" [] 40 5 (by decide)]
  exact json.twoMembers_accepted L 40

/-- C40. Parsing with injections need not end: for every list of injection
values and every bound on the number of steps, `Inject` of `{{a.b}}` has not
returned when the bound is reached.  At the `.` the scanner returns the error
"Illegal token" without moving on, `parseInjection` drops the error of
`p.next()` and calls itself on the same state.  And `Inject` of `{{a}}` with no
injection values neither returns a value nor an error: it panics on the index
`p.injections[p.currInj]`. -/
theorem injection_need_not_end (L : GoLib) :
    (∀ (vals : List Value) (fuel : Nat),
      json.InjectFuel L fuel "\x7b\x7ba.b\x7d\x7d".data vals = none) ∧
    (∀ vals : List Value, json.Inject L "\x7b\x7ba.b\x7d\x7d" vals = none) ∧
    (json.stuckParser []).next L = some (json.stuckParser [], some json.Err.illegalToken) ∧
    (∀ fuel : Nat, json.InjectFuel L (fuel + 4) "\x7b\x7ba\x7d\x7d".data [] =
      some json.Outcome.panic) ∧
    json.Inject L "\x7b\x7ba\x7d\x7d" [] = some json.Outcome.panic :=
  ⟨json.inject_stuck L, fun vals => json.inject_stuck L vals _, rfl, fun _ => rfl, rfl⟩

/-! ## pkg/translator: a text without a HEREDOC -/

theorem byteLen_append (xs ys : List Char) : byteLen (xs ++ ys) = byteLen xs + byteLen ys := by
  induction xs with
  | nil => simp [byteLen]
  | cons x xs ih => simp [byteLen, ih, Nat.add_assoc]

theorem sliceBytes_full (src : List Char) : sliceBytes src 0 (byteLen src) = src := by
  induction src with
  | nil => rfl
  | cons c cs ih => simp [sliceBytes, byteLen, ih]

theorem translator.next_good (src : List Char) (hnul : '\x00' ∉ src)
    (hlt : ¬ ['<', '<'] <:+: src) (s : translator.Scanner) (hg : translator.Good src s) :
    ∃ s' c, s.next = translator.Out.ok (s', c) ∧ translator.Good src s' ∧
      translator.left s' ≤ translator.left s ∧
      (s.ch ≠ eof → translator.left s' < translator.left s) := by
  obtain ⟨buf, ssrc, ch, pos, prev, len⟩ := s
  obtain ⟨hsrc, ⟨pre, hpre, hoff⟩, _, heof⟩ := hg
  simp only at hsrc hpre hoff heof
  cases buf with
  | nil =>
    refine ⟨⟨[], ssrc, eof, ⟨pos.Offset + len, pos.Line, pos.Column + 1⟩, prev, 0⟩, eof, rfl,
      ⟨hsrc, ⟨pre, hpre, hoff⟩, ?_, ?_⟩, ?_, ?_⟩
    · intro h; exact absurd (show eof = '<' from h) (by decide)
    · intro _; exact ⟨rfl, rfl⟩
    · simp [translator.left]
    · intro h
      have h' : (ch = eof) = False := eq_false h
      simp [translator.left, h']
  | cons r rest =>
    have hmem : r ∈ src := by rw [hpre]; simp
    have hr0 : r ≠ '\x00' := fun h => hnul (h ▸ hmem)
    have hgood : ∀ line col : Nat,
        translator.Good src ⟨rest, ssrc, r, ⟨pos.Offset + len, line, col⟩, pos, r.utf8Size⟩ := by
      intro line col
      refine ⟨hsrc, ⟨pre ++ [r], by simpa using hpre, ?_⟩, ?_, ?_⟩
      · simp only [hoff, byteLen_append, byteLen, Nat.add_zero]
      · intro h hh
        simp only at h hh
        cases rest with
        | nil => simp at hh
        | cons r2 rest2 =>
          simp only [List.head?_cons, Option.some.injEq] at hh
          apply hlt
          rw [hpre, h, hh]
          exact ⟨pre, rest2, by simp⟩
      · intro h; exact absurd h hr0
    have hleft : ∀ line col : Nat,
        translator.left ⟨rest, ssrc, r, ⟨pos.Offset + len, line, col⟩, pos, r.utf8Size⟩ <
          translator.left ⟨r :: rest, ssrc, ch, pos, prev, len⟩ := by
      intro line col
      have h' : (r = eof) = False := eq_false hr0
      have hc : (ch = eof) = False := eq_false fun hc => absurd (heof hc).1 (by simp)
      simp only [translator.left, List.length_cons, h', hc, if_false]
      omega
    by_cases hn : r = '\n'
    · refine ⟨⟨rest, ssrc, r, ⟨pos.Offset + len, pos.Line + 1, 0⟩, pos, r.utf8Size⟩, r, ?_,
        hgood _ _, Nat.le_of_lt (hleft _ _), fun _ => hleft _ _⟩
      simp only [translator.Scanner.next, hn, if_true]
    · refine ⟨⟨rest, ssrc, r, ⟨pos.Offset + len, pos.Line, pos.Column + 1⟩, pos, r.utf8Size⟩, r,
        ?_, hgood _ _, Nat.le_of_lt (hleft _ _), fun _ => hleft _ _⟩
      simp only [translator.Scanner.next, hn, hr0, if_false]

theorem translator.skipWhitespace_good (src : List Char) (hnul : '\x00' ∉ src)
    (hlt : ¬ ['<', '<'] <:+: src) :
    ∀ (fuel : Nat) (s : translator.Scanner), translator.Good src s → translator.left s < fuel →
      ∃ s', translator.Scanner.skipWhitespace fuel s = some (translator.Out.ok s') ∧
        translator.Good src s' ∧ translator.left s' ≤ translator.left s := by
  intro fuel
  induction fuel with
  | zero => intro s _ h; omega
  | succ n ih =>
    intro s hg hf
    rw [translator.Scanner.skipWhitespace]
    by_cases hw : s.ch = ' ' ∨ s.ch = '\t' ∨ s.ch = '\r'
    · have hne : s.ch ≠ eof := by
        rcases hw with h | h | h <;> rw [h] <;> decide
      obtain ⟨s1, c, h1, hg1, _, hlt1⟩ := translator.next_good src hnul hlt s hg
      obtain ⟨s2, h2, hg2, hl2⟩ := ih s1 hg1 (by have := hlt1 hne; omega)
      refine ⟨s2, ?_, hg2, by have := hlt1 hne; omega⟩
      simp only [hw, if_true, h1, h2]
    · exact ⟨s, by simp only [hw, if_false], hg, Nat.le_refl _⟩

theorem translator.Scan_plain (src : List Char) (hnul : '\x00' ∉ src)
    (hlt : ¬ ['<', '<'] <:+: src) (fuel : Nat) (s : translator.Scanner)
    (hg : translator.Good src s) (hne : s.ch ≠ eof) (hf : translator.left s < fuel) :
    ∃ s', translator.Scanner.Scan fuel s = some (translator.Out.ok (s', [])) ∧
      translator.Good src s' ∧ translator.left s' < translator.left s := by
  obtain ⟨s1, h1, hg1, hl1⟩ := translator.skipWhitespace_good src hnul hlt fuel s hg hf
  obtain ⟨s2, c, h2, hg2, hle2, hlt2⟩ := translator.next_good src hnul hlt s1 hg1
  have hpeek : s1.ch = '<' → s1.peek ≠ '<' := by
    intro hc hp
    apply hg1.2.2.1 hc
    cases hb : s1.buf with
    | nil => simp only [translator.Scanner.peek, hb] at hp; exact absurd hp (by decide)
    | cons r rest => simp only [translator.Scanner.peek, hb] at hp; simp [hp]
  have hleft : translator.left s2 < translator.left s := by
    by_cases he : s1.ch = eof
    · have h0 : translator.left s1 = 0 := by
        simp [translator.left, he, (hg1.2.2.2 he).1]
      have h1 : 0 < translator.left s := by
        simp only [translator.left, hne, if_false]; omega
      omega
    · have := hlt2 he; omega
  refine ⟨s2, ?_, hg2, hleft⟩
  rw [translator.Scanner.Scan]
  by_cases hc : s1.ch = '<'
  · simp only [h1, hc, if_true, hpeek hc, if_false, h2]
  · simp only [h1, hc, if_false, h2]

theorem translator.stringLoop_plain (src : List Char) (hnul : '\x00' ∉ src)
    (hlt : ¬ ['<', '<'] <:+: src) (inner : Nat) :
    ∀ (fuel : Nat) (t : translator.Translator), translator.Good src t.scanner → t.src = src →
      t.res = [] → translator.left t.scanner < fuel → translator.left t.scanner < inner →
      ∃ t', translator.stringLoop inner fuel t 0 = some (translator.Out.ok (t', 0)) ∧
        t'.res = [] ∧ t'.src = src ∧ translator.Good src t'.scanner ∧ t'.scanner.ch = eof := by
  intro fuel
  induction fuel with
  | zero => intro t _ _ _ h; omega
  | succ n ih =>
    intro t hg hs hr hf hi
    rw [translator.stringLoop]
    by_cases he : t.scanner.ch = eof
    · exact ⟨t, by simp only [he, ne_eq, not_true_eq_false, if_false], hr, hs, hg, he⟩
    · obtain ⟨s1, h1, hg1, hl1⟩ := translator.Scan_plain src hnul hlt inner t.scanner hg he hi
      obtain ⟨t', ht, hres⟩ := ih { t with scanner := s1, currBlock := [], res := t.res } hg1 hs hr
        (by show translator.left s1 < n; omega) (by show translator.left s1 < inner; omega)
      refine ⟨t', ?_, hres⟩
      simp only [ne_eq, he, not_false_eq_true, if_true, h1, translator.stringTokens]
      exact ht

/-- C34. Translation leaves a text without a HEREDOC alone: for every text
`src` with no null character in which no `<` is followed by another `<`,
`NewTranslator(src).TranslateToString()` returns, and what it returns is
`src`. -/
theorem translate_plain_unchanged (src : List Char) (hnul : '\x00' ∉ src)
    (hlt : ¬ ['<', '<'] <:+: src) :
    translator.TranslateToString src = some (translator.Out.ok src) := by
  have hg : translator.Good src (translator.NewTranslator src).scanner :=
    ⟨rfl, ⟨[], rfl, rfl⟩, fun h => absurd (show ' ' = '<' from h) (by decide),
      fun h => absurd (show ' ' = eof from h) (by decide)⟩
  have hl : translator.left (translator.NewTranslator src).scanner < src.length + 2 := by
    show src.length + (if ' ' = eof then 0 else 1) < src.length + 2
    have : (' ' = eof) = False := eq_false (by decide)
    simp only [this, if_false]
    omega
  obtain ⟨t', ht, hres, hsrc, hg', he⟩ := translator.stringLoop_plain src hnul hlt
    (src.length + 2) (src.length + 2) (translator.NewTranslator src) hg rfl rfl hl hl
  obtain ⟨hs, ⟨pre, hpre, hoff⟩, _, heof⟩ := hg'
  obtain ⟨hb, hz⟩ := heof he
  have hoffs : t'.scanner.srcPos.Offset = byteLen src := by
    rw [hb, List.append_nil] at hpre
    rw [hz, Nat.add_zero] at hoff
    rw [hoff, hpre]
  simp only [translator.TranslateToString, translator.Translator.TranslateFuel, ht, hsrc, hoffs,
    translator.slice, Nat.zero_le, Nat.le_refl, and_self, if_true, sliceBytes_full, hres,
    List.nil_append]

theorem translate_plain_unchanged_witness :
    '\x00' ∉ "var test1 int = 2;\nvar test2 int = 2".data ∧
    ¬ ['<', '<'] <:+: "var test1 int = 2;\nvar test2 int = 2".data ∧
    translator.TranslateToString "var test1 int = 2;\nvar test2 int = 2".data =
      some (translator.Out.ok "var test1 int = 2;\nvar test2 int = 2".data) :=
  ⟨by decide, by decide,
    translate_plain_unchanged "var test1 int = 2;\nvar test2 int = 2".data (by decide) (by decide)⟩

end Porter
